import Mathlib

/-!
# A limit order book: model of `orderBook.cpp` and its matching properties

The C++ program keeps two `std::map`s of price levels (bids, greatest price
first; asks, least price first), each level a `std::list` of shared pointers
to `Order` objects, and an `std::unordered_map` from order id to the pointer
and the list iterator of the order.

Modelling choices.

* A `shared_ptr<Order>` is an `OrderPointer`: the address of the object
  together with the object it points to.  A write through one alias
  (`Order::Fill` in the crossing loop) is propagated to the alias kept in the
  index (`Index.store`).  A list iterator is the address of the order held by
  the list node it designates.
* `std::map` is an association list kept in comparator order, and
  `std::unordered_map` an association list with unique keys (its iteration
  order is never observed by the program).
* `Price` and `Quantity` are `int32_t`; they are integers here and the two
  arithmetic operations of the program (`remainingQuantity_ -= quantity`, and
  the sum in `GetOrderInfos`) wrap to 32 bits (`wrapInt32`).
* A call either returns, throws leaving a book behind, or has no result
  (`Outcome`): the crossing loop can spin forever on an empty front level,
  and `front()` of an empty list or `erase` of a foreign iterator is
  undefined.
* Two references of the program outlive the node they refer to: the level
  reference of the inner crossing loop after `erase` of that level (the loop
  condition then reads the size of the list, which was empty when it was
  erased), and `existingOrder` in `MatchOrder` after `CancelOrder` (the type
  is the one the order had when the reference was bound).  The first reading
  is what the program finds as long as nothing is allocated between the
  `erase` and the read.  The one allocation there can be is that of
  `trades.push_back` once the trades outgrow the capacity that
  `trades.reserve(orders_.size())` has set.  With ids that are not duplicated
  the index has one key per resting order and every trade takes an order out,
  so the capacity is never outgrown.  With a
  duplicated id the index can be smaller than the number of trades; the
  program then reads a freed node that may have been reused, which is
  undefined and not described by `matchStep`.
-/

namespace OrderBook

/-! ## Data model -/

inductive OrderType where
  | GoodTillCancel
  | FillOrKill
deriving DecidableEq, Repr

inductive Side where
  | Buy
  | Sell
deriving DecidableEq, Repr

abbrev Price := Int
abbrev Quantity := Int
abbrev OrderId := Nat

/-- Two's complement reduction of an integer to the range of `int32_t`. -/
def wrapInt32 (x : Int) : Int := (x + 2147483648) % 4294967296 - 2147483648

/-- The values an `int32_t` can hold. -/
def isInt32 (x : Int) : Prop := -2147483648 ≤ x ∧ x < 2147483648

instance (x : Int) : Decidable (isInt32 x) := by
  unfold isInt32; infer_instance

structure LevelInfo where
  price_ : Price
  quantity_ : Quantity
deriving DecidableEq, Repr

abbrev LevelInfos := List LevelInfo

structure OrderbookLevelInfos where
  bids_ : LevelInfos
  asks_ : LevelInfos
deriving DecidableEq, Repr

def OrderbookLevelInfos.GetBids (i : OrderbookLevelInfos) : LevelInfos := i.bids_

def OrderbookLevelInfos.GetAsks (i : OrderbookLevelInfos) : LevelInfos := i.asks_

inductive Exception where
  | logic_error
  | out_of_range
deriving DecidableEq, Repr

structure Order where
  orderType_ : OrderType
  orderId_ : OrderId
  side_ : Side
  price_ : Price
  initialQuantity_ : Quantity
  remainingQuantity_ : Quantity
deriving DecidableEq, Repr

/-- The constructor `Order(orderType, orderId, side, price, quantity)`. -/
def Order.new (orderType : OrderType) (orderId : OrderId) (side : Side) (price : Price)
    (quantity : Quantity) : Order :=
  { orderType_ := orderType, orderId_ := orderId, side_ := side, price_ := price,
    initialQuantity_ := quantity, remainingQuantity_ := quantity }

def Order.GetOrderId (o : Order) : OrderId := o.orderId_

def Order.GetSide (o : Order) : Side := o.side_

def Order.GetPrice (o : Order) : Price := o.price_

def Order.GetOrderType (o : Order) : OrderType := o.orderType_

def Order.GetInitialQuantity (o : Order) : Quantity := o.initialQuantity_

def Order.GetRemainingQuantity (o : Order) : Quantity := o.remainingQuantity_

def Order.getFilledQuantity (o : Order) : Quantity :=
  wrapInt32 (o.GetInitialQuantity - o.GetRemainingQuantity)

def Order.isFilled (o : Order) : Bool := decide (o.GetRemainingQuantity = 0)

/-- `Order::Fill`: throws when asked for more than the remaining quantity. -/
def Order.Fill (o : Order) (quantity : Quantity) : Except Exception Order :=
  if quantity > o.GetRemainingQuantity then .error .logic_error
  else .ok { o with remainingQuantity_ := wrapInt32 (o.remainingQuantity_ - quantity) }

/-- A `std::shared_ptr<Order>`: the address of the object and the object. -/
structure OrderPointer where
  addr : Nat
  obj : Order
deriving DecidableEq, Repr

abbrev OrderPointers := List OrderPointer

structure OrderModify where
  orderId_ : OrderId
  price_ : Price
  side_ : Side
  quantity_ : Quantity
deriving DecidableEq, Repr

def OrderModify.GetOrderId (m : OrderModify) : OrderId := m.orderId_

def OrderModify.GetQuantity (m : OrderModify) : Quantity := m.quantity_

def OrderModify.GetPrice (m : OrderModify) : Price := m.price_

def OrderModify.GetSide (m : OrderModify) : Side := m.side_

/-- `OrderModify::toOrderPointer`; `addr` is the address `make_shared` returns. -/
def OrderModify.toOrderPointer (m : OrderModify) (orderType : OrderType) (addr : Nat) :
    OrderPointer :=
  { addr := addr,
    obj := Order.new orderType m.GetOrderId m.GetSide m.GetPrice m.GetQuantity }

structure TradeInfo where
  orderId_ : OrderId
  price_ : Price
  quantity_ : Quantity
deriving DecidableEq, Repr

structure Trade where
  bidTrade_ : TradeInfo
  askTrade_ : TradeInfo
deriving DecidableEq, Repr

def Trade.GetBidTrade (t : Trade) : TradeInfo := t.bidTrade_

def Trade.GetAskTrade (t : Trade) : TradeInfo := t.askTrade_

abbrev Trades := List Trade

/-! ## Containers -/

/-- A `std::map<Price, OrderPointers, Compare>`: levels in comparator order. -/
abbrev Ledger := List (Price × OrderPointers)

/-- `map::at`: the list of the level with key `k`, if there is one. -/
def Ledger.at : Ledger → Price → Option OrderPointers
  | [], _ => none
  | (p, orders) :: rest, k => if p = k then some orders else Ledger.at rest k

/-- `map::erase(key)`. -/
def Ledger.erase : Ledger → Price → Ledger
  | [], _ => []
  | (p, orders) :: rest, k => if p = k then rest else (p, orders) :: Ledger.erase rest k

/-- Writing `orders` through the reference that `at(k)` returned. -/
def Ledger.assign : Ledger → Price → OrderPointers → Ledger
  | [], _, _ => []
  | (p, orders) :: rest, k, v =>
    if p = k then (p, v) :: rest else (p, orders) :: Ledger.assign rest k v

/-- The two statements `auto& orders = m[price]; orders.push_back(order)`:
`before a b` is the comparator of the map (`a` is ordered before `b`). -/
def Ledger.push_back (before : Price → Price → Bool) : Ledger → Price → OrderPointer → Ledger
  | [], k, o => [(k, [o])]
  | (p, orders) :: rest, k, o =>
    if p = k then (p, orders ++ [o]) :: rest
    else if before k p then (k, [o]) :: (p, orders) :: rest
    else (p, orders) :: Ledger.push_back before rest k o

/-- Comparator `std::greater<Price>` of the bid map. -/
def greaterPrice (a b : Price) : Bool := decide (a > b)

/-- Comparator `std::less<Price>` of the ask map. -/
def lessPrice (a b : Price) : Bool := decide (a < b)

/-- `list::erase(iterator)`: unlink the node whose order lives at `location`. -/
def OrderPointers.eraseAt : OrderPointers → Nat → OrderPointers
  | [], _ => []
  | o :: rest, location =>
    if o.addr = location then rest else o :: OrderPointers.eraseAt rest location

/-- Whether the iterator `location` designates a node of this list. -/
def OrderPointers.hasNode (orders : OrderPointers) (location : Nat) : Bool :=
  orders.any (fun o => decide (o.addr = location))

structure OrderEntry where
  order_ : OrderPointer
  location_ : Nat
deriving DecidableEq, Repr

/-- The `std::unordered_map<OrderId, OrderEntry>`. -/
abbrev Index := List (OrderId × OrderEntry)

/-- `unordered_map::at`. -/
def Index.at : Index → OrderId → Option OrderEntry
  | [], _ => none
  | (k, e) :: rest, id => if k = id then some e else Index.at rest id

/-- `unordered_map::insert`: no effect when the key is already present. -/
def Index.insert (m : Index) (id : OrderId) (e : OrderEntry) : Index :=
  match Index.at m id with
  | some _ => m
  | none => (id, e) :: m

/-- `unordered_map::erase(key)`. -/
def Index.erase : Index → OrderId → Index
  | [], _ => []
  | (k, e) :: rest, id => if k = id then rest else (k, e) :: Index.erase rest id

/-- The effect on the index of a write to the object at `p.addr`: the alias
held by an index entry sees the new value. -/
def Index.store : Index → OrderPointer → Index
  | [], _ => []
  | (k, e) :: rest, p =>
    (k, if e.order_.addr = p.addr then { e with order_ := p } else e) :: Index.store rest p

/-! ## The order book -/

structure Orderbook where
  bids_ : Ledger
  asks_ : Ledger
  orders_ : Index
deriving DecidableEq, Repr

/-- The default constructed book. -/
def Orderbook.empty : Orderbook := { bids_ := [], asks_ := [], orders_ := [] }

/-- The ways a call can fail to come back. -/
inductive Failure where
  | diverges
  | undefined
deriving DecidableEq, Repr

/-- The result of a call on a book: a value and the book it leaves, an
exception and the book it leaves, or no result. -/
inductive Outcome (α : Type) where
  | returns (value : α) (book : Orderbook)
  | throws (e : Exception) (book : Orderbook)
  | fails (f : Failure)
deriving DecidableEq, Repr

/-- Sequencing of calls: the second runs on the book the first returned. -/
def Outcome.andThen {α β : Type} (x : Outcome α) (f : α → Orderbook → Outcome β) : Outcome β :=
  match x with
  | .returns a ob => f a ob
  | .throws e ob => .throws e ob
  | .fails k => .fails k

/-- The book a call leaves behind, when it returns or throws. -/
def Outcome.book? {α : Type} : Outcome α → Option Orderbook
  | .returns _ ob => some ob
  | .throws _ ob => some ob
  | .fails _ => none

def Orderbook.canMatch (ob : Orderbook) (side : Side) (price : Price) : Bool :=
  match side with
  | .Buy =>
    match ob.asks_ with
    | [] => false
    | (bestAsk, _) :: _ => decide (bestAsk ≤ price)
  | .Sell =>
    match ob.bids_ with
    | [] => false
    | (bestBid, _) :: _ => decide (bestBid ≥ price)

def Orderbook.CancelOrder (ob : Orderbook) (orderId : OrderId) : Outcome Unit :=
  match Index.at ob.orders_ orderId with
  | none => .throws .out_of_range ob
  | some entry =>
    let price := entry.order_.obj.GetPrice
    if entry.order_.obj.GetSide = Side.Sell then
      match Ledger.at ob.asks_ price with
      | none => .throws .out_of_range ob
      | some orders =>
        if OrderPointers.hasNode orders entry.location_ then
          let orders1 := OrderPointers.eraseAt orders entry.location_
          let asks1 := Ledger.assign ob.asks_ price orders1
          let asks2 := if orders1.isEmpty then Ledger.erase asks1 price else asks1
          .returns () { ob with asks_ := asks2, orders_ := Index.erase ob.orders_ orderId }
        else .fails .undefined
    else
      match Ledger.at ob.bids_ price with
      | none => .throws .out_of_range ob
      | some orders =>
        if OrderPointers.hasNode orders entry.location_ then
          let orders1 := OrderPointers.eraseAt orders entry.location_
          let bids1 := Ledger.assign ob.bids_ price orders1
          let bids2 := if orders1.isEmpty then Ledger.erase bids1 price else bids1
          .returns () { ob with bids_ := bids2, orders_ := Index.erase ob.orders_ orderId }
        else .fails .undefined

/-- What one pass through the crossing loop of `MatchOrders` does. -/
inductive StepResult where
  | done
  | stuck
  | next (trade : Trade) (book : Orderbook)
  | raise (e : Exception) (book : Orderbook)
deriving DecidableEq, Repr

/-- One pass of the crossing loop: `done` when the outer loop breaks, `next`
after one iteration of the inner loop, `stuck` when the outer loop is entered
with an empty front level (the inner loop is skipped and nothing changes).
After an iteration that erases a level, the condition of the inner loop reads
the size of the erased list; it is taken to be 0, as it was when the level was
erased, so that the next pass starts at the outer loop. This is what the
program reads unless `trades.push_back` has allocated in between, which needs
more trades than `orders_.size()` was at the start of `MatchOrders`. -/
def Orderbook.matchStep (ob : Orderbook) : StepResult :=
  match ob.bids_, ob.asks_ with
  | [], _ => .done
  | _ :: _, [] => .done
  | (bidPrice, bids) :: bidsRest, (askPrice, asks) :: asksRest =>
    if bidPrice < askPrice then .done
    else
      match bids, asks with
      | bidOrder :: bidsTail, askOrder :: asksTail =>
        let tradeQuantity :=
          min bidOrder.obj.GetRemainingQuantity askOrder.obj.GetRemainingQuantity
        match bidOrder.obj.Fill tradeQuantity with
        | .error e => .raise e ob
        | .ok bidObj =>
          let bidFilled : OrderPointer := { bidOrder with obj := bidObj }
          let orders1 := Index.store ob.orders_ bidFilled
          match askOrder.obj.Fill tradeQuantity with
          | .error e =>
            .raise e { ob with bids_ := (bidPrice, bidFilled :: bidsTail) :: bidsRest,
                               orders_ := orders1 }
          | .ok askObj =>
            let askFilled : OrderPointer := { askOrder with obj := askObj }
            let orders2 := Index.store orders1 askFilled
            let bids1 := if bidObj.isFilled then bidsTail else bidFilled :: bidsTail
            let orders3 :=
              if bidObj.isFilled then Index.erase orders2 bidObj.GetOrderId else orders2
            let asks1 := if askObj.isFilled then asksTail else askFilled :: asksTail
            let orders4 :=
              if askObj.isFilled then Index.erase orders3 askObj.GetOrderId else orders3
            let bidsMap :=
              if bids1.isEmpty then Ledger.erase ((bidPrice, bids1) :: bidsRest) bidPrice
              else (bidPrice, bids1) :: bidsRest
            let asksMap :=
              if asks1.isEmpty then Ledger.erase ((askPrice, asks1) :: asksRest) askPrice
              else (askPrice, asks1) :: asksRest
            .next
              { bidTrade_ := { orderId_ := bidObj.GetOrderId, price_ := bidObj.GetPrice,
                               quantity_ := tradeQuantity },
                askTrade_ := { orderId_ := askObj.GetOrderId, price_ := askObj.GetPrice,
                               quantity_ := tradeQuantity } }
              { bids_ := bidsMap, asks_ := asksMap, orders_ := orders4 }
      | _, _ => .stuck

/-- The crossing loop, bounded by `fuel` passes. -/
def Orderbook.matchLoop : Nat → Orderbook → Trades → Outcome Trades
  | 0, _, _ => .fails .diverges
  | fuel + 1, ob, trades =>
    match ob.matchStep with
    | .done => .returns trades ob
    | .stuck => .fails .diverges
    | .next trade ob1 => Orderbook.matchLoop fuel ob1 (trades ++ [trade])
    | .raise e ob1 => .throws e ob1

/-- All orders of a ledger, best level first, each level in arrival order. -/
def Ledger.orders (m : Ledger) : OrderPointers := m.flatMap (fun level => level.2)

/-- Number of orders resting in the two ledgers. -/
def Orderbook.resting (ob : Orderbook) : Nat :=
  (Ledger.orders ob.bids_).length + (Ledger.orders ob.asks_).length

/-- The post-loop inspection of the front order of the best level of `ledger`. -/
def Orderbook.sweepFront (ob : Orderbook) (ledger : Ledger) : Outcome Unit :=
  match ledger with
  | [] => .returns () ob
  | (_, []) :: _ => .fails .undefined
  | (_, order :: _) :: _ =>
    if order.obj.GetOrderType = OrderType.FillOrKill then ob.CancelOrder order.obj.GetOrderId
    else .returns () ob

/-- `MatchOrders`: every pass of the loop that produces a trade removes an
order, so the loop is given one pass more than there are resting orders. -/
def Orderbook.MatchOrders (ob : Orderbook) : Outcome Trades :=
  (Orderbook.matchLoop (ob.resting + 1) ob []).andThen fun trades ob1 =>
    (ob1.sweepFront ob1.bids_).andThen fun _ ob2 =>
      (ob2.sweepFront ob2.asks_).andThen fun _ ob3 =>
        .returns trades ob3

def Orderbook.AddOrder (ob : Orderbook) (order : OrderPointer) : Outcome Trades :=
  if order.obj.GetOrderType = OrderType.FillOrKill ∧
      ob.canMatch order.obj.GetSide order.obj.GetPrice = false then
    .returns [] ob
  else
    let ob1 : Orderbook :=
      if order.obj.GetSide = Side.Buy then
        { ob with bids_ := Ledger.push_back greaterPrice ob.bids_ order.obj.GetPrice order }
      else
        { ob with asks_ := Ledger.push_back lessPrice ob.asks_ order.obj.GetPrice order }
    let ob2 : Orderbook :=
      { ob1 with orders_ := Index.insert ob1.orders_ order.obj.GetOrderId
                              { order_ := order, location_ := order.addr } }
    ob2.MatchOrders

/-- `MatchOrder` (the modify operation); `addr` is the address of the order
object that `toOrderPointer` allocates. -/
def Orderbook.MatchOrder (ob : Orderbook) (order : OrderModify) (addr : Nat) : Outcome Trades :=
  match Index.at ob.orders_ order.GetOrderId with
  | none => .throws .out_of_range ob
  | some existing =>
    (ob.CancelOrder order.GetOrderId).andThen fun _ ob1 =>
      ob1.AddOrder (order.toOrderPointer existing.order_.obj.GetOrderType addr)

def Orderbook.Size (ob : Orderbook) : Nat := ob.orders_.length

/-- The lambda `CreateLevelInfos` of `GetOrderInfos`. -/
def CreateLevelInfos (price : Price) (orders : OrderPointers) : LevelInfo :=
  { price_ := price,
    quantity_ := orders.foldl (fun sum order => wrapInt32 (sum + order.obj.GetRemainingQuantity)) 0 }

def Orderbook.GetOrderInfos (ob : Orderbook) : OrderbookLevelInfos :=
  { bids_ := ob.bids_.map (fun level => CreateLevelInfos level.1 level.2),
    asks_ := ob.asks_.map (fun level => CreateLevelInfos level.1 level.2) }

/-! ## Predicates used by the statements -/

/-- The orders resting in the book: bids first, then asks. -/
def Orderbook.allOrders (ob : Orderbook) : OrderPointers :=
  Ledger.orders ob.bids_ ++ Ledger.orders ob.asks_

/-- Addresses of the resting orders. -/
def Orderbook.addrs (ob : Orderbook) : List Nat := ob.allOrders.map (fun o => o.addr)

/-- Ids of the resting orders. -/
def Orderbook.ids (ob : Orderbook) : List OrderId :=
  ob.allOrders.map (fun o => o.obj.orderId_)

/-- Ids of the orders of one ledger. -/
def Ledger.ids (m : Ledger) : List OrderId := (Ledger.orders m).map (fun o => o.obj.orderId_)

/-- The ledger of a side. -/
def Orderbook.ledger (ob : Orderbook) : Side → Ledger
  | .Buy => ob.bids_
  | .Sell => ob.asks_

/-- The leg of a trade that belongs to a side. -/
def Trade.leg (t : Trade) : Side → TradeInfo
  | .Buy => t.bidTrade_
  | .Sell => t.askTrade_

/-- A ledger as the map keeps it: keys in comparator order, no empty level,
and every order filed under its own price and side. -/
structure Ledger.WF (before : Price → Price → Prop) (side : Side) (m : Ledger) : Prop where
  sorted : m.Pairwise (fun x y => before x.1 y.1)
  nonempty : ∀ l ∈ m, l.2 ≠ []
  keyed : ∀ l ∈ m, ∀ o ∈ l.2, o.obj.price_ = l.1 ∧ o.obj.side_ = side

/-- The comparator `cmp` of a map decides the strict total order `before`. -/
structure Comparator (before : Price → Price → Prop) (cmp : Price → Price → Bool) : Prop where
  dec : ∀ a b, cmp a b = true ↔ before a b
  trans : ∀ a b c, before a b → before b c → before a c
  total : ∀ a b, a ≠ b → ¬ before a b → before b a
  irrefl : ∀ a, ¬ before a a

/-- The ledger once the order at `location` has left the level at `price`:
the three statements `orders.erase(iterator); if (orders.empty()) m.erase(price)`
of `CancelOrder`, on the list `orders` that `m.at(price)` returned. -/
def Ledger.unlink (m : Ledger) (price : Price) (orders : OrderPointers) (location : Nat) :
    Ledger :=
  if (OrderPointers.eraseAt orders location).isEmpty then
    Ledger.erase (Ledger.assign m price (OrderPointers.eraseAt orders location)) price
  else Ledger.assign m price (OrderPointers.eraseAt orders location)

/-- The order after a successful `Fill(quantity)`. -/
def OrderPointer.fill (o : OrderPointer) (quantity : Quantity) : OrderPointer :=
  { o with obj := { o.obj with
      remainingQuantity_ := wrapInt32 (o.obj.remainingQuantity_ - quantity) } }

/-- What one iteration of the inner crossing loop does to a ledger: the front
order of the front level is filled by `quantity`, popped if that fills it, and
the level erased if that empties it. -/
def Ledger.fillFront (m : Ledger) (quantity : Quantity) : Ledger :=
  match m with
  | (p, o :: t) :: r =>
    if (o.fill quantity).obj.isFilled then (if t.isEmpty then r else (p, t) :: r)
    else (p, o.fill quantity :: t) :: r
  | [] => []
  | (p, []) :: r => (p, []) :: r

/-- What one iteration of the inner crossing loop does to the index for the
order `o` it fills by `quantity`. -/
def Index.fillOrder (idx : Index) (o : OrderPointer) (quantity : Quantity) : Index :=
  if (o.fill quantity).obj.isFilled then
    Index.erase (Index.store idx (o.fill quantity)) o.obj.orderId_
  else Index.store idx (o.fill quantity)

/-- The orders left of a filled front order: nothing if it is filled. -/
def OrderPointer.afterFill (o : OrderPointer) (quantity : Quantity) : OrderPointers :=
  if (o.fill quantity).obj.isFilled then [] else [o.fill quantity]

/-- The trade of one iteration of the inner crossing loop. -/
def tradeOf (bid ask : OrderPointer) : Trade :=
  { bidTrade_ := { orderId_ := bid.obj.orderId_, price_ := bid.obj.price_,
                   quantity_ := min bid.obj.remainingQuantity_ ask.obj.remainingQuantity_ },
    askTrade_ := { orderId_ := ask.obj.orderId_, price_ := ask.obj.price_,
                   quantity_ := min bid.obj.remainingQuantity_ ask.obj.remainingQuantity_ } }

/-- The book once `AddOrder` has filed the order in its ledger and in the
index, before it calls `MatchOrders`. -/
def Orderbook.enter (ob : Orderbook) (order : OrderPointer) : Orderbook :=
  { bids_ := if order.obj.GetSide = Side.Buy then
               Ledger.push_back greaterPrice ob.bids_ order.obj.GetPrice order
             else ob.bids_,
    asks_ := if order.obj.GetSide = Side.Buy then ob.asks_
             else Ledger.push_back lessPrice ob.asks_ order.obj.GetPrice order,
    orders_ := Index.insert ob.orders_ order.obj.GetOrderId
                 { order_ := order, location_ := order.addr } }

/-- The post-loop sweep of `MatchOrders`: the front of the best bid level,
then the front of the best ask level. -/
def Orderbook.sweep (ob : Orderbook) : Outcome Unit :=
  (ob.sweepFront ob.bids_).andThen fun _ ob1 => ob1.sweepFront ob1.asks_

/-- The pointer `x` designates the order that `y` designates, possibly after
fills: same object, same type, id, side, price and initial quantity. -/
def OrderPointer.sameOrder (x y : OrderPointer) : Prop :=
  x.addr = y.addr ∧ x.obj.orderType_ = y.obj.orderType_ ∧ x.obj.orderId_ = y.obj.orderId_ ∧
    x.obj.side_ = y.obj.side_ ∧ x.obj.price_ = y.obj.price_ ∧
    x.obj.initialQuantity_ = y.obj.initialQuantity_

/-- The quantity that the trades `ts` record on the leg of side `s` for the
order `id`. -/
def tradedQuantity (s : Side) (id : OrderId) (ts : Trades) : Quantity :=
  ((ts.filter (fun t => decide ((t.leg s).orderId_ = id))).map
    (fun t => (t.leg s).quantity_)).sum

/-- The order in which the ledger of a side keeps its levels: greater prices
first for bids, smaller prices first for asks. -/
def Side.before : Side → Price → Price → Prop
  | .Buy => fun a b => a > b
  | .Sell => fun a b => a < b

/-- The other side. -/
def Side.opposite : Side → Side
  | .Buy => .Sell
  | .Sell => .Buy

/-- The aggregate quantity that a `GetOrderInfos` sequence reports at a
price: 0 when the sequence has no entry for the price. -/
def LevelInfos.quantityAt : LevelInfos → Price → Quantity
  | [], _ => 0
  | i :: rest, price => if i.price_ = price then i.quantity_ else LevelInfos.quantityAt rest price

/-- The sequence that `GetOrderInfos` reports for a side. -/
def OrderbookLevelInfos.ofSide (i : OrderbookLevelInfos) : Side → LevelInfos
  | .Buy => i.GetBids
  | .Sell => i.GetAsks

/-- Agreement of the index with the resting orders `nodes`: distinct objects,
distinct ids, and one entry per resting order, holding that order and its
list position. -/
structure IndexOK (nodes : OrderPointers) (idx : Index) : Prop where
  addrs : (nodes.map (fun o => o.addr)).Nodup
  ids : (nodes.map (fun o => o.obj.orderId_)).Nodup
  keys : (idx.map (fun kv => kv.1)).Nodup
  sound : ∀ kv ∈ idx, kv.2.order_ ∈ nodes ∧ kv.2.order_.obj.orderId_ = kv.1 ∧
    kv.2.location_ = kv.2.order_.addr
  complete : ∀ o ∈ nodes, (o.obj.orderId_, ({ order_ := o, location_ := o.addr } : OrderEntry)) ∈ idx

/-- The invariant that holds at every point of a call. -/
structure Orderbook.Consistent (ob : Orderbook) : Prop where
  bids : Ledger.WF (fun a b => a > b) Side.Buy ob.bids_
  asks : Ledger.WF (fun a b => a < b) Side.Sell ob.asks_
  index : IndexOK ob.allOrders ob.orders_
  ranges : ∀ o ∈ ob.allOrders, isInt32 o.obj.remainingQuantity_

/-- No bid level is priced at or above an ask level. -/
def Orderbook.Uncrossed (ob : Orderbook) : Prop :=
  ∀ b ∈ ob.bids_, ∀ a ∈ ob.asks_, b.1 < a.1

/-- Every resting order is Good-Till-Cancel. -/
def Orderbook.AllGTC (ob : Orderbook) : Prop :=
  ∀ o ∈ ob.allOrders, o.obj.orderType_ = OrderType.GoodTillCancel

/-- Only the front order of the best level of a ledger may be Fill-Or-Kill. -/
def Ledger.FokFront (m : Ledger) : Prop :=
  ∀ o ∈ (Ledger.orders m).tail, o.obj.orderType_ = OrderType.GoodTillCancel

/-- The invariant that holds between calls. -/
structure Orderbook.WF (ob : Orderbook) : Prop where
  consistent : ob.Consistent
  uncrossed : ob.Uncrossed
  gtc : ob.AllGTC

/-- A run of the crossing loop from one book to the book on which the outer
loop breaks, with the trades it produces in order. -/
inductive Run : Orderbook → Trades → Orderbook → Prop where
  | done (ob : Orderbook) : ob.matchStep = .done → Run ob [] ob
  | next (ob ob1 ob2 : Orderbook) (t : Trade) (ts : Trades) :
      ob.matchStep = .next t ob1 → Run ob1 ts ob2 → Run ob (t :: ts) ob2

/-- A pointer to a newly constructed order, as the callers of `AddOrder`
make it: `make_shared<Order>(type, id, side, price, quantity)` at `addr`. -/
def newOrder (addr : Nat) (orderType : OrderType) (orderId : OrderId) (side : Side)
    (price : Price) (quantity : Quantity) : OrderPointer :=
  { addr := addr, obj := Order.new orderType orderId side price quantity }

/-- Books reachable from the empty book by the public operations, each
admitting a newly allocated order whose id is not resting at the time. -/
inductive Reachable : Orderbook → Prop where
  | empty : Reachable Orderbook.empty
  | add (ob ob1 : Orderbook) (addr : Nat) (orderType : OrderType) (orderId : OrderId)
      (side : Side) (price : Price) (quantity : Quantity) :
      Reachable ob → addr ∉ ob.addrs → orderId ∉ ob.ids →
      isInt32 price → isInt32 quantity →
      (ob.AddOrder (newOrder addr orderType orderId side price quantity)).book? = some ob1 →
      Reachable ob1
  | cancel (ob ob1 : Orderbook) (orderId : OrderId) :
      Reachable ob → (ob.CancelOrder orderId).book? = some ob1 → Reachable ob1
  | modify (ob ob1 : Orderbook) (order : OrderModify) (addr : Nat) :
      Reachable ob → isInt32 order.price_ → isInt32 order.quantity_ →
      (∀ u ob2, ob.CancelOrder order.GetOrderId = .returns u ob2 → addr ∉ ob2.addrs) →
      (ob.MatchOrder order addr).book? = some ob1 → Reachable ob1

/-! ## Concrete books and orders used as test inputs -/

/-- A Good-Till-Cancel sell of 5 at 90, id 1. -/
def sell90 : OrderPointer := newOrder 0 OrderType.GoodTillCancel 1 Side.Sell 90 5

/-- A Good-Till-Cancel buy of 5 at 100, id 2. -/
def buy100 : OrderPointer := newOrder 1 OrderType.GoodTillCancel 2 Side.Buy 100 5

/-- The book in which only `sell90` rests. -/
def bookSell90 : Orderbook :=
  { bids_ := [], asks_ := [(90, [sell90])],
    orders_ := [(1, { order_ := sell90, location_ := 0 })] }

/-- A Good-Till-Cancel buy of 10 at 100, id 1. -/
def bid100 : OrderPointer := newOrder 0 OrderType.GoodTillCancel 1 Side.Buy 100 10

/-- A second Good-Till-Cancel buy of 10 at 100, id 2. -/
def bid100b : OrderPointer := newOrder 1 OrderType.GoodTillCancel 2 Side.Buy 100 10

/-- The book in which only `bid100` rests. -/
def bookBid100 : Orderbook :=
  { bids_ := [(100, [bid100])], asks_ := [],
    orders_ := [(1, { order_ := bid100, location_ := 0 })] }

/-- The book in which `bid100` rests ahead of `bid100b`. -/
def bookTwoBids : Orderbook :=
  { bids_ := [(100, [bid100, bid100b])], asks_ := [],
    orders_ := [(2, { order_ := bid100b, location_ := 1 }),
                (1, { order_ := bid100, location_ := 0 })] }

/-- A Fill-Or-Kill buy of 5 at 50, id 4. -/
def fokBuy50 : OrderPointer := newOrder 3 OrderType.FillOrKill 4 Side.Buy 50 5

/-- A Good-Till-Cancel sell of 15 at 100, id 3. -/
def sell100x15 : OrderPointer := newOrder 2 OrderType.GoodTillCancel 3 Side.Sell 100 15

/-- A Good-Till-Cancel buy of 10 at 101, id 2. -/
def bid101 : OrderPointer := newOrder 1 OrderType.GoodTillCancel 2 Side.Buy 101 10

/-- The book in which `bid101` rests above `bid100`. -/
def bookTwoLevels : Orderbook :=
  { bids_ := [(101, [bid101]), (100, [bid100])], asks_ := [],
    orders_ := [(2, { order_ := bid101, location_ := 1 }),
                (1, { order_ := bid100, location_ := 0 })] }

/-! ## Predicates and inputs of the invariants -/

/-- Sum of the remaining quantities of a list of orders, as an integer. -/
def OrderPointers.remaining (f : OrderPointers) : Int :=
  (f.map (fun o => o.obj.remainingQuantity_)).sum

/-- The orders of a ledger that rest at a price. -/
def Ledger.restingAt (m : Ledger) (price : Price) : OrderPointers :=
  (Ledger.orders m).filter (fun o => decide (o.obj.price_ = price))

/-- Sum of the quantities that trades record on the leg of a side, as an
integer. -/
def legTotal (s : Side) (ts : Trades) : Int := (ts.map (fun t => (t.leg s).quantity_)).sum

/-- The ledgers as the two maps keep them, holding distinct order objects;
nothing is asked of the index or of the ids. -/
structure Orderbook.Sound (ob : Orderbook) : Prop where
  bids : Ledger.WF (fun a b => a > b) Side.Buy ob.bids_
  asks : Ledger.WF (fun a b => a < b) Side.Sell ob.asks_
  addrs : ob.addrs.Nodup

/-- Every resting order has a remaining quantity between 0 and its initial
quantity, which is a 32-bit value. -/
def Orderbook.Bounded (ob : Orderbook) : Prop :=
  ∀ o ∈ ob.allOrders, 0 ≤ o.obj.remainingQuantity_ ∧
    o.obj.remainingQuantity_ ≤ o.obj.initialQuantity_ ∧ isInt32 o.obj.initialQuantity_

/-- Books reachable from the empty book by any sequence of the public
operations, each admitting a newly allocated order whose quantity satisfies
`ok`; the ids are not constrained. -/
inductive Reached (ok : Quantity → Prop) : Orderbook → Prop where
  | empty : Reached ok Orderbook.empty
  | add (ob ob1 : Orderbook) (addr : Nat) (orderType : OrderType) (orderId : OrderId)
      (side : Side) (price : Price) (quantity : Quantity) :
      Reached ok ob → addr ∉ ob.addrs → isInt32 price → isInt32 quantity → ok quantity →
      (ob.AddOrder (newOrder addr orderType orderId side price quantity)).book? = some ob1 →
      Reached ok ob1
  | cancel (ob ob1 : Orderbook) (orderId : OrderId) :
      Reached ok ob → (ob.CancelOrder orderId).book? = some ob1 → Reached ok ob1
  | modify (ob ob1 : Orderbook) (order : OrderModify) (addr : Nat) :
      Reached ok ob → isInt32 order.price_ → isInt32 order.quantity_ → ok order.quantity_ →
      (∀ u ob2, ob.CancelOrder order.GetOrderId = .returns u ob2 → addr ∉ ob2.addrs) →
      (ob.MatchOrder order addr).book? = some ob1 → Reached ok ob1

/-- Any quantity. -/
def anyQuantity : Quantity → Prop := fun _ => True

/-- A quantity that is not negative. -/
def nonNegative : Quantity → Prop := fun q => 0 ≤ q

/-- A Good-Till-Cancel buy of 2147483647 at 100, id 1. -/
def bidMax : OrderPointer := newOrder 0 OrderType.GoodTillCancel 1 Side.Buy 100 2147483647

/-- A second Good-Till-Cancel buy of 2147483647 at 100, id 2. -/
def bidMaxB : OrderPointer := newOrder 1 OrderType.GoodTillCancel 2 Side.Buy 100 2147483647

/-- The book in which only `bidMax` rests. -/
def bookBidMax : Orderbook :=
  { bids_ := [(100, [bidMax])], asks_ := [],
    orders_ := [(1, { order_ := bidMax, location_ := 0 })] }

/-- The book in which `bidMax` rests ahead of `bidMaxB`. -/
def bookTwoMax : Orderbook :=
  { bids_ := [(100, [bidMax, bidMaxB])], asks_ := [],
    orders_ := [(2, { order_ := bidMaxB, location_ := 1 }),
                (1, { order_ := bidMax, location_ := 0 })] }

/-- A Good-Till-Cancel sell of -1 at 100, id 2. -/
def sellMinusOne : OrderPointer := newOrder 1 OrderType.GoodTillCancel 2 Side.Sell 100 (-1)

/-- A Good-Till-Cancel buy of -5 at 100, id 1. -/
def bidMinusFive : OrderPointer := newOrder 0 OrderType.GoodTillCancel 1 Side.Buy 100 (-5)

/-- The book in which only `bidMinusFive` rests. -/
def bookMinusFive : Orderbook :=
  { bids_ := [(100, [bidMinusFive])], asks_ := [],
    orders_ := [(1, { order_ := bidMinusFive, location_ := 0 })] }

/-- A second Good-Till-Cancel buy of 10 at 100 with the id 1 of `bid100`. -/
def bid100same : OrderPointer := newOrder 1 OrderType.GoodTillCancel 1 Side.Buy 100 10

/-- The book after `bid100` and `bid100same` have been admitted: both rest,
and the index holds the first only. -/
def bookSameId : Orderbook :=
  { bids_ := [(100, [bid100, bid100same])], asks_ := [],
    orders_ := [(1, { order_ := bid100, location_ := 0 })] }

/-- A Good-Till-Cancel sell of 5 at 100, id 1. -/
def sell100 : OrderPointer := newOrder 0 OrderType.GoodTillCancel 1 Side.Sell 100 5

/-- The book in which only `sell100` rests. -/
def bookSell100 : Orderbook :=
  { bids_ := [], asks_ := [(100, [sell100])],
    orders_ := [(1, { order_ := sell100, location_ := 0 })] }

/-- A Fill-Or-Kill buy of 8 at 100 with the id 1 of `sell100`. -/
def fokBuySameId : OrderPointer := newOrder 1 OrderType.FillOrKill 1 Side.Buy 100 8

/-- A Good-Till-Cancel sell of 7 at 105, id 2. -/
def sell105 : OrderPointer := newOrder 1 OrderType.GoodTillCancel 2 Side.Sell 105 7

/-- The book in which `bid100` rests below `sell105`. -/
def bookBidAsk : Orderbook :=
  { bids_ := [(100, [bid100])], asks_ := [(105, [sell105])],
    orders_ := [(2, { order_ := sell105, location_ := 1 }),
                (1, { order_ := bid100, location_ := 0 })] }

/-- A Good-Till-Cancel sell of -3 at 100, id 2. -/
def sellMinusThree : OrderPointer := newOrder 1 OrderType.GoodTillCancel 2 Side.Sell 100 (-3)

/-- The order `bid100` with a remaining quantity of 13. -/
def bid100at13 : OrderPointer :=
  { addr := 0, obj := { bid100.obj with remainingQuantity_ := 13 } }

/-- The book in which `bid100` rests with a remaining quantity of 13. -/
def bookBid13 : Orderbook :=
  { bids_ := [(100, [bid100at13])], asks_ := [],
    orders_ := [(1, { order_ := bid100at13, location_ := 0 })] }

/-- The order `bidMax` with a remaining quantity of -2147483648. -/
def bidMaxWrapped : OrderPointer :=
  { addr := 0, obj := { bidMax.obj with remainingQuantity_ := -2147483648 } }

/-- The book in which `bidMax` rests with a remaining quantity of -2147483648. -/
def bookBidMaxWrapped : Orderbook :=
  { bids_ := [(100, [bidMaxWrapped])], asks_ := [],
    orders_ := [(1, { order_ := bidMaxWrapped, location_ := 0 })] }

/-- A Good-Till-Cancel buy of 1 at 100, id 2. -/
def bidOne : OrderPointer := newOrder 1 OrderType.GoodTillCancel 2 Side.Buy 100 1

/-- The book in which `bidMax` rests ahead of `bidOne`. -/
def bookMaxOne : Orderbook :=
  { bids_ := [(100, [bidMax, bidOne])], asks_ := [],
    orders_ := [(2, { order_ := bidOne, location_ := 1 }),
                (1, { order_ := bidMax, location_ := 0 })] }

/-- A Good-Till-Cancel sell of 10 at 100, id 2. -/
def sell100x10 : OrderPointer := newOrder 2 OrderType.GoodTillCancel 2 Side.Sell 100 10

/-- The book in which `bid100same` rests and the index is empty. -/
def bookNoEntry : Orderbook :=
  { bids_ := [(100, [bid100same])], asks_ := [], orders_ := [] }

/-- The order `fokBuySameId` with a remaining quantity of 3. -/
def fokBuyLeft3 : OrderPointer :=
  { addr := 1, obj := { fokBuySameId.obj with remainingQuantity_ := 3 } }

/-- The book in which `fokBuyLeft3` rests and the index is empty. -/
def bookFokLeft : Orderbook :=
  { bids_ := [(100, [fokBuyLeft3])], asks_ := [], orders_ := [] }

/-! ## Theorems -/

/-! ### The index -/

theorem Index.at_none_iff_not_key (m : Index) (id : OrderId) :
    Index.at m id = none ↔ id ∉ m.map (fun kv => kv.1) := by
  induction m with
  | nil => simp [Index.at]
  | cons kv rest ih =>
    obtain ⟨k, e⟩ := kv
    by_cases h : k = id
    · simp [Index.at, h]
    · simp [Index.at, h, ih, Ne.symm h]

theorem Index.mem_of_at_entry (m : Index) (id : OrderId) (e : OrderEntry)
    (h : Index.at m id = some e) : (id, e) ∈ m := by
  induction m with
  | nil => simp [Index.at] at h
  | cons kv rest ih =>
    obtain ⟨k, e1⟩ := kv
    by_cases hk : k = id
    · simp [Index.at, hk] at h; simp [hk, h]
    · simp [Index.at, hk] at h; simp [ih h]

theorem Index.at_of_mem_entry (m : Index) (id : OrderId) (e : OrderEntry)
    (hk : (m.map (fun kv => kv.1)).Nodup) (h : (id, e) ∈ m) : Index.at m id = some e := by
  induction m with
  | nil => simp at h
  | cons kv rest ih =>
    obtain ⟨k, e1⟩ := kv
    simp only [List.map_cons, List.nodup_cons, List.mem_map, not_exists, not_and] at hk
    rcases List.mem_cons.1 h with h1 | h1
    · injection h1 with h2 h3
      simp [Index.at, h2, h3]
    · have : k ≠ id := fun hh => hk.1 (id, e) h1 hh.symm
      simp [Index.at, this, ih hk.2 h1]

theorem Index.mem_erase (m : Index) (id : OrderId) (kv : OrderId × OrderEntry)
    (hk : (m.map (fun kv => kv.1)).Nodup) :
    kv ∈ Index.erase m id ↔ kv ∈ m ∧ kv.1 ≠ id := by
  induction m with
  | nil => simp [Index.erase]
  | cons x rest ih =>
    obtain ⟨k, e1⟩ := x
    simp only [List.map_cons, List.nodup_cons, List.mem_map, not_exists, not_and] at hk
    by_cases h : k = id
    · subst h
      simp only [Index.erase, if_true, List.mem_cons]
      constructor
      · intro hm
        exact ⟨Or.inr hm, fun hh => hk.1 kv hm hh⟩
      · rintro ⟨h1 | h1, h2⟩
        · exact absurd (by rw [h1]) h2
        · exact h1
    · simp only [Index.erase, h, if_false, List.mem_cons, ih hk.2]
      constructor
      · rintro (h1 | ⟨h1, h2⟩)
        · exact ⟨Or.inl h1, by rw [h1]; exact h⟩
        · exact ⟨Or.inr h1, h2⟩
      · rintro ⟨h1 | h1, h2⟩
        · exact Or.inl h1
        · exact Or.inr ⟨h1, h2⟩

theorem Index.erase_sublist (m : Index) (id : OrderId) : (Index.erase m id).Sublist m := by
  induction m with
  | nil => simp [Index.erase]
  | cons x rest ih =>
    obtain ⟨k, e1⟩ := x
    by_cases h : k = id
    · simp [Index.erase, h]
    · simp [Index.erase, h, ih]

theorem Index.erase_keys_nodup (m : Index) (id : OrderId)
    (hk : (m.map (fun kv => kv.1)).Nodup) :
    ((Index.erase m id).map (fun kv => kv.1)).Nodup :=
  List.Nodup.sublist ((Index.erase_sublist m id).map _) hk

theorem Index.erase_of_not_mem (m : Index) (id : OrderId)
    (h : id ∉ m.map (fun kv => kv.1)) : Index.erase m id = m := by
  induction m with
  | nil => simp [Index.erase]
  | cons x rest ih =>
    obtain ⟨k, e1⟩ := x
    simp only [List.map_cons, List.mem_cons, not_or] at h
    simp [Index.erase, Ne.symm h.1, ih h.2]

theorem Index.store_keys (m : Index) (p : OrderPointer) :
    (Index.store m p).map (fun kv => kv.1) = m.map (fun kv => kv.1) := by
  induction m with
  | nil => simp [Index.store]
  | cons x rest ih =>
    obtain ⟨k, e1⟩ := x
    simp only [Index.store, List.map_cons, ih]

theorem Index.length_store (m : Index) (p : OrderPointer) :
    (Index.store m p).length = m.length := by
  induction m with
  | nil => simp [Index.store]
  | cons x rest ih =>
    obtain ⟨k, e1⟩ := x
    simp [Index.store, ih]

theorem Index.mem_store (m : Index) (p : OrderPointer) (kv : OrderId × OrderEntry) :
    kv ∈ Index.store m p ↔
      ∃ kv0 ∈ m, kv = (kv0.1, if kv0.2.order_.addr = p.addr then
        { kv0.2 with order_ := p } else kv0.2) := by
  induction m with
  | nil => simp [Index.store]
  | cons x rest ih =>
    obtain ⟨k, e1⟩ := x
    simp only [Index.store, List.mem_cons, ih, exists_eq_or_imp]

theorem Index.store_of_not_mem (m : Index) (p : OrderPointer)
    (h : ∀ kv ∈ m, kv.2.order_.addr ≠ p.addr) : Index.store m p = m := by
  induction m with
  | nil => simp [Index.store]
  | cons x rest ih =>
    obtain ⟨k, e1⟩ := x
    have h1 := h (k, e1) (List.mem_cons_self _ _)
    simp only [ne_eq] at h1
    simp only [Index.store, h1, if_false]
    rw [ih (fun kv hkv => h kv (List.mem_cons_of_mem _ hkv))]

theorem Index.at_store (m : Index) (p : OrderPointer) (id : OrderId) :
    Index.at (Index.store m p) id =
      (Index.at m id).map (fun e => if e.order_.addr = p.addr then { e with order_ := p } else e) := by
  induction m with
  | nil => simp [Index.store, Index.at]
  | cons x rest ih =>
    obtain ⟨k, e1⟩ := x
    by_cases hk : k = id
    · by_cases ha : e1.order_.addr = p.addr <;> simp [Index.store, Index.at, hk, ha]
    · by_cases ha : e1.order_.addr = p.addr <;> simp [Index.store, Index.at, hk, ha, ih]

theorem Index.at_erase_self (m : Index) (id : OrderId)
    (hk : (m.map (fun kv => kv.1)).Nodup) : Index.at (Index.erase m id) id = none := by
  rw [Index.at_none_iff_not_key]
  intro h
  obtain ⟨kv, h1, h2⟩ := List.mem_map.1 h
  exact ((Index.mem_erase m id kv hk).1 h1).2 h2

theorem Index.at_erase_ne (m : Index) (id k : OrderId) (h : k ≠ id) :
    Index.at (Index.erase m id) k = Index.at m k := by
  induction m with
  | nil => simp [Index.erase]
  | cons x rest ih =>
    obtain ⟨k1, e1⟩ := x
    by_cases h1 : k1 = id
    · subst h1
      have : k1 ≠ k := fun hh => h hh.symm
      simp [Index.erase, Index.at, this]
    · by_cases h2 : k1 = k
      · subst h2; simp [Index.erase, Index.at, h1]
      · simp [Index.erase, Index.at, h1, h2, ih]

/-! ### Agreement of index and resting orders -/

theorem IndexOK.perm {nodes nodes1 : OrderPointers} {idx : Index}
    (h : IndexOK nodes idx) (hp : nodes.Perm nodes1) : IndexOK nodes1 idx where
  addrs := (List.Perm.nodup_iff (hp.map _)).1 h.addrs
  ids := (List.Perm.nodup_iff (hp.map _)).1 h.ids
  keys := h.keys
  sound := fun kv hkv =>
    ⟨hp.subset (h.sound kv hkv).1, (h.sound kv hkv).2⟩
  complete := fun o ho => h.complete o (hp.symm.subset ho)

theorem IndexOK.of_nil : IndexOK [] [] where
  addrs := by simp
  ids := by simp
  keys := by simp
  sound := by simp
  complete := by simp

theorem IndexOK.addr_inj {nodes : OrderPointers} {idx : Index} (h : IndexOK nodes idx)
    {x y : OrderPointer} (hx : x ∈ nodes) (hy : y ∈ nodes) (hxy : x.addr = y.addr) : x = y :=
  List.inj_on_of_nodup_map h.addrs hx hy hxy

theorem IndexOK.id_inj {nodes : OrderPointers} {idx : Index} (h : IndexOK nodes idx)
    {x y : OrderPointer} (hx : x ∈ nodes) (hy : y ∈ nodes)
    (hxy : x.obj.orderId_ = y.obj.orderId_) : x = y :=
  List.inj_on_of_nodup_map h.ids hx hy hxy

/-- Removing the order at the head of the resting orders and its index entry. -/
theorem IndexOK.remove_head {o : OrderPointer} {rest : OrderPointers} {idx : Index}
    (h : IndexOK (o :: rest) idx) : IndexOK rest (Index.erase idx o.obj.orderId_) where
  addrs := (List.nodup_cons.1 h.addrs).2
  ids := (List.nodup_cons.1 h.ids).2
  keys := Index.erase_keys_nodup _ _ h.keys
  sound := by
    intro kv hkv
    obtain ⟨h1, h2⟩ := (Index.mem_erase idx _ kv h.keys).1 hkv
    obtain ⟨h3, h4, h5⟩ := h.sound kv h1
    refine ⟨?_, h4, h5⟩
    rcases List.mem_cons.1 h3 with h6 | h6
    · exact absurd (by rw [← h4, h6]) h2
    · exact h6
  complete := by
    intro x hx
    rw [Index.mem_erase idx _ _ h.keys]
    refine ⟨h.complete x (List.mem_cons_of_mem _ hx), ?_⟩
    intro hh
    have := (List.nodup_cons.1 h.ids).1
    exact this (List.mem_map.2 ⟨x, hx, hh⟩)

/-- Writing through the pointer of the order at the head of the resting orders. -/
theorem IndexOK.write_head {o o1 : OrderPointer} {rest : OrderPointers} {idx : Index}
    (h : IndexOK (o :: rest) idx) (ha : o1.addr = o.addr)
    (hi : o1.obj.orderId_ = o.obj.orderId_) : IndexOK (o1 :: rest) (Index.store idx o1) where
  addrs := by have := h.addrs; simpa [ha] using this
  ids := by have := h.ids; simpa [hi] using this
  keys := by rw [Index.store_keys]; exact h.keys
  sound := by
    intro kv hkv
    obtain ⟨kv0, h0, h1⟩ := (Index.mem_store idx o1 kv).1 hkv
    obtain ⟨h3, h4, h5⟩ := h.sound kv0 h0
    by_cases hc : kv0.2.order_.addr = o1.addr
    · rw [if_pos hc] at h1
      have : kv0.2.order_ = o := h.addr_inj h3 (List.mem_cons_self _ _) (hc.trans ha)
      subst h1
      refine ⟨List.mem_cons_self _ _, ?_, ?_⟩
      · simp only; rw [hi, ← this, h4]
      · simp only; rw [h5, hc]
    · rw [if_neg hc] at h1
      subst h1
      refine ⟨?_, h4, h5⟩
      rcases List.mem_cons.1 h3 with h6 | h6
      · exact absurd (by rw [h6, ha]) hc
      · exact List.mem_cons_of_mem _ h6
  complete := by
    intro x hx
    rw [Index.mem_store]
    rcases List.mem_cons.1 hx with h6 | h6
    · refine ⟨_, h.complete o (List.mem_cons_self _ _), ?_⟩
      simp [h6, ha, hi]
    · refine ⟨_, h.complete x (List.mem_cons_of_mem _ h6), ?_⟩
      have : x.addr ≠ o1.addr := by
        intro hh
        have := h.addr_inj (List.mem_cons_of_mem _ h6) (List.mem_cons_self _ _) (hh.trans ha)
        have h7 := (List.nodup_cons.1 h.addrs).1
        exact h7 (List.mem_map.2 ⟨x, h6, by rw [this]⟩)
      simp [this]

/-- Admitting a new order with a new id. -/
theorem IndexOK.insert_head {o : OrderPointer} {rest : OrderPointers} {idx : Index}
    (h : IndexOK rest idx) (ha : o.addr ∉ rest.map (fun x => x.addr))
    (hi : o.obj.orderId_ ∉ rest.map (fun x => x.obj.orderId_)) :
    IndexOK (o :: rest)
      (Index.insert idx o.obj.orderId_ { order_ := o, location_ := o.addr }) := by
  have hnone : Index.at idx o.obj.orderId_ = none := by
    rw [Index.at_none_iff_not_key]
    intro hh
    obtain ⟨kv, h1, h2⟩ := List.mem_map.1 hh
    obtain ⟨h3, h4, _⟩ := h.sound kv h1
    exact hi (List.mem_map.2 ⟨_, h3, by rw [h4, h2]⟩)
  have hins : Index.insert idx o.obj.orderId_ { order_ := o, location_ := o.addr }
      = (o.obj.orderId_, { order_ := o, location_ := o.addr }) :: idx := by
    simp [Index.insert, hnone]
  rw [hins]
  exact {
    addrs := by simpa using ⟨by simpa using ha, h.addrs⟩
    ids := by simpa using ⟨by simpa using hi, h.ids⟩
    keys := by
      have := (Index.at_none_iff_not_key idx _).1 hnone
      simpa using ⟨by simpa using this, h.keys⟩
    sound := by
      intro kv hkv
      rcases List.mem_cons.1 hkv with h1 | h1
      · subst h1; simp
      · obtain ⟨h3, h4⟩ := h.sound kv h1
        exact ⟨List.mem_cons_of_mem _ h3, h4⟩
    complete := by
      intro x hx
      rcases List.mem_cons.1 hx with h1 | h1
      · subst h1; simp
      · exact List.mem_cons_of_mem _ (h.complete x h1) }

/-! ### Ledgers -/

theorem greater_comparator : Comparator (fun a b => a > b) greaterPrice where
  dec := by intro a b; simp [greaterPrice]
  trans := by intro a b c h1 h2; exact gt_trans h1 h2
  total := by
    intro a b h1 h2
    exact lt_of_le_of_ne (not_lt.1 h2) h1
  irrefl := by intro a; simp

theorem less_comparator : Comparator (fun a b => a < b) lessPrice where
  dec := by intro a b; simp [lessPrice]
  trans := by intro a b c h1 h2; exact lt_trans h1 h2
  total := by
    intro a b h1 h2
    exact lt_of_le_of_ne (not_lt.1 h2) (Ne.symm h1)
  irrefl := by intro a; simp

@[simp] theorem Ledger.orders_nil : Ledger.orders [] = [] := rfl

@[simp] theorem Ledger.orders_cons (p : Price) (f : OrderPointers) (r : Ledger) :
    Ledger.orders ((p, f) :: r) = f ++ Ledger.orders r := by
  simp [Ledger.orders]

theorem Ledger.mem_orders {m : Ledger} {o : OrderPointer} :
    o ∈ Ledger.orders m ↔ ∃ l ∈ m, o ∈ l.2 := by
  simp [Ledger.orders, List.mem_flatMap]

theorem Ledger.WF.nil (before : Price → Price → Prop) (side : Side) :
    Ledger.WF before side [] where
  sorted := List.Pairwise.nil
  nonempty := by simp
  keyed := by simp

theorem Ledger.WF.tail {before : Price → Price → Prop} {side : Side} {l : Price × OrderPointers}
    {r : Ledger} (h : Ledger.WF before side (l :: r)) : Ledger.WF before side r where
  sorted := (List.pairwise_cons.1 h.sorted).2
  nonempty := fun x hx => h.nonempty x (List.mem_cons_of_mem _ hx)
  keyed := fun x hx => h.keyed x (List.mem_cons_of_mem _ hx)

theorem Ledger.WF.cons {before : Price → Price → Prop} {side : Side} {p : Price}
    {f : OrderPointers} {r : Ledger} (h : Ledger.WF before side r)
    (hs : ∀ x ∈ r, before p x.1) (hf : f ≠ [])
    (hk : ∀ o ∈ f, o.obj.price_ = p ∧ o.obj.side_ = side) :
    Ledger.WF before side ((p, f) :: r) where
  sorted := List.pairwise_cons.2 ⟨hs, h.sorted⟩
  nonempty := by
    intro x hx
    rcases List.mem_cons.1 hx with h1 | h1
    · subst h1; exact hf
    · exact h.nonempty x h1
  keyed := by
    intro x hx
    rcases List.mem_cons.1 hx with h1 | h1
    · subst h1; exact hk
    · exact h.keyed x h1

theorem Ledger.WF.head_before {before : Price → Price → Prop} {side : Side} {p : Price}
    {f : OrderPointers} {r : Ledger} (h : Ledger.WF before side ((p, f) :: r)) :
    ∀ x ∈ r, before p x.1 := (List.pairwise_cons.1 h.sorted).1

/-- The front level with another list of orders filed under the same key. -/
theorem Ledger.WF.setFront {before : Price → Price → Prop} {side : Side} {p : Price}
    {f f1 : OrderPointers} {r : Ledger} (h : Ledger.WF before side ((p, f) :: r))
    (hf : f1 ≠ []) (hk : ∀ o ∈ f1, o.obj.price_ = p ∧ o.obj.side_ = side) :
    Ledger.WF before side ((p, f1) :: r) :=
  Ledger.WF.cons h.tail h.head_before hf hk

/-- The ledger after the front order of the front level has been popped. -/
theorem Ledger.WF.popFront {before : Price → Price → Prop} {side : Side} {p : Price}
    {o : OrderPointer} {t : OrderPointers} {r : Ledger}
    (h : Ledger.WF before side ((p, o :: t) :: r)) :
    Ledger.WF before side (if t.isEmpty then r else (p, t) :: r) := by
  cases t with
  | nil => simpa using h.tail
  | cons x t1 =>
    simp only [List.isEmpty_cons, Bool.false_eq_true, if_false]
    refine h.setFront (by simp) ?_
    intro y hy
    exact h.keyed (p, o :: x :: t1) (List.mem_cons_self _ _) y (List.mem_cons_of_mem _ hy)

theorem Ledger.push_back_keys_subset (cmp : Price → Price → Bool) (m : Ledger) (k : Price)
    (o : OrderPointer) :
    ∀ x ∈ Ledger.push_back cmp m k o, x.1 = k ∨ ∃ y ∈ m, y.1 = x.1 := by
  induction m with
  | nil => intro x hx; simp [Ledger.push_back] at hx; simp [hx]
  | cons l r ih =>
    obtain ⟨p, f⟩ := l
    intro x hx
    simp only [Ledger.push_back] at hx
    split at hx
    · rename_i h1
      rcases List.mem_cons.1 hx with h2 | h2
      · subst h2; exact Or.inl h1
      · exact Or.inr ⟨x, List.mem_cons_of_mem _ h2, rfl⟩
    · split at hx
      · rcases List.mem_cons.1 hx with h2 | h2
        · subst h2; exact Or.inl rfl
        · exact Or.inr ⟨x, h2, rfl⟩
      · rcases List.mem_cons.1 hx with h2 | h2
        · subst h2; exact Or.inr ⟨(p, f), List.mem_cons_self _ _, rfl⟩
        · rcases ih x h2 with h3 | ⟨y, h3, h4⟩
          · exact Or.inl h3
          · exact Or.inr ⟨y, List.mem_cons_of_mem _ h3, h4⟩

theorem Ledger.WF.push_back {before : Price → Price → Prop} {cmp : Price → Price → Bool}
    (hc : Comparator before cmp) {side : Side} {m : Ledger} (h : Ledger.WF before side m)
    (o : OrderPointer) (hs : o.obj.side_ = side) :
    Ledger.WF before side (Ledger.push_back cmp m o.obj.price_ o) := by
  induction m with
  | nil =>
    simp only [Ledger.push_back]
    exact Ledger.WF.cons (Ledger.WF.nil _ _) (by simp) (by simp) (by simp [hs])
  | cons l r ih =>
    obtain ⟨p, f⟩ := l
    simp only [Ledger.push_back]
    split
    · rename_i h1
      refine h.setFront (by simp) ?_
      intro x hx
      rcases List.mem_append.1 hx with h2 | h2
      · exact h.keyed (p, f) (List.mem_cons_self _ _) x h2
      · simp only [List.mem_singleton] at h2
        subst h2; exact ⟨h1.symm, hs⟩
    · rename_i h1
      split
      · rename_i h2
        have hb : before o.obj.price_ p := (hc.dec _ _).1 h2
        refine Ledger.WF.cons h ?_ (by simp) (by simp [hs])
        intro x hx
        rcases List.mem_cons.1 hx with h3 | h3
        · subst h3; exact hb
        · exact hc.trans _ _ _ hb (h.head_before x h3)
      · rename_i h2
        have hb : before p o.obj.price_ := by
          apply hc.total _ _ (fun hh => h1 hh.symm)
          intro hh; exact h2 ((hc.dec _ _).2 hh)
        refine Ledger.WF.cons (ih h.tail) ?_ (h.nonempty (p, f) (List.mem_cons_self _ _))
          (h.keyed (p, f) (List.mem_cons_self _ _))
        intro x hx
        rcases Ledger.push_back_keys_subset cmp r _ o x hx with h3 | ⟨y, h3, h4⟩
        · rw [h3]; exact hb
        · rw [← h4]; exact h.head_before y h3

theorem Ledger.push_back_perm (cmp : Price → Price → Bool) (m : Ledger) (k : Price)
    (o : OrderPointer) :
    (Ledger.orders (Ledger.push_back cmp m k o)).Perm (o :: Ledger.orders m) := by
  induction m with
  | nil => simp [Ledger.push_back]
  | cons l r ih =>
    obtain ⟨p, f⟩ := l
    simp only [Ledger.push_back]
    split
    · simp only [Ledger.orders_cons, List.append_assoc, List.singleton_append]
      exact List.perm_middle
    · split
      · simp
      · simp only [Ledger.orders_cons]
        exact (List.Perm.append_left f ih).trans List.perm_middle

theorem Ledger.push_back_sublist (cmp : Price → Price → Bool) (m : Ledger) (k : Price)
    (o : OrderPointer) :
    (Ledger.orders m).Sublist (Ledger.orders (Ledger.push_back cmp m k o)) := by
  induction m with
  | nil => simp
  | cons l r ih =>
    obtain ⟨p, f⟩ := l
    simp only [Ledger.push_back]
    split
    · simp only [Ledger.orders_cons, List.append_assoc, List.singleton_append]
      exact List.Sublist.append_left (List.sublist_cons_self _ _) _
    · split
      · simp
      · simp only [Ledger.orders_cons]
        exact List.Sublist.append_left ih _

/-- An order pushed at a price that the comparator puts before the front key
opens a new front level. -/
theorem Ledger.push_back_front {before : Price → Price → Prop} {cmp : Price → Price → Bool}
    (hc : Comparator before cmp) (m : Ledger) (k : Price) (o : OrderPointer)
    (h : ∀ x ∈ m, before k x.1) : Ledger.push_back cmp m k o = (k, [o]) :: m := by
  cases m with
  | nil => simp [Ledger.push_back]
  | cons l r =>
    obtain ⟨p, f⟩ := l
    have hb : before k p := h (p, f) (List.mem_cons_self _ _)
    have h1 : p ≠ k := by intro hh; subst hh; exact hc.irrefl _ hb
    simp [Ledger.push_back, h1, (hc.dec _ _).2 hb]

/-! ### Removing an order from its level -/

theorem Ledger.mem_of_at_level {m : Ledger} {k : Price} {f : OrderPointers}
    (h : Ledger.at m k = some f) : (k, f) ∈ m := by
  induction m with
  | nil => simp [Ledger.at] at h
  | cons l r ih =>
    obtain ⟨p, g⟩ := l
    by_cases hp : p = k
    · simp [Ledger.at, hp] at h; simp [hp, h]
    · simp [Ledger.at, hp] at h; simp [ih h]

theorem Ledger.at_of_mem_level {before : Price → Price → Prop} {cmp : Price → Price → Bool}
    (hc : Comparator before cmp) {side : Side} {m : Ledger} (hm : Ledger.WF before side m)
    {k : Price} {f : OrderPointers} (h : (k, f) ∈ m) : Ledger.at m k = some f := by
  induction m with
  | nil => simp at h
  | cons l r ih =>
    obtain ⟨p, g⟩ := l
    rcases List.mem_cons.1 h with h1 | h1
    · injection h1 with h2 h3
      simp [Ledger.at, h2, h3]
    · have hb := hm.head_before (k, f) h1
      have : p ≠ k := by intro hh; subst hh; exact hc.irrefl _ hb
      simp [Ledger.at, this, ih hm.tail h1]

theorem Ledger.at_none_iff_no_level (m : Ledger) (k : Price) :
    Ledger.at m k = none ↔ ∀ l ∈ m, l.1 ≠ k := by
  induction m with
  | nil => simp [Ledger.at]
  | cons l r ih =>
    obtain ⟨p, g⟩ := l
    by_cases hp : p = k
    · simp [Ledger.at, hp]
    · simp [Ledger.at, hp, ih]

theorem OrderPointers.eraseAt_sublist (f : OrderPointers) (loc : Nat) :
    (OrderPointers.eraseAt f loc).Sublist f := by
  induction f with
  | nil => simp [OrderPointers.eraseAt]
  | cons x t ih =>
    by_cases h : x.addr = loc
    · simp [OrderPointers.eraseAt, h]
    · simp [OrderPointers.eraseAt, h, ih]

theorem OrderPointers.eraseAt_eq_filter (f : OrderPointers) (loc : Nat)
    (hn : (f.map (fun o => o.addr)).Nodup) :
    OrderPointers.eraseAt f loc = f.filter (fun o => decide (o.addr ≠ loc)) := by
  induction f with
  | nil => simp [OrderPointers.eraseAt]
  | cons x t ih =>
    simp only [List.map_cons, List.nodup_cons, List.mem_map, not_exists, not_and] at hn
    by_cases h : x.addr = loc
    · simp only [OrderPointers.eraseAt, h, if_true, ne_eq, not_true_eq_false, decide_False,
        Bool.false_eq_true, not_false_eq_true, List.filter_cons_of_neg]
      symm
      rw [List.filter_eq_self]
      intro y hy
      have := hn.1 y hy
      simp only [ne_eq, decide_not, Bool.not_eq_true', decide_eq_false_iff_not]
      intro hh; exact this (hh.trans h.symm)
    · simp [OrderPointers.eraseAt, h, ih hn.2]

theorem OrderPointers.eraseAt_perm (f : OrderPointers) (o : OrderPointer)
    (hn : (f.map (fun o => o.addr)).Nodup) (ho : o ∈ f) :
    f.Perm (o :: OrderPointers.eraseAt f o.addr) := by
  induction f with
  | nil => simp at ho
  | cons x t ih =>
    simp only [List.map_cons, List.nodup_cons, List.mem_map, not_exists, not_and] at hn
    rcases List.mem_cons.1 ho with h | h
    · subst h; simp [OrderPointers.eraseAt]
    · have : x.addr ≠ o.addr := fun hh => hn.1 o h hh.symm
      simp only [OrderPointers.eraseAt, this, if_false]
      exact ((ih hn.2 h).cons x).trans (List.Perm.swap _ _ _)

theorem OrderPointers.hasNode_iff (f : OrderPointers) (loc : Nat) :
    OrderPointers.hasNode f loc = true ↔ ∃ o ∈ f, o.addr = loc := by
  simp [OrderPointers.hasNode]

theorem Ledger.unlink_cons_eq (p : Price) (g f : OrderPointers) (r : Ledger) (loc : Nat) :
    Ledger.unlink ((p, g) :: r) p f loc =
      if (OrderPointers.eraseAt f loc).isEmpty then r
      else (p, OrderPointers.eraseAt f loc) :: r := by
  simp [Ledger.unlink, Ledger.assign, Ledger.erase]

theorem Ledger.unlink_cons_ne (p k : Price) (g f : OrderPointers) (r : Ledger) (loc : Nat)
    (h : p ≠ k) :
    Ledger.unlink ((p, g) :: r) k f loc = (p, g) :: Ledger.unlink r k f loc := by
  simp only [Ledger.unlink, Ledger.assign, h, if_false, Ledger.erase]
  split <;> rfl

theorem Ledger.unlink_keys_subset (m : Ledger) (k : Price) (f : OrderPointers) (loc : Nat) :
    ∀ x ∈ Ledger.unlink m k f loc, ∃ y ∈ m, y.1 = x.1 := by
  induction m with
  | nil => simp [Ledger.unlink, Ledger.assign, Ledger.erase]
  | cons l r ih =>
    obtain ⟨p, g⟩ := l
    intro x hx
    by_cases hp : p = k
    · subst hp
      rw [Ledger.unlink_cons_eq] at hx
      split at hx
      · exact ⟨x, List.mem_cons_of_mem _ hx, rfl⟩
      · rcases List.mem_cons.1 hx with h1 | h1
        · subst h1; exact ⟨(p, g), List.mem_cons_self _ _, rfl⟩
        · exact ⟨x, List.mem_cons_of_mem _ h1, rfl⟩
    · rw [Ledger.unlink_cons_ne _ _ _ _ _ _ hp] at hx
      rcases List.mem_cons.1 hx with h1 | h1
      · subst h1; exact ⟨(p, g), List.mem_cons_self _ _, rfl⟩
      · obtain ⟨y, h2, h3⟩ := ih x h1
        exact ⟨y, List.mem_cons_of_mem _ h2, h3⟩

theorem Ledger.WF.unlink {before : Price → Price → Prop} {side : Side} {m : Ledger}
    (hm : Ledger.WF before side m) {k : Price} {f : OrderPointers} (loc : Nat)
    (h : Ledger.at m k = some f) : Ledger.WF before side (Ledger.unlink m k f loc) := by
  induction m with
  | nil => simp [Ledger.at] at h
  | cons l r ih =>
    obtain ⟨p, g⟩ := l
    by_cases hp : p = k
    · subst hp
      simp only [Ledger.at, if_true, Option.some.injEq] at h
      subst h
      rw [Ledger.unlink_cons_eq]
      split
      · exact hm.tail
      · rename_i h1
        refine hm.setFront (by intro hh; simp [hh] at h1) ?_
        intro o ho
        exact hm.keyed (p, g) (List.mem_cons_self _ _) o
          ((OrderPointers.eraseAt_sublist g loc).subset ho)
    · simp only [Ledger.at, hp, if_false] at h
      rw [Ledger.unlink_cons_ne _ _ _ _ _ _ hp]
      refine Ledger.WF.cons (ih hm.tail h) ?_ (hm.nonempty (p, g) (List.mem_cons_self _ _))
        (hm.keyed (p, g) (List.mem_cons_self _ _))
      intro x hx
      obtain ⟨y, h2, h3⟩ := Ledger.unlink_keys_subset r k f loc x hx
      rw [← h3]; exact hm.head_before y h2

theorem Ledger.unlink_orders {m : Ledger} {k : Price} {f : OrderPointers} (loc : Nat)
    (h : Ledger.at m k = some f) :
    ∃ pre post, Ledger.orders m = pre ++ f ++ post ∧
      Ledger.orders (Ledger.unlink m k f loc) = pre ++ OrderPointers.eraseAt f loc ++ post := by
  induction m with
  | nil => simp [Ledger.at] at h
  | cons l r ih =>
    obtain ⟨p, g⟩ := l
    by_cases hp : p = k
    · subst hp
      simp only [Ledger.at, if_true, Option.some.injEq] at h
      subst h
      refine ⟨[], Ledger.orders r, by simp, ?_⟩
      rw [Ledger.unlink_cons_eq]
      split
      · rename_i h1
        simp only [List.isEmpty_iff] at h1
        simp [h1]
      · simp
    · simp only [Ledger.at, hp, if_false] at h
      obtain ⟨pre, post, h1, h2⟩ := ih h
      refine ⟨g ++ pre, post, by simp [h1], ?_⟩
      rw [Ledger.unlink_cons_ne _ _ _ _ _ _ hp]
      simp [h2]

theorem Ledger.unlink_sublist {m : Ledger} {k : Price} {f : OrderPointers} (loc : Nat)
    (h : Ledger.at m k = some f) :
    (Ledger.orders (Ledger.unlink m k f loc)).Sublist (Ledger.orders m) := by
  obtain ⟨pre, post, h1, h2⟩ := Ledger.unlink_orders loc h
  rw [h1, h2]
  exact List.Sublist.append (List.Sublist.append (List.Sublist.refl _)
    (OrderPointers.eraseAt_sublist f loc)) (List.Sublist.refl _)

theorem Ledger.unlink_perm {m : Ledger} {k : Price} {f : OrderPointers} {o : OrderPointer}
    (h : Ledger.at m k = some f) (ho : o ∈ f)
    (hn : ((Ledger.orders m).map (fun o => o.addr)).Nodup) :
    (Ledger.orders m).Perm (o :: Ledger.orders (Ledger.unlink m k f o.addr)) := by
  obtain ⟨pre, post, h1, h2⟩ := Ledger.unlink_orders o.addr h
  rw [h1, h2]
  have hf : (f.map (fun o => o.addr)).Nodup := by
    rw [h1] at hn
    simp only [List.map_append, List.append_assoc] at hn
    exact (List.nodup_append.1 (List.nodup_append.1 hn).2.1).1
  have := OrderPointers.eraseAt_perm f o hf ho
  have h3 : (pre ++ (f ++ post)).Perm (pre ++ (o :: OrderPointers.eraseAt f o.addr ++ post)) :=
    List.Perm.append_left pre (List.Perm.append_right post this)
  have h4 : (pre ++ (o :: OrderPointers.eraseAt f o.addr ++ post)).Perm
      (o :: (pre ++ (OrderPointers.eraseAt f o.addr ++ post))) := by
    simp
  simpa using h3.trans h4

theorem OrderPointers.eraseAt_append_new (g : OrderPointers) (o : OrderPointer)
    (hg : o.addr ∉ g.map (fun x => x.addr)) :
    OrderPointers.eraseAt (g ++ [o]) o.addr = g := by
  induction g with
  | nil => simp [OrderPointers.eraseAt]
  | cons x t ih =>
    simp only [List.map_cons, List.mem_cons, not_or] at hg
    have h1 : x.addr ≠ o.addr := Ne.symm hg.1
    show OrderPointers.eraseAt (x :: (t ++ [o])) o.addr = x :: t
    simp only [OrderPointers.eraseAt, h1, if_false, ih hg.2]

/-- Pushing an order and unlinking it again gives back the ledger. -/
theorem Ledger.unlink_push_back {before : Price → Price → Prop} {side : Side}
    (cmp : Price → Price → Bool) {m : Ledger}
    (hm : Ledger.WF before side m) (k : Price) (o : OrderPointer)
    (ha : o.addr ∉ (Ledger.orders m).map (fun x => x.addr)) :
    ∃ f, Ledger.at (Ledger.push_back cmp m k o) k = some f ∧
      OrderPointers.hasNode f o.addr = true ∧
      Ledger.unlink (Ledger.push_back cmp m k o) k f o.addr = m := by
  have herase := fun g hg => OrderPointers.eraseAt_append_new g o hg
  induction m with
  | nil =>
    refine ⟨[o], by simp [Ledger.push_back, Ledger.at], by simp [OrderPointers.hasNode], ?_⟩
    simp [Ledger.push_back, Ledger.unlink, OrderPointers.eraseAt, Ledger.assign, Ledger.erase]
  | cons l r ih =>
    obtain ⟨p, g⟩ := l
    simp only [Ledger.orders_cons, List.map_append, List.mem_append, not_or] at ha
    by_cases hp : p = k
    · subst hp
      refine ⟨g ++ [o], by simp [Ledger.push_back, Ledger.at],
        by simp [OrderPointers.hasNode], ?_⟩
      simp only [Ledger.push_back, if_true]
      rw [Ledger.unlink_cons_eq, herase g ha.1]
      have := hm.nonempty (p, g) (List.mem_cons_self _ _)
      simp only at this
      simp [this]
    · by_cases hb : cmp k p = true
      · refine ⟨[o], by simp [Ledger.push_back, Ledger.at, hp, hb],
          by simp [OrderPointers.hasNode], ?_⟩
        simp only [Ledger.push_back, hp, hb, if_true, if_false]
        rw [Ledger.unlink_cons_eq]
        simp [OrderPointers.eraseAt]
      · obtain ⟨f, h1, h2, h3⟩ := ih hm.tail ha.2
        refine ⟨f, by simp [Ledger.push_back, Ledger.at, hp, hb, h1], h2, ?_⟩
        simp only [Ledger.push_back, hp, hb, if_false, Bool.false_eq_true]
        rw [Ledger.unlink_cons_ne _ _ _ _ _ _ hp, h3]

/-! ### One pass of the crossing loop -/

theorem wrapInt32_isInt32 (x : Int) : isInt32 (wrapInt32 x) := by
  unfold isInt32 wrapInt32; omega

theorem wrapInt32_of_isInt32 {x : Int} (h : isInt32 x) : wrapInt32 x = x := by
  unfold isInt32 at h; unfold wrapInt32; omega

theorem wrapInt32_sub_wrap (x y : Int) : wrapInt32 (wrapInt32 x - y) = wrapInt32 (x - y) := by
  unfold wrapInt32; omega

theorem Order.Fill_ok (o : Order) (q : Quantity) (h : q ≤ o.remainingQuantity_) :
    o.Fill q = .ok { o with remainingQuantity_ := wrapInt32 (o.remainingQuantity_ - q) } := by
  simp [Order.Fill, Order.GetRemainingQuantity, not_lt.2 h]

theorem Index.store_erase_comm (idx : Index) (p : OrderPointer) (k : OrderId) :
    Index.store (Index.erase idx k) p = Index.erase (Index.store idx p) k := by
  induction idx with
  | nil => simp [Index.store, Index.erase]
  | cons x rest ih =>
    obtain ⟨k1, e1⟩ := x
    by_cases h : k1 = k
    · simp [Index.store, Index.erase, h]
    · simp [Index.store, Index.erase, h, ih]

theorem Orderbook.matchStep_cons (ob : Orderbook) (bp ap : Price) (b a : OrderPointer)
    (bt at1 : OrderPointers) (br ar : Ledger)
    (hb : ob.bids_ = (bp, b :: bt) :: br) (ha : ob.asks_ = (ap, a :: at1) :: ar)
    (hx : ¬ bp < ap) :
    ob.matchStep = .next (tradeOf b a)
      { bids_ := Ledger.fillFront ob.bids_ (min b.obj.remainingQuantity_ a.obj.remainingQuantity_),
        asks_ := Ledger.fillFront ob.asks_ (min b.obj.remainingQuantity_ a.obj.remainingQuantity_),
        orders_ := Index.fillOrder
          (Index.fillOrder ob.orders_ b (min b.obj.remainingQuantity_ a.obj.remainingQuantity_))
          a (min b.obj.remainingQuantity_ a.obj.remainingQuantity_) } := by
  have h1 := Order.Fill_ok b.obj _ (min_le_left b.obj.remainingQuantity_ a.obj.remainingQuantity_)
  have h2 := Order.Fill_ok a.obj _ (min_le_right b.obj.remainingQuantity_ a.obj.remainingQuantity_)
  unfold Orderbook.matchStep
  rw [hb, ha]
  simp only [hx, if_false, Order.GetRemainingQuantity, h1, h2]
  simp only [Ledger.fillFront, Index.fillOrder, OrderPointer.fill, tradeOf, Order.isFilled,
    Order.GetRemainingQuantity, Order.GetOrderId, Order.GetPrice, Ledger.erase, if_true]
  congr 1
  by_cases c1 : wrapInt32 (b.obj.remainingQuantity_ -
      min b.obj.remainingQuantity_ a.obj.remainingQuantity_) = 0 <;>
  by_cases c2 : wrapInt32 (a.obj.remainingQuantity_ -
      min b.obj.remainingQuantity_ a.obj.remainingQuantity_) = 0 <;>
  simp [c1, c2, Index.store_erase_comm]

theorem Orderbook.matchStep_next_inv {ob ob1 : Orderbook} {t : Trade}
    (h : ob.matchStep = .next t ob1) :
    ∃ bp ap b a bt at1 br ar, ob.bids_ = (bp, b :: bt) :: br ∧
      ob.asks_ = (ap, a :: at1) :: ar ∧ ¬ bp < ap ∧ t = tradeOf b a ∧
      ob1 = { bids_ := Ledger.fillFront ob.bids_
                (min b.obj.remainingQuantity_ a.obj.remainingQuantity_),
              asks_ := Ledger.fillFront ob.asks_
                (min b.obj.remainingQuantity_ a.obj.remainingQuantity_),
              orders_ := Index.fillOrder
                (Index.fillOrder ob.orders_ b
                  (min b.obj.remainingQuantity_ a.obj.remainingQuantity_))
                a (min b.obj.remainingQuantity_ a.obj.remainingQuantity_) } := by
  rcases hb : ob.bids_ with _ | ⟨⟨bp, bf⟩, br⟩
  · simp [Orderbook.matchStep, hb] at h
  rcases ha : ob.asks_ with _ | ⟨⟨ap, af⟩, ar⟩
  · simp [Orderbook.matchStep, hb, ha] at h
  by_cases hx : bp < ap
  · simp [Orderbook.matchStep, hb, ha, hx] at h
  rcases bf with _ | ⟨b, bt⟩
  · simp [Orderbook.matchStep, hb, ha, hx] at h
  rcases af with _ | ⟨a, at1⟩
  · simp [Orderbook.matchStep, hb, ha, hx] at h
  have := Orderbook.matchStep_cons ob bp ap b a bt at1 br ar hb ha hx
  rw [this] at h
  injection h with h1 h2
  refine ⟨bp, ap, b, a, bt, at1, br, ar, rfl, rfl, hx, h1.symm, ?_⟩
  rw [← h2, hb, ha]

theorem Orderbook.matchStep_done_iff (ob : Orderbook) :
    ob.matchStep = .done ↔
      ob.bids_ = [] ∨ ob.asks_ = [] ∨
        ∃ bp bf br ap af ar, ob.bids_ = (bp, bf) :: br ∧ ob.asks_ = (ap, af) :: ar ∧ bp < ap := by
  rcases hb : ob.bids_ with _ | ⟨⟨bp, bf⟩, br⟩
  · simp [Orderbook.matchStep, hb]
  rcases ha : ob.asks_ with _ | ⟨⟨ap, af⟩, ar⟩
  · simp [Orderbook.matchStep, hb, ha]
  by_cases hx : bp < ap
  · simp [Orderbook.matchStep, hb, ha, hx]
  rcases bf with _ | ⟨b, bt⟩
  · simp [Orderbook.matchStep, hb, ha, hx]
  rcases af with _ | ⟨a, at1⟩
  · simp [Orderbook.matchStep, hb, ha, hx]
  have := Orderbook.matchStep_cons ob bp ap b a bt at1 br ar hb ha hx
  rw [hb, ha] at this
  simp [this, hx]

/-- With no empty level in front, a pass of the loop breaks or trades. -/
theorem Orderbook.matchStep_cases (ob : Orderbook)
    (hb : ∀ l ∈ ob.bids_, l.2 ≠ []) (ha : ∀ l ∈ ob.asks_, l.2 ≠ []) :
    ob.matchStep = .done ∨ ∃ t ob1, ob.matchStep = .next t ob1 := by
  rcases hb1 : ob.bids_ with _ | ⟨⟨bp, bf⟩, br⟩
  · left; rw [Orderbook.matchStep_done_iff]; exact Or.inl hb1
  rcases ha1 : ob.asks_ with _ | ⟨⟨ap, af⟩, ar⟩
  · left; rw [Orderbook.matchStep_done_iff]; exact Or.inr (Or.inl ha1)
  by_cases hx : bp < ap
  · left; rw [Orderbook.matchStep_done_iff]
    exact Or.inr (Or.inr ⟨bp, bf, br, ap, af, ar, hb1, ha1, hx⟩)
  rcases bf with _ | ⟨b, bt⟩
  · exact absurd rfl (hb (bp, []) (by rw [hb1]; exact List.mem_cons_self _ _))
  rcases af with _ | ⟨a, at1⟩
  · exact absurd rfl (ha (ap, []) (by rw [ha1]; exact List.mem_cons_self _ _))
  right
  exact ⟨_, _, Orderbook.matchStep_cons ob bp ap b a bt at1 br ar hb1 ha1 hx⟩

/-! ### Effect of a fill on a ledger -/

theorem OrderPointer.fill_self_filled (o : OrderPointer) :
    (o.fill o.obj.remainingQuantity_).obj.isFilled = true := by
  simp [OrderPointer.fill, Order.isFilled, Order.GetRemainingQuantity, wrapInt32]

theorem Ledger.fillFront_orders (p : Price) (o : OrderPointer) (t : OrderPointers) (r : Ledger)
    (q : Quantity) :
    Ledger.orders (Ledger.fillFront ((p, o :: t) :: r) q)
      = o.afterFill q ++ (t ++ Ledger.orders r) := by
  simp only [Ledger.fillFront, OrderPointer.afterFill]
  split
  · split
    · rename_i h; simp only [List.isEmpty_iff] at h; simp [h]
    · simp
  · simp

theorem Ledger.fillFront_noEmpty (m : Ledger) (q : Quantity) (h : ∀ l ∈ m, l.2 ≠ []) :
    ∀ l ∈ Ledger.fillFront m q, l.2 ≠ [] := by
  rcases m with _ | ⟨⟨p, f⟩, r⟩
  · simp [Ledger.fillFront]
  rcases f with _ | ⟨o, t⟩
  · exact absurd rfl (h (p, []) (List.mem_cons_self _ _))
  simp only [Ledger.fillFront]
  split
  · split
    · intro l hl; exact h l (List.mem_cons_of_mem _ hl)
    · rename_i h1
      intro l hl
      rcases List.mem_cons.1 hl with h2 | h2
      · subst h2; intro hh; simp only at hh; simp [hh] at h1
      · exact h l (List.mem_cons_of_mem _ h2)
  · intro l hl
    rcases List.mem_cons.1 hl with h2 | h2
    · subst h2; simp
    · exact h l (List.mem_cons_of_mem _ h2)

theorem Ledger.WF.fillFront {before : Price → Price → Prop} {side : Side} {m : Ledger}
    (h : Ledger.WF before side m) (q : Quantity) :
    Ledger.WF before side (Ledger.fillFront m q) := by
  rcases m with _ | ⟨⟨p, f⟩, r⟩
  · simpa [Ledger.fillFront] using h
  rcases f with _ | ⟨o, t⟩
  · simpa [Ledger.fillFront] using h
  simp only [Ledger.fillFront]
  split
  · exact h.popFront
  · refine h.setFront (by simp) ?_
    intro x hx
    rcases List.mem_cons.1 hx with h1 | h1
    · subst h1
      exact h.keyed (p, o :: t) (List.mem_cons_self _ _) o (List.mem_cons_self _ _)
    · exact h.keyed (p, o :: t) (List.mem_cons_self _ _) x (List.mem_cons_of_mem _ h1)

theorem Ledger.fillFront_levels_subset (m : Ledger) (q : Quantity) :
    ∀ l ∈ Ledger.fillFront m q, ∃ l0 ∈ m, l0.1 = l.1 := by
  rcases m with _ | ⟨⟨p, f⟩, r⟩
  · simp [Ledger.fillFront]
  rcases f with _ | ⟨o, t⟩
  · intro l hl; exact ⟨l, by simpa [Ledger.fillFront] using hl, rfl⟩
  simp only [Ledger.fillFront]
  intro l hl
  split at hl
  · split at hl
    · exact ⟨l, List.mem_cons_of_mem _ hl, rfl⟩
    · rcases List.mem_cons.1 hl with h2 | h2
      · subst h2; exact ⟨_, List.mem_cons_self _ _, rfl⟩
      · exact ⟨l, List.mem_cons_of_mem _ h2, rfl⟩
  · rcases List.mem_cons.1 hl with h2 | h2
    · subst h2; exact ⟨_, List.mem_cons_self _ _, rfl⟩
    · exact ⟨l, List.mem_cons_of_mem _ h2, rfl⟩

theorem OrderPointer.afterFill_length (o : OrderPointer) (q : Quantity) :
    (o.afterFill q).length ≤ 1 := by
  simp only [OrderPointer.afterFill]; split <;> simp

/-- Filling the head of the resting orders, in the ledger and in the index. -/
theorem IndexOK.fill_head {o : OrderPointer} {rest : OrderPointers} {idx : Index}
    (h : IndexOK (o :: rest) idx) (q : Quantity) :
    IndexOK (o.afterFill q ++ rest) (Index.fillOrder idx o q) := by
  have h1 : IndexOK (o.fill q :: rest) (Index.store idx (o.fill q)) :=
    h.write_head rfl rfl
  simp only [OrderPointer.afterFill, Index.fillOrder]
  split
  · exact h1.remove_head
  · exact h1

/-! ### The invariant along the crossing loop -/

theorem OrderPointer.mem_afterFill {o x : OrderPointer} {q : Quantity}
    (h : x ∈ o.afterFill q) : x = o.fill q := by
  simp only [OrderPointer.afterFill] at h
  split at h
  · simp at h
  · simpa using h

theorem Orderbook.Consistent.step {ob ob1 : Orderbook} {t : Trade} (h : ob.Consistent)
    (hs : ob.matchStep = .next t ob1) : ob1.Consistent := by
  obtain ⟨bp, ap, b, a, bt, at1, br, ar, hb, ha, hx, ht, h1⟩ := Orderbook.matchStep_next_inv hs
  subst h1
  have hidx := h.index
  have hr := h.ranges
  simp only [Orderbook.allOrders, hb, ha, Ledger.orders_cons, List.cons_append] at hidx hr
  refine ⟨h.bids.fillFront _, h.asks.fillFront _, ?_, ?_⟩
  · simp only [Orderbook.allOrders, hb, ha, Ledger.fillFront_orders]
    generalize bt ++ Ledger.orders br = X at hidx ⊢
    generalize at1 ++ Ledger.orders ar = Y at hidx ⊢
    generalize min b.obj.remainingQuantity_ a.obj.remainingQuantity_ = q
    have h2 := hidx.fill_head q
    have hp : (b.afterFill q ++ (X ++ a :: Y)).Perm (a :: (b.afterFill q ++ (X ++ Y))) := by
      rw [← List.append_assoc, ← List.append_assoc]; exact List.perm_middle
    have h4 := (h2.perm hp).fill_head q
    refine h4.perm ?_
    rw [← List.append_assoc (b.afterFill q) X Y]
    exact List.perm_append_comm_assoc _ _ _
  · intro o ho
    simp only [Orderbook.allOrders, hb, ha, Ledger.fillFront_orders, List.mem_append] at ho
    rcases ho with (ho | ho) | (ho | ho)
    · rw [OrderPointer.mem_afterFill ho]; exact wrapInt32_isInt32 _
    · exact hr o (by simp only [List.mem_cons, List.mem_append]; tauto)
    · rw [OrderPointer.mem_afterFill ho]; exact wrapInt32_isInt32 _
    · exact hr o (by simp only [List.mem_cons, List.mem_append]; tauto)

theorem Orderbook.resting_step {ob ob1 : Orderbook} {t : Trade}
    (hs : ob.matchStep = .next t ob1) : ob1.resting < ob.resting := by
  obtain ⟨bp, ap, b, a, bt, at1, br, ar, hb, ha, hx, ht, h1⟩ := Orderbook.matchStep_next_inv hs
  subst h1
  simp only [Orderbook.resting, hb, ha, Ledger.fillFront_orders, Ledger.orders_cons,
    List.length_append, List.length_cons]
  have h2 := b.afterFill_length (min b.obj.remainingQuantity_ a.obj.remainingQuantity_)
  have h3 := a.afterFill_length (min b.obj.remainingQuantity_ a.obj.remainingQuantity_)
  rcases min_choice b.obj.remainingQuantity_ a.obj.remainingQuantity_ with hm | hm
  · have : (b.afterFill (min b.obj.remainingQuantity_ a.obj.remainingQuantity_)).length = 0 := by
      rw [hm]; simp [OrderPointer.afterFill, OrderPointer.fill_self_filled]
    omega
  · have : (a.afterFill (min b.obj.remainingQuantity_ a.obj.remainingQuantity_)).length = 0 := by
      rw [hm]; simp [OrderPointer.afterFill, OrderPointer.fill_self_filled]
    omega

theorem Run.consistent {ob ob1 : Orderbook} {ts : Trades} (hr : Run ob ts ob1)
    (h : ob.Consistent) : ob1.Consistent := by
  induction hr with
  | done ob _ => exact h
  | next ob ob1 ob2 t ts hs _ ih => exact ih (h.step hs)

theorem Run.final {ob ob1 : Orderbook} {ts : Trades} (hr : Run ob ts ob1) :
    ob1.matchStep = .done := by
  induction hr with
  | done ob h => exact h
  | next ob ob1 ob2 t ts _ _ ih => exact ih

/-- Appending to the trades collected so far. -/
theorem Orderbook.matchLoop_run {fuel : Nat} {ob ob1 : Orderbook} {tr out : Trades}
    (h : Orderbook.matchLoop fuel ob tr = .returns out ob1) :
    ∃ ts, out = tr ++ ts ∧ Run ob ts ob1 := by
  induction fuel generalizing ob tr with
  | zero => simp [Orderbook.matchLoop] at h
  | succ n ih =>
    simp only [Orderbook.matchLoop] at h
    split at h
    · rename_i hs
      injection h with h1 h2
      subst h2
      exact ⟨[], by simp [h1], Run.done ob hs⟩
    · simp at h
    · rename_i t ob2 hs
      obtain ⟨ts, h1, h2⟩ := ih h
      exact ⟨t :: ts, by simp [h1], Run.next ob ob2 ob1 t ts hs h2⟩
    · simp at h

/-- The loop returns: with no empty level the given fuel is enough. -/
theorem Orderbook.matchLoop_total (ob : Orderbook)
    (hb : ∀ l ∈ ob.bids_, l.2 ≠ []) (ha : ∀ l ∈ ob.asks_, l.2 ≠ []) (fuel : Nat)
    (hf : ob.resting < fuel) (tr : Trades) :
    ∃ ts ob1, Orderbook.matchLoop fuel ob tr = .returns (tr ++ ts) ob1 ∧ Run ob ts ob1 := by
  induction fuel generalizing ob tr with
  | zero => omega
  | succ n ih =>
    rcases Orderbook.matchStep_cases ob hb ha with hs | ⟨t, ob1, hs⟩
    · exact ⟨[], ob, by simp [Orderbook.matchLoop, hs], Run.done ob hs⟩
    · have hlt := Orderbook.resting_step hs
      obtain ⟨bp, ap, b, a, bt, at1, br, ar, hb1, ha1, hx, ht, h1⟩ :=
        Orderbook.matchStep_next_inv hs
      have hb2 : ∀ l ∈ ob1.bids_, l.2 ≠ [] := by
        rw [h1]; exact Ledger.fillFront_noEmpty _ _ hb
      have ha2 : ∀ l ∈ ob1.asks_, l.2 ≠ [] := by
        rw [h1]; exact Ledger.fillFront_noEmpty _ _ ha
      obtain ⟨ts, ob2, h2, h3⟩ := ih ob1 hb2 ha2 (by omega) (tr ++ [t])
      refine ⟨t :: ts, ob2, ?_, Run.next ob ob1 ob2 t ts hs h3⟩
      simp only [Orderbook.matchLoop, hs, h2]
      simp

/-! ### CancelOrder -/

theorem Orderbook.CancelOrder_absent (ob : Orderbook) (id : OrderId)
    (h : Index.at ob.orders_ id = none) : ob.CancelOrder id = .throws .out_of_range ob := by
  simp [Orderbook.CancelOrder, h]

theorem Orderbook.CancelOrder_bid (ob : Orderbook) (id : OrderId) (e : OrderEntry)
    (f : OrderPointers) (h : Index.at ob.orders_ id = some e)
    (hs : e.order_.obj.side_ = Side.Buy) (hf : Ledger.at ob.bids_ e.order_.obj.price_ = some f)
    (hn : OrderPointers.hasNode f e.location_ = true) :
    ob.CancelOrder id = .returns ()
      { ob with bids_ := Ledger.unlink ob.bids_ e.order_.obj.price_ f e.location_,
                orders_ := Index.erase ob.orders_ id } := by
  simp [Orderbook.CancelOrder, h, hs, Order.GetSide, Order.GetPrice, hf, hn, Ledger.unlink]

theorem Orderbook.CancelOrder_ask (ob : Orderbook) (id : OrderId) (e : OrderEntry)
    (f : OrderPointers) (h : Index.at ob.orders_ id = some e)
    (hs : e.order_.obj.side_ = Side.Sell) (hf : Ledger.at ob.asks_ e.order_.obj.price_ = some f)
    (hn : OrderPointers.hasNode f e.location_ = true) :
    ob.CancelOrder id = .returns ()
      { ob with asks_ := Ledger.unlink ob.asks_ e.order_.obj.price_ f e.location_,
                orders_ := Index.erase ob.orders_ id } := by
  simp [Orderbook.CancelOrder, h, hs, Order.GetSide, Order.GetPrice, hf, hn, Ledger.unlink]

/-- Where the order of an index entry rests. -/
theorem Orderbook.Consistent.locate {ob : Orderbook} (h : ob.Consistent) {id : OrderId}
    {e : OrderEntry} (he : Index.at ob.orders_ id = some e) :
    e.order_.obj.orderId_ = id ∧ e.location_ = e.order_.addr ∧
    ((e.order_.obj.side_ = Side.Buy ∧ ∃ f, Ledger.at ob.bids_ e.order_.obj.price_ = some f ∧
        e.order_ ∈ f) ∨
     (e.order_.obj.side_ = Side.Sell ∧ ∃ f, Ledger.at ob.asks_ e.order_.obj.price_ = some f ∧
        e.order_ ∈ f)) := by
  obtain ⟨h1, h2, h3⟩ := h.index.sound (id, e) (Index.mem_of_at_entry _ _ _ he)
  refine ⟨h2, h3, ?_⟩
  simp only [Orderbook.allOrders, List.mem_append] at h1
  rcases h1 with h1 | h1
  · obtain ⟨l, hl, ho⟩ := Ledger.mem_orders.1 h1
    obtain ⟨h4, h5⟩ := h.bids.keyed l hl _ ho
    left
    refine ⟨h5, l.2, ?_, ho⟩
    apply Ledger.at_of_mem_level greater_comparator h.bids
    rw [h4]; exact hl
  · obtain ⟨l, hl, ho⟩ := Ledger.mem_orders.1 h1
    obtain ⟨h4, h5⟩ := h.asks.keyed l hl _ ho
    right
    refine ⟨h5, l.2, ?_, ho⟩
    apply Ledger.at_of_mem_level less_comparator h.asks
    rw [h4]; exact hl

theorem Orderbook.Consistent.cancel_bid {ob : Orderbook} (h : ob.Consistent) {id : OrderId}
    {e : OrderEntry} {f : OrderPointers} (hid : e.order_.obj.orderId_ = id)
    (hf : Ledger.at ob.bids_ e.order_.obj.price_ = some f) (ho : e.order_ ∈ f) :
    Orderbook.Consistent
      { ob with bids_ := Ledger.unlink ob.bids_ e.order_.obj.price_ f e.order_.addr,
                orders_ := Index.erase ob.orders_ id } := by
  have hidx := h.index
  simp only [Orderbook.allOrders] at hidx
  have hnb : ((Ledger.orders ob.bids_).map (fun o => o.addr)).Nodup := by
    have := hidx.addrs
    rw [List.map_append] at this
    exact (List.nodup_append.1 this).1
  have hp := Ledger.unlink_perm hf ho hnb
  refine ⟨h.bids.unlink _ hf, h.asks, ?_, ?_⟩
  · simp only [Orderbook.allOrders]
    have := (hidx.perm (List.Perm.append_right (Ledger.orders ob.asks_) hp)).remove_head
    rw [hid] at this
    exact this
  · intro o ho1
    apply h.ranges
    simp only [Orderbook.allOrders, List.mem_append] at ho1 ⊢
    rcases ho1 with h1 | h1
    · exact Or.inl ((Ledger.unlink_sublist _ hf).subset h1)
    · exact Or.inr h1

theorem Orderbook.Consistent.cancel_ask {ob : Orderbook} (h : ob.Consistent) {id : OrderId}
    {e : OrderEntry} {f : OrderPointers} (hid : e.order_.obj.orderId_ = id)
    (hf : Ledger.at ob.asks_ e.order_.obj.price_ = some f) (ho : e.order_ ∈ f) :
    Orderbook.Consistent
      { ob with asks_ := Ledger.unlink ob.asks_ e.order_.obj.price_ f e.order_.addr,
                orders_ := Index.erase ob.orders_ id } := by
  have hidx := h.index
  simp only [Orderbook.allOrders] at hidx
  have hnb : ((Ledger.orders ob.asks_).map (fun o => o.addr)).Nodup := by
    have := hidx.addrs
    rw [List.map_append] at this
    exact (List.nodup_append.1 this).2.1
  have hp := Ledger.unlink_perm hf ho hnb
  refine ⟨h.bids, h.asks.unlink _ hf, ?_, ?_⟩
  · simp only [Orderbook.allOrders]
    have h1 : (Ledger.orders ob.bids_ ++ Ledger.orders ob.asks_).Perm
        (e.order_ :: (Ledger.orders ob.bids_ ++
          Ledger.orders (Ledger.unlink ob.asks_ e.order_.obj.price_ f e.order_.addr))) :=
      (List.Perm.append_left (Ledger.orders ob.bids_) hp).trans List.perm_middle
    have := (hidx.perm h1).remove_head
    rw [hid] at this
    exact this
  · intro o ho1
    apply h.ranges
    simp only [Orderbook.allOrders, List.mem_append] at ho1 ⊢
    rcases ho1 with h1 | h1
    · exact Or.inl h1
    · exact Or.inr ((Ledger.unlink_sublist _ hf).subset h1)

/-- The effect of a cancel on a consistent book, for an id of the index. -/
theorem Orderbook.Consistent.cancel_cases {ob : Orderbook} (h : ob.Consistent) {id : OrderId}
    {e : OrderEntry} (he : Index.at ob.orders_ id = some e) :
    ∃ f, e.order_ ∈ f ∧
      ((e.order_.obj.side_ = Side.Buy ∧ Ledger.at ob.bids_ e.order_.obj.price_ = some f ∧
        ob.CancelOrder id = .returns ()
          { ob with bids_ := Ledger.unlink ob.bids_ e.order_.obj.price_ f e.order_.addr,
                    orders_ := Index.erase ob.orders_ id } ∧
        Orderbook.Consistent
          { ob with bids_ := Ledger.unlink ob.bids_ e.order_.obj.price_ f e.order_.addr,
                    orders_ := Index.erase ob.orders_ id }) ∨
       (e.order_.obj.side_ = Side.Sell ∧ Ledger.at ob.asks_ e.order_.obj.price_ = some f ∧
        ob.CancelOrder id = .returns ()
          { ob with asks_ := Ledger.unlink ob.asks_ e.order_.obj.price_ f e.order_.addr,
                    orders_ := Index.erase ob.orders_ id } ∧
        Orderbook.Consistent
          { ob with asks_ := Ledger.unlink ob.asks_ e.order_.obj.price_ f e.order_.addr,
                    orders_ := Index.erase ob.orders_ id })) := by
  obtain ⟨h1, h2, h3⟩ := h.locate he
  rcases h3 with ⟨hs, f, hf, ho⟩ | ⟨hs, f, hf, ho⟩
  · refine ⟨f, ho, Or.inl ⟨hs, hf, ?_, h.cancel_bid h1 hf ho⟩⟩
    rw [← h2]
    exact Orderbook.CancelOrder_bid ob id e f he hs hf
      ((OrderPointers.hasNode_iff _ _).2 ⟨_, ho, h2.symm⟩)
  · refine ⟨f, ho, Or.inr ⟨hs, hf, ?_, h.cancel_ask h1 hf ho⟩⟩
    rw [← h2]
    exact Orderbook.CancelOrder_ask ob id e f he hs hf
      ((OrderPointers.hasNode_iff _ _).2 ⟨_, ho, h2.symm⟩)

/-! ### MatchOrders and AddOrder in terms of runs of the loop -/

theorem Run.unique {ob ob1 ob2 : Orderbook} {ts1 ts2 : Trades} (h1 : Run ob ts1 ob1)
    (h2 : Run ob ts2 ob2) : ts1 = ts2 ∧ ob1 = ob2 := by
  induction h1 generalizing ts2 ob2 with
  | done ob hs =>
    cases h2 with
    | done _ _ => exact ⟨rfl, rfl⟩
    | next _ _ _ _ _ hs2 _ => rw [hs] at hs2; cases hs2
  | next ob oba obb t ts hs _ ih =>
    cases h2 with
    | done _ hs2 => rw [hs] at hs2; cases hs2
    | next _ obc _ t2 ts2 hs2 hr2 =>
      rw [hs] at hs2
      injection hs2 with h3 h4
      subst h3; subst h4
      obtain ⟨h5, h6⟩ := ih hr2
      exact ⟨by rw [h5], h6⟩

theorem Orderbook.AddOrder_rejected (ob : Orderbook) (o : OrderPointer)
    (h1 : o.obj.orderType_ = OrderType.FillOrKill)
    (h2 : ob.canMatch o.obj.side_ o.obj.price_ = false) : ob.AddOrder o = .returns [] ob := by
  simp [Orderbook.AddOrder, Order.GetOrderType, Order.GetSide, Order.GetPrice, h1, h2]

theorem Orderbook.AddOrder_entered (ob : Orderbook) (o : OrderPointer)
    (h : o.obj.orderType_ = OrderType.GoodTillCancel ∨
      ob.canMatch o.obj.side_ o.obj.price_ = true) :
    ob.AddOrder o = (ob.enter o).MatchOrders := by
  have h1 : ¬ (o.obj.GetOrderType = OrderType.FillOrKill ∧
      ob.canMatch o.obj.GetSide o.obj.GetPrice = false) := by
    simp only [Order.GetOrderType, Order.GetSide, Order.GetPrice]
    rintro ⟨h2, h3⟩
    rcases h with h | h
    · rw [h] at h2; cases h2
    · rw [h] at h3; cases h3
  unfold Orderbook.AddOrder
  rw [if_neg h1]
  unfold Orderbook.enter
  by_cases hs : o.obj.GetSide = Side.Buy <;> simp [hs]

theorem Orderbook.MatchOrders_of_run {ob ob1 : Orderbook} {ts : Trades}
    (hb : ∀ l ∈ ob.bids_, l.2 ≠ []) (ha : ∀ l ∈ ob.asks_, l.2 ≠ [])
    (hr : Run ob ts ob1) :
    ob.MatchOrders = ob1.sweep.andThen fun _ ob3 => .returns ts ob3 := by
  obtain ⟨ts2, ob2, h1, h2⟩ :=
    Orderbook.matchLoop_total ob hb ha (ob.resting + 1) (Nat.lt_succ_self _) []
  obtain ⟨h3, h4⟩ := Run.unique h2 hr
  subst h3; subst h4
  simp only [List.nil_append] at h1
  simp only [Orderbook.MatchOrders, h1, Outcome.andThen, Orderbook.sweep]
  cases ob2.sweepFront ob2.bids_ with
  | returns v b => cases b.sweepFront b.asks_ <;> rfl
  | throws e b => rfl
  | fails k => rfl

/-! ### The sweep -/

theorem Orderbook.sweepFront_nil (ob : Orderbook) : ob.sweepFront [] = .returns () ob := rfl

theorem Orderbook.sweepFront_gtc (ob : Orderbook) (p : Price) (o : OrderPointer)
    (t : OrderPointers) (r : Ledger) (h : o.obj.orderType_ = OrderType.GoodTillCancel) :
    ob.sweepFront ((p, o :: t) :: r) = .returns () ob := by
  simp [Orderbook.sweepFront, Order.GetOrderType, h]

theorem Orderbook.sweepFront_fok (ob : Orderbook) (p : Price) (o : OrderPointer)
    (t : OrderPointers) (r : Ledger) (h : o.obj.orderType_ = OrderType.FillOrKill) :
    ob.sweepFront ((p, o :: t) :: r) = ob.CancelOrder o.obj.orderId_ := by
  simp [Orderbook.sweepFront, Order.GetOrderType, Order.GetOrderId, h]

theorem OrderPointers.eraseAt_head (o : OrderPointer) (t : OrderPointers) :
    OrderPointers.eraseAt (o :: t) o.addr = t := by
  simp [OrderPointers.eraseAt]

theorem Orderbook.Consistent.entry_of_mem {ob : Orderbook} (h : ob.Consistent)
    {o : OrderPointer} (ho : o ∈ ob.allOrders) :
    Index.at ob.orders_ o.obj.orderId_ = some { order_ := o, location_ := o.addr } :=
  Index.at_of_mem_entry _ _ _ h.index.keys (h.index.complete o ho)

/-- Cancelling the order in front of the best bid level. -/
theorem Orderbook.Consistent.cancel_front_bid {ob : Orderbook} (h : ob.Consistent)
    {p : Price} {o : OrderPointer} {t : OrderPointers} {r : Ledger}
    (hb : ob.bids_ = (p, o :: t) :: r) :
    ob.CancelOrder o.obj.orderId_ = .returns ()
      { ob with bids_ := if t.isEmpty then r else (p, t) :: r,
                orders_ := Index.erase ob.orders_ o.obj.orderId_ } := by
  have hw := h.bids
  rw [hb] at hw
  obtain ⟨hk1, hk2⟩ := hw.keyed (p, o :: t) (List.mem_cons_self _ _) o (List.mem_cons_self _ _)
  have he := h.entry_of_mem (o := o) (by simp [Orderbook.allOrders, hb])
  have := Orderbook.CancelOrder_bid ob o.obj.orderId_ _ (o :: t) he hk2
    (by simp [hb, hk1, Ledger.at]) (by simp [OrderPointers.hasNode])
  rw [this]
  simp only [hb, hk1, Ledger.unlink_cons_eq, OrderPointers.eraseAt_head]

/-- Cancelling the order in front of the best ask level. -/
theorem Orderbook.Consistent.cancel_front_ask {ob : Orderbook} (h : ob.Consistent)
    {p : Price} {o : OrderPointer} {t : OrderPointers} {r : Ledger}
    (ha : ob.asks_ = (p, o :: t) :: r) :
    ob.CancelOrder o.obj.orderId_ = .returns ()
      { ob with asks_ := if t.isEmpty then r else (p, t) :: r,
                orders_ := Index.erase ob.orders_ o.obj.orderId_ } := by
  have hw := h.asks
  rw [ha] at hw
  obtain ⟨hk1, hk2⟩ := hw.keyed (p, o :: t) (List.mem_cons_self _ _) o (List.mem_cons_self _ _)
  have he := h.entry_of_mem (o := o) (by simp [Orderbook.allOrders, ha])
  have := Orderbook.CancelOrder_ask ob o.obj.orderId_ _ (o :: t) he hk2
    (by simp [ha, hk1, Ledger.at]) (by simp [OrderPointers.hasNode])
  rw [this]
  simp only [ha, hk1, Ledger.unlink_cons_eq, OrderPointers.eraseAt_head]

/-! ### Fill-Or-Kill orders along the loop, and the sweep -/

theorem Ledger.FokFront.fillFront_keeps {m : Ledger} (h : Ledger.FokFront m) (q : Quantity) :
    Ledger.FokFront (Ledger.fillFront m q) := by
  rcases m with _ | ⟨⟨p, f⟩, r⟩
  · simpa [Ledger.fillFront] using h
  rcases f with _ | ⟨o, t⟩
  · simpa [Ledger.fillFront] using h
  unfold Ledger.FokFront at h ⊢
  rw [Ledger.fillFront_orders]
  simp only [Ledger.orders_cons, List.cons_append, List.tail_cons] at h
  intro x hx
  apply h
  simp only [OrderPointer.afterFill] at hx
  split at hx
  · exact List.mem_of_mem_tail hx
  · simpa using hx

theorem Run.fokFront {ob ob1 : Orderbook} {ts : Trades} (hr : Run ob ts ob1)
    (hb : Ledger.FokFront ob.bids_) (ha : Ledger.FokFront ob.asks_) :
    Ledger.FokFront ob1.bids_ ∧ Ledger.FokFront ob1.asks_ := by
  induction hr with
  | done ob _ => exact ⟨hb, ha⟩
  | next ob ob1 ob2 t ts hs _ ih =>
    obtain ⟨bp, ap, b, a, bt, at1, br, ar, hb1, ha1, hx, ht, h1⟩ :=
      Orderbook.matchStep_next_inv hs
    apply ih
    · rw [h1]; exact hb.fillFront_keeps _
    · rw [h1]; exact ha.fillFront_keeps _

theorem Ledger.FokFront.of_gtc {m : Ledger}
    (h : ∀ o ∈ Ledger.orders m, o.obj.orderType_ = OrderType.GoodTillCancel) :
    Ledger.FokFront m := fun o ho => h o (List.mem_of_mem_tail ho)

theorem Orderbook.Consistent.uncrossed_of_done {ob : Orderbook} (h : ob.Consistent)
    (hd : ob.matchStep = .done) : ob.Uncrossed := by
  rcases (Orderbook.matchStep_done_iff ob).1 hd with h1 | h1 | ⟨bp, bf, br, ap, af, ar, h1, h2, h3⟩
  · intro b hb; rw [h1] at hb; simp at hb
  · intro b _ a ha; rw [h1] at ha; simp at ha
  · intro b hb a ha
    have hwb := h.bids
    have hwa := h.asks
    rw [h1] at hwb hb
    rw [h2] at hwa ha
    have e1 : b.1 ≤ bp := by
      rcases List.mem_cons.1 hb with h4 | h4
      · rw [h4]
      · exact le_of_lt (hwb.head_before b h4)
    have e2 : ap ≤ a.1 := by
      rcases List.mem_cons.1 ha with h4 | h4
      · rw [h4]
      · exact le_of_lt (hwa.head_before a h4)
    exact lt_of_le_of_lt e1 (lt_of_lt_of_le h3 e2)

/-- The two shapes of the book that the sweep of the bid side returns. -/
theorem Orderbook.Consistent.sweepFront_bids {ob : Orderbook} (h : ob.Consistent) :
    (ob.sweepFront ob.bids_ = .returns () ob ∧
      ∀ o ∈ (Ledger.orders ob.bids_).head?, o.obj.orderType_ = OrderType.GoodTillCancel) ∨
    (∃ p o t r, ob.bids_ = (p, o :: t) :: r ∧ o.obj.orderType_ = OrderType.FillOrKill ∧
      ob.sweepFront ob.bids_ = .returns ()
        { ob with bids_ := if t.isEmpty then r else (p, t) :: r,
                  orders_ := Index.erase ob.orders_ o.obj.orderId_ } ∧
      Orderbook.Consistent
        { ob with bids_ := if t.isEmpty then r else (p, t) :: r,
                  orders_ := Index.erase ob.orders_ o.obj.orderId_ }) := by
  rcases hb : ob.bids_ with _ | ⟨⟨p, f⟩, r⟩
  · left; simp [Orderbook.sweepFront]
  rcases f with _ | ⟨o, t⟩
  · have := h.bids.nonempty (p, []) (by rw [hb]; exact List.mem_cons_self _ _)
    exact absurd rfl this
  cases ht : o.obj.orderType_ with
  | GoodTillCancel =>
    left
    exact ⟨Orderbook.sweepFront_gtc ob p o t r ht, by simp [ht]⟩
  | FillOrKill =>
    right
    refine ⟨p, o, t, r, rfl, ht, ?_, ?_⟩
    · rw [Orderbook.sweepFront_fok ob p o t r ht]
      exact h.cancel_front_bid hb
    · have hw := h.bids
      rw [hb] at hw
      obtain ⟨hk1, hk2⟩ :=
        hw.keyed (p, o :: t) (List.mem_cons_self _ _) o (List.mem_cons_self _ _)
      have := @Orderbook.Consistent.cancel_bid ob h o.obj.orderId_
        { order_ := o, location_ := o.addr } (o :: t) rfl (by simp [hb, hk1, Ledger.at]) (List.mem_cons_self _ _)
      simpa only [hb, hk1, Ledger.unlink_cons_eq, OrderPointers.eraseAt_head] using this

/-- The two shapes of the book that the sweep of the ask side returns. -/
theorem Orderbook.Consistent.sweepFront_asks {ob : Orderbook} (h : ob.Consistent) :
    (ob.sweepFront ob.asks_ = .returns () ob ∧
      ∀ o ∈ (Ledger.orders ob.asks_).head?, o.obj.orderType_ = OrderType.GoodTillCancel) ∨
    (∃ p o t r, ob.asks_ = (p, o :: t) :: r ∧ o.obj.orderType_ = OrderType.FillOrKill ∧
      ob.sweepFront ob.asks_ = .returns ()
        { ob with asks_ := if t.isEmpty then r else (p, t) :: r,
                  orders_ := Index.erase ob.orders_ o.obj.orderId_ } ∧
      Orderbook.Consistent
        { ob with asks_ := if t.isEmpty then r else (p, t) :: r,
                  orders_ := Index.erase ob.orders_ o.obj.orderId_ }) := by
  rcases hb : ob.asks_ with _ | ⟨⟨p, f⟩, r⟩
  · left; simp [Orderbook.sweepFront]
  rcases f with _ | ⟨o, t⟩
  · have := h.asks.nonempty (p, []) (by rw [hb]; exact List.mem_cons_self _ _)
    exact absurd rfl this
  cases ht : o.obj.orderType_ with
  | GoodTillCancel =>
    left
    exact ⟨Orderbook.sweepFront_gtc ob p o t r ht, by simp [ht]⟩
  | FillOrKill =>
    right
    refine ⟨p, o, t, r, rfl, ht, ?_, ?_⟩
    · rw [Orderbook.sweepFront_fok ob p o t r ht]
      exact h.cancel_front_ask hb
    · have hw := h.asks
      rw [hb] at hw
      obtain ⟨hk1, hk2⟩ :=
        hw.keyed (p, o :: t) (List.mem_cons_self _ _) o (List.mem_cons_self _ _)
      have := @Orderbook.Consistent.cancel_ask ob h o.obj.orderId_
        { order_ := o, location_ := o.addr } (o :: t) rfl (by simp [hb, hk1, Ledger.at]) (List.mem_cons_self _ _)
      simpa only [hb, hk1, Ledger.unlink_cons_eq, OrderPointers.eraseAt_head] using this

theorem Ledger.popped_orders (p : Price) (t : OrderPointers) (r : Ledger) :
    Ledger.orders (if t.isEmpty then r else (p, t) :: r) = t ++ Ledger.orders r := by
  split
  · rename_i h; simp only [List.isEmpty_iff] at h; simp [h]
  · simp

theorem Ledger.popped_levels (p : Price) (o : OrderPointer) (t : OrderPointers) (r : Ledger) :
    ∀ l ∈ (if t.isEmpty then r else (p, t) :: r), ∃ l0 ∈ (p, o :: t) :: r, l0.1 = l.1 := by
  intro l hl
  split at hl
  · exact ⟨l, List.mem_cons_of_mem _ hl, rfl⟩
  · rcases List.mem_cons.1 hl with h | h
    · subst h; exact ⟨_, List.mem_cons_self _ _, rfl⟩
    · exact ⟨l, List.mem_cons_of_mem _ h, rfl⟩

/-- The sweep returns, keeps the invariant, and leaves no Fill-Or-Kill order
when only front orders could be Fill-Or-Kill. -/
theorem Orderbook.Consistent.sweep {ob : Orderbook} (h : ob.Consistent)
    (hfb : Ledger.FokFront ob.bids_) (hfa : Ledger.FokFront ob.asks_) :
    ∃ ob1, ob.sweep = .returns () ob1 ∧ ob1.Consistent ∧ ob1.AllGTC ∧
      (Ledger.orders ob1.bids_).Sublist (Ledger.orders ob.bids_) ∧
      (Ledger.orders ob1.asks_).Sublist (Ledger.orders ob.asks_) ∧
      (∀ l ∈ ob1.bids_, ∃ l0 ∈ ob.bids_, l0.1 = l.1) ∧
      (∀ l ∈ ob1.asks_, ∃ l0 ∈ ob.asks_, l0.1 = l.1) := by
  have step1 : ∃ ob2, ob.sweepFront ob.bids_ = .returns () ob2 ∧ ob2.Consistent ∧
      ob2.asks_ = ob.asks_ ∧
      (∀ o ∈ Ledger.orders ob2.bids_, o.obj.orderType_ = OrderType.GoodTillCancel) ∧
      (Ledger.orders ob2.bids_).Sublist (Ledger.orders ob.bids_) ∧
      (∀ l ∈ ob2.bids_, ∃ l0 ∈ ob.bids_, l0.1 = l.1) := by
    rcases h.sweepFront_bids with ⟨h1, h2⟩ | ⟨p, o, t, r, h1, h2, h3, h4⟩
    · refine ⟨ob, h1, h, rfl, ?_, List.Sublist.refl _, fun l hl => ⟨l, hl, rfl⟩⟩
      intro o ho
      rcases hl : Ledger.orders ob.bids_ with _ | ⟨x, xs⟩
      · rw [hl] at ho; simp at ho
      · rw [hl] at ho h2
        rcases List.mem_cons.1 ho with h5 | h5
        · subst h5; exact h2 o (by simp)
        · apply hfb; rw [hl]; exact h5
    · refine ⟨_, h3, h4, rfl, ?_, ?_, ?_⟩
      · intro x hx
        simp only [Ledger.popped_orders] at hx
        apply hfb
        simpa [h1] using hx
      · simp only [Ledger.popped_orders, h1, Ledger.orders_cons, List.cons_append]
        exact List.sublist_cons_self _ _
      · rw [h1]; exact Ledger.popped_levels p o t r
  obtain ⟨ob2, s1, c2, e2, g2, sl2, k2⟩ := step1
  have hfa2 : Ledger.FokFront ob2.asks_ := by rw [e2]; exact hfa
  have step2 : ∃ ob3, ob2.sweepFront ob2.asks_ = .returns () ob3 ∧ ob3.Consistent ∧
      ob3.bids_ = ob2.bids_ ∧
      (∀ o ∈ Ledger.orders ob3.asks_, o.obj.orderType_ = OrderType.GoodTillCancel) ∧
      (Ledger.orders ob3.asks_).Sublist (Ledger.orders ob2.asks_) ∧
      (∀ l ∈ ob3.asks_, ∃ l0 ∈ ob2.asks_, l0.1 = l.1) := by
    rcases c2.sweepFront_asks with ⟨h1, h2⟩ | ⟨p, o, t, r, h1, h2, h3, h4⟩
    · refine ⟨ob2, h1, c2, rfl, ?_, List.Sublist.refl _, fun l hl => ⟨l, hl, rfl⟩⟩
      intro o ho
      rcases hl : Ledger.orders ob2.asks_ with _ | ⟨x, xs⟩
      · rw [hl] at ho; simp at ho
      · rw [hl] at ho h2
        rcases List.mem_cons.1 ho with h5 | h5
        · subst h5; exact h2 o (by simp)
        · apply hfa2; rw [hl]; exact h5
    · refine ⟨_, h3, h4, rfl, ?_, ?_, ?_⟩
      · intro x hx
        simp only [Ledger.popped_orders] at hx
        apply hfa2
        simpa [h1] using hx
      · simp only [Ledger.popped_orders, h1, Ledger.orders_cons, List.cons_append]
        exact List.sublist_cons_self _ _
      · rw [h1]; exact Ledger.popped_levels p o t r
  obtain ⟨ob3, s3, c3, e3, g3, sl3, k3⟩ := step2
  refine ⟨ob3, ?_, c3, ?_, ?_, ?_, ?_, ?_⟩
  · simp [Orderbook.sweep, s1, Outcome.andThen, s3]
  · intro o ho
    simp only [Orderbook.allOrders, List.mem_append] at ho
    rcases ho with ho | ho
    · rw [e3] at ho; exact g2 o ho
    · exact g3 o ho
  · rw [e3]; exact sl2
  · rw [← e2]; exact sl3
  · rw [e3]; exact k2
  · rw [← e2]; exact k3

/-! ### AddOrder keeps the invariant -/

theorem Side.eq_sell_of_ne_buy {s : Side} (h : ¬ s = Side.Buy) : s = Side.Sell := by
  cases s
  · exact absurd rfl h
  · rfl

theorem Orderbook.enter_buy (ob : Orderbook) (o : OrderPointer) (h : o.obj.side_ = Side.Buy) :
    ob.enter o =
      { bids_ := Ledger.push_back greaterPrice ob.bids_ o.obj.price_ o, asks_ := ob.asks_,
        orders_ := Index.insert ob.orders_ o.obj.orderId_ { order_ := o, location_ := o.addr } } := by
  simp [Orderbook.enter, Order.GetSide, Order.GetPrice, Order.GetOrderId, h]

theorem Orderbook.enter_sell (ob : Orderbook) (o : OrderPointer) (h : o.obj.side_ = Side.Sell) :
    ob.enter o =
      { bids_ := ob.bids_, asks_ := Ledger.push_back lessPrice ob.asks_ o.obj.price_ o,
        orders_ := Index.insert ob.orders_ o.obj.orderId_ { order_ := o, location_ := o.addr } } := by
  simp [Orderbook.enter, Order.GetSide, Order.GetPrice, Order.GetOrderId, h]

theorem Orderbook.enter_perm (ob : Orderbook) (o : OrderPointer) :
    (ob.enter o).allOrders.Perm (o :: ob.allOrders) := by
  cases hs : o.obj.side_ with
  | Buy =>
    rw [Orderbook.enter_buy ob o hs]
    simp only [Orderbook.allOrders]
    exact List.Perm.append_right _ (Ledger.push_back_perm _ _ _ _)
  | Sell =>
    rw [Orderbook.enter_sell ob o hs]
    simp only [Orderbook.allOrders]
    exact (List.Perm.append_left _ (Ledger.push_back_perm _ _ _ _)).trans List.perm_middle

theorem Orderbook.Consistent.enter {ob : Orderbook} (h : ob.Consistent) (o : OrderPointer)
    (ha : o.addr ∉ ob.addrs) (hi : o.obj.orderId_ ∉ ob.ids)
    (hq : isInt32 o.obj.remainingQuantity_) : (ob.enter o).Consistent := by
  have hp := Orderbook.enter_perm ob o
  have hidx : IndexOK (ob.enter o).allOrders (ob.enter o).orders_ := by
    have h1 := (h.index.insert_head (o := o) ha hi).perm hp.symm
    cases hs : o.obj.side_ with
    | Buy => rw [Orderbook.enter_buy ob o hs] at h1 ⊢; exact h1
    | Sell => rw [Orderbook.enter_sell ob o hs] at h1 ⊢; exact h1
  have hr : ∀ x ∈ (ob.enter o).allOrders, isInt32 x.obj.remainingQuantity_ := by
    intro x hx
    rcases List.mem_cons.1 (hp.subset hx) with h1 | h1
    · rw [h1]; exact hq
    · exact h.ranges x h1
  refine ⟨?_, ?_, hidx, hr⟩
  · cases hs : o.obj.side_ with
    | Buy =>
      rw [Orderbook.enter_buy ob o hs]
      exact h.bids.push_back greater_comparator o hs
    | Sell => rw [Orderbook.enter_sell ob o hs]; exact h.bids
  · cases hs : o.obj.side_ with
    | Buy => rw [Orderbook.enter_buy ob o hs]; exact h.asks
    | Sell =>
      rw [Orderbook.enter_sell ob o hs]
      exact h.asks.push_back less_comparator o hs

/-- A buy that can match an uncrossed book opens a new front bid level. -/
theorem Orderbook.enter_crossing_buy {ob : Orderbook} (hu : ob.Uncrossed) (o : OrderPointer)
    (hs : o.obj.side_ = Side.Buy) (hc : ob.canMatch Side.Buy o.obj.price_ = true) :
    (ob.enter o).bids_ = (o.obj.price_, [o]) :: ob.bids_ := by
  rw [Orderbook.enter_buy ob o hs]
  simp only
  apply Ledger.push_back_front greater_comparator
  intro x hx
  rcases ha : ob.asks_ with _ | ⟨⟨ap, af⟩, ar⟩
  · simp [Orderbook.canMatch, ha] at hc
  · simp only [Orderbook.canMatch, ha, decide_eq_true_eq] at hc
    have := hu x hx (ap, af) (by rw [ha]; exact List.mem_cons_self _ _)
    simp only at this
    exact lt_of_lt_of_le this hc

/-- A sell that can match an uncrossed book opens a new front ask level. -/
theorem Orderbook.enter_crossing_sell {ob : Orderbook} (hu : ob.Uncrossed) (o : OrderPointer)
    (hs : o.obj.side_ = Side.Sell) (hc : ob.canMatch Side.Sell o.obj.price_ = true) :
    (ob.enter o).asks_ = (o.obj.price_, [o]) :: ob.asks_ := by
  rw [Orderbook.enter_sell ob o hs]
  simp only
  apply Ledger.push_back_front less_comparator
  intro x hx
  rcases hb : ob.bids_ with _ | ⟨⟨bp, bf⟩, br⟩
  · simp [Orderbook.canMatch, hb] at hc
  · simp only [Orderbook.canMatch, hb, decide_eq_true_eq, ge_iff_le] at hc
    have := hu (bp, bf) (by rw [hb]; exact List.mem_cons_self _ _) x hx
    simp only at this
    exact lt_of_le_of_lt hc this

theorem Orderbook.WF.enter_fokFront {ob : Orderbook} (h : ob.WF) (o : OrderPointer)
    (hent : o.obj.orderType_ = OrderType.GoodTillCancel ∨
      ob.canMatch o.obj.side_ o.obj.price_ = true) :
    Ledger.FokFront (ob.enter o).bids_ ∧ Ledger.FokFront (ob.enter o).asks_ := by
  have hgb : ∀ x ∈ Ledger.orders ob.bids_, x.obj.orderType_ = OrderType.GoodTillCancel :=
    fun x hx => h.gtc x (by simp [Orderbook.allOrders, hx])
  have hga : ∀ x ∈ Ledger.orders ob.asks_, x.obj.orderType_ = OrderType.GoodTillCancel :=
    fun x hx => h.gtc x (by simp [Orderbook.allOrders, hx])
  cases ht : o.obj.orderType_ with
  | GoodTillCancel =>
    have hall : ∀ x ∈ (ob.enter o).allOrders,
        x.obj.orderType_ = OrderType.GoodTillCancel := by
      intro x hx
      rcases List.mem_cons.1 ((Orderbook.enter_perm ob o).subset hx) with h1 | h1
      · rw [h1]; exact ht
      · exact h.gtc x h1
    constructor
    · exact Ledger.FokFront.of_gtc fun x hx => hall x (by simp [Orderbook.allOrders, hx])
    · exact Ledger.FokFront.of_gtc fun x hx => hall x (by simp [Orderbook.allOrders, hx])
  | FillOrKill =>
    have hc : ob.canMatch o.obj.side_ o.obj.price_ = true := by
      rcases hent with h1 | h1
      · rw [ht] at h1; cases h1
      · exact h1
    cases hs : o.obj.side_ with
    | Buy =>
      rw [hs] at hc
      constructor
      · rw [Orderbook.enter_crossing_buy h.uncrossed o hs hc]
        intro x hx
        simp only [Ledger.orders_cons, List.singleton_append, List.tail_cons] at hx
        exact hgb x hx
      · rw [Orderbook.enter_buy ob o hs]
        exact Ledger.FokFront.of_gtc hga
    | Sell =>
      rw [hs] at hc
      constructor
      · rw [Orderbook.enter_sell ob o hs]
        exact Ledger.FokFront.of_gtc hgb
      · rw [Orderbook.enter_crossing_sell h.uncrossed o hs hc]
        intro x hx
        simp only [Ledger.orders_cons, List.singleton_append, List.tail_cons] at hx
        exact hga x hx

/-- An order that is entered: the loop runs, the sweep returns, and the book
that `AddOrder` returns satisfies the invariant again. -/
theorem Orderbook.WF.addOrder_entered {ob : Orderbook} (h : ob.WF) (o : OrderPointer)
    (ha : o.addr ∉ ob.addrs) (hi : o.obj.orderId_ ∉ ob.ids)
    (hq : isInt32 o.obj.remainingQuantity_)
    (hent : o.obj.orderType_ = OrderType.GoodTillCancel ∨
      ob.canMatch o.obj.side_ o.obj.price_ = true) :
    ∃ ts ob1 ob2, (ob.enter o).Consistent ∧ Run (ob.enter o) ts ob1 ∧
      ob1.sweep = .returns () ob2 ∧ ob.AddOrder o = .returns ts ob2 ∧ ob2.WF ∧
      ob1.Consistent ∧
      (Ledger.orders ob2.bids_).Sublist (Ledger.orders ob1.bids_) ∧
      (Ledger.orders ob2.asks_).Sublist (Ledger.orders ob1.asks_) := by
  have hc := h.consistent.enter o ha hi hq
  obtain ⟨ts, ob1, _, hrun⟩ := Orderbook.matchLoop_total (ob.enter o) hc.bids.nonempty
    hc.asks.nonempty ((ob.enter o).resting + 1) (Nat.lt_succ_self _) []
  have hc1 := hrun.consistent hc
  obtain ⟨hfb, hfa⟩ := h.enter_fokFront o hent
  obtain ⟨hfb1, hfa1⟩ := hrun.fokFront hfb hfa
  obtain ⟨ob2, hs, hc2, hg2, sl1, sl2, k1, k2⟩ := hc1.sweep hfb1 hfa1
  refine ⟨ts, ob1, ob2, hc, hrun, hs, ?_, ⟨hc2, ?_, hg2⟩, hc1, sl1, sl2⟩
  · rw [Orderbook.AddOrder_entered ob o hent,
      Orderbook.MatchOrders_of_run hc.bids.nonempty hc.asks.nonempty hrun, hs]
    rfl
  · have hu := hc1.uncrossed_of_done hrun.final
    intro b hb a ha1
    obtain ⟨b0, hb0, hb1⟩ := k1 b hb
    obtain ⟨a0, ha0, ha2⟩ := k2 a ha1
    rw [← hb1, ← ha2]
    exact hu b0 hb0 a0 ha0

/-- `AddOrder` of a new order on a book between calls returns, and the book
it leaves satisfies the invariant. -/
theorem Orderbook.WF.addOrder {ob : Orderbook} (h : ob.WF) (o : OrderPointer)
    (ha : o.addr ∉ ob.addrs) (hi : o.obj.orderId_ ∉ ob.ids)
    (hq : isInt32 o.obj.remainingQuantity_) :
    ∃ ts ob1, ob.AddOrder o = .returns ts ob1 ∧ ob1.WF := by
  by_cases hent : o.obj.orderType_ = OrderType.GoodTillCancel ∨
      ob.canMatch o.obj.side_ o.obj.price_ = true
  · obtain ⟨ts, ob1, ob2, _, _, _, h1, h2, _⟩ := h.addOrder_entered o ha hi hq hent
    exact ⟨ts, ob2, h1, h2⟩
  · refine ⟨[], ob, Orderbook.AddOrder_rejected ob o ?_ ?_, h⟩
    · cases ht : o.obj.orderType_ with
      | GoodTillCancel => exact absurd (Or.inl ht) hent
      | FillOrKill => rfl
    · cases hcm : ob.canMatch o.obj.side_ o.obj.price_ with
      | true => exact absurd (Or.inr hcm) hent
      | false => rfl

/-! ### CancelOrder and MatchOrder keep the invariant -/

theorem Orderbook.WF.cancel_returns {ob : Orderbook} (h : ob.WF) {id : OrderId} {e : OrderEntry}
    (he : Index.at ob.orders_ id = some e) :
    ∃ ob1, ob.CancelOrder id = .returns () ob1 ∧ ob1.WF ∧ id ∉ ob1.ids ∧
      ob1.allOrders.Sublist ob.allOrders := by
  obtain ⟨f, ho, hcase⟩ := h.consistent.cancel_cases he
  have key : ∀ ob1 : Orderbook, ob1.Consistent → ob1.orders_ = Index.erase ob.orders_ id →
      (Ledger.orders ob1.bids_).Sublist (Ledger.orders ob.bids_) →
      (Ledger.orders ob1.asks_).Sublist (Ledger.orders ob.asks_) →
      (∀ l ∈ ob1.bids_, ∃ l0 ∈ ob.bids_, l0.1 = l.1) →
      (∀ l ∈ ob1.asks_, ∃ l0 ∈ ob.asks_, l0.1 = l.1) →
      ob1.WF ∧ id ∉ ob1.ids ∧ ob1.allOrders.Sublist ob.allOrders := by
    intro ob1 hc hidx sb sa kb ka
    have hsub : ob1.allOrders.Sublist ob.allOrders := List.Sublist.append sb sa
    refine ⟨⟨hc, ?_, fun o ho1 => h.gtc o (hsub.subset ho1)⟩, ?_, hsub⟩
    · intro b hb a ha1
      obtain ⟨b0, hb0, hb1⟩ := kb b hb
      obtain ⟨a0, ha0, ha2⟩ := ka a ha1
      rw [← hb1, ← ha2]
      exact h.uncrossed b0 hb0 a0 ha0
    · intro hmem
      obtain ⟨x, hx, hxid⟩ := List.mem_map.1 hmem
      have := hc.entry_of_mem hx
      rw [hidx, hxid, Index.at_erase_self _ _ h.consistent.index.keys] at this
      cases this
  rcases hcase with ⟨_, hf, hcan, hc⟩ | ⟨_, hf, hcan, hc⟩
  · refine ⟨_, hcan, key _ hc rfl (Ledger.unlink_sublist _ hf) (List.Sublist.refl _)
      (Ledger.unlink_keys_subset _ _ _ _) (fun l hl => ⟨l, hl, rfl⟩)⟩
  · refine ⟨_, hcan, key _ hc rfl (List.Sublist.refl _) (Ledger.unlink_sublist _ hf)
      (fun l hl => ⟨l, hl, rfl⟩) (Ledger.unlink_keys_subset _ _ _ _)⟩

theorem Orderbook.WF.empty : Orderbook.empty.WF where
  consistent :=
    { bids := Ledger.WF.nil _ _
      asks := Ledger.WF.nil _ _
      index := IndexOK.of_nil
      ranges := by simp [Orderbook.allOrders, Orderbook.empty] }
  uncrossed := by simp [Orderbook.Uncrossed, Orderbook.empty]
  gtc := by simp [Orderbook.AllGTC, Orderbook.allOrders, Orderbook.empty]

theorem Orderbook.MatchOrder_absent (ob : Orderbook) (m : OrderModify) (addr : Nat)
    (h : Index.at ob.orders_ m.orderId_ = none) :
    ob.MatchOrder m addr = .throws .out_of_range ob := by
  simp [Orderbook.MatchOrder, OrderModify.GetOrderId, h]

/-- `MatchOrder` of an id of the index returns, and the book it leaves
satisfies the invariant. -/
theorem Orderbook.WF.modify {ob : Orderbook} (h : ob.WF) (m : OrderModify) (addr : Nat)
    {e : OrderEntry} (he : Index.at ob.orders_ m.orderId_ = some e)
    (hq : isInt32 m.quantity_)
    (ha : ∀ u ob2, ob.CancelOrder m.GetOrderId = .returns u ob2 → addr ∉ ob2.addrs) :
    ∃ ts ob1, ob.MatchOrder m addr = .returns ts ob1 ∧ ob1.WF := by
  obtain ⟨ob2, hcan, hwf2, hid2, _⟩ := h.cancel_returns he
  have hfresh := ha () ob2 hcan
  obtain ⟨ts, ob1, hadd, hwf1⟩ :=
    hwf2.addOrder (m.toOrderPointer e.order_.obj.GetOrderType addr) hfresh hid2 hq
  refine ⟨ts, ob1, ?_, hwf1⟩
  simp only [Orderbook.MatchOrder, OrderModify.GetOrderId, he, hcan, Outcome.andThen]
  exact hadd

/-- Every book reachable through the public operations satisfies the invariant. -/
theorem Reachable.wf {ob : Orderbook} (h : Reachable ob) : ob.WF := by
  induction h with
  | empty => exact Orderbook.WF.empty
  | add ob ob1 addr orderType orderId side price quantity _ ha hi _ hq hb ih =>
    obtain ⟨ts, ob2, h1, h2⟩ :=
      ih.addOrder (newOrder addr orderType orderId side price quantity) ha hi hq
    rw [h1] at hb
    simp only [Outcome.book?, Option.some.injEq] at hb
    rw [← hb]; exact h2
  | cancel ob ob1 orderId _ hb ih =>
    cases he : Index.at ob.orders_ orderId with
    | none =>
      rw [Orderbook.CancelOrder_absent ob orderId he] at hb
      simp only [Outcome.book?, Option.some.injEq] at hb
      rw [← hb]; exact ih
    | some e =>
      obtain ⟨ob2, h1, h2, _⟩ := ih.cancel_returns he
      rw [h1] at hb
      simp only [Outcome.book?, Option.some.injEq] at hb
      rw [← hb]; exact h2
  | modify ob ob1 order addr _ _ hq ha hb ih =>
    cases he : Index.at ob.orders_ order.orderId_ with
    | none =>
      rw [Orderbook.MatchOrder_absent ob order addr he] at hb
      simp only [Outcome.book?, Option.some.injEq] at hb
      rw [← hb]; exact ih
    | some e =>
      obtain ⟨ts, ob2, h1, h2⟩ := ih.modify order addr he hq ha
      rw [h1] at hb
      simp only [Outcome.book?, Option.some.injEq] at hb
      rw [← hb]; exact h2

/-! ### One pass of the loop seen from one side -/

theorem Orderbook.Consistent.ledger {ob : Orderbook} (h : ob.Consistent) (s : Side) :
    Ledger.WF s.before s (ob.ledger s) := by
  cases s
  · exact h.bids
  · exact h.asks

/-- What a pass of the loop does on side `s`: the front order `o` of the front
level is filled by the trade quantity, and the leg of the trade carries its
id, its price and that quantity. -/
theorem Orderbook.matchStep_side {ob ob1 : Orderbook} {t : Trade}
    (hs : ob.matchStep = .next t ob1) (s : Side) :
    ∃ p o f r, ob.ledger s = (p, o :: f) :: r ∧
      ob1.ledger s = Ledger.fillFront (ob.ledger s) (t.leg s).quantity_ ∧
      (t.leg s).orderId_ = o.obj.orderId_ ∧ (t.leg s).price_ = o.obj.price_ ∧
      (t.leg Side.Buy).quantity_ = (t.leg Side.Sell).quantity_ := by
  obtain ⟨bp, ap, b, a, bt, at1, br, ar, hb, ha, hx, ht, h1⟩ := Orderbook.matchStep_next_inv hs
  subst h1; subst ht
  cases s
  · exact ⟨bp, b, bt, br, hb, rfl, rfl, rfl, rfl⟩
  · exact ⟨ap, a, at1, ar, ha, rfl, rfl, rfl, rfl⟩

theorem OrderPointer.fill_sameOrder (o : OrderPointer) (q : Quantity) :
    (o.fill q).sameOrder o := ⟨rfl, rfl, rfl, rfl, rfl, rfl⟩

theorem OrderPointer.sameOrder_refl (o : OrderPointer) : o.sameOrder o :=
  ⟨rfl, rfl, rfl, rfl, rfl, rfl⟩

theorem OrderPointer.sameOrder_trans {x y z : OrderPointer} (h1 : x.sameOrder y)
    (h2 : y.sameOrder z) : x.sameOrder z :=
  ⟨h1.1.trans h2.1, h1.2.1.trans h2.2.1, h1.2.2.1.trans h2.2.2.1,
    h1.2.2.2.1.trans h2.2.2.2.1, h1.2.2.2.2.1.trans h2.2.2.2.2.1,
    h1.2.2.2.2.2.trans h2.2.2.2.2.2⟩

/-- The orders of a side after a pass, in terms of those before it. -/
theorem Orderbook.matchStep_orders {ob ob1 : Orderbook} {t : Trade}
    (hs : ob.matchStep = .next t ob1) (s : Side) :
    ∃ o X, Ledger.orders (ob.ledger s) = o :: X ∧
      Ledger.orders (ob1.ledger s) = o.afterFill (t.leg s).quantity_ ++ X ∧
      (t.leg s).orderId_ = o.obj.orderId_ ∧ (t.leg s).price_ = o.obj.price_ := by
  obtain ⟨p, o, f, r, h1, h2, h3, h4, _⟩ := Orderbook.matchStep_side hs s
  refine ⟨o, f ++ Ledger.orders r, by simp [h1], ?_, h3, h4⟩
  rw [h2, h1, Ledger.fillFront_orders]

theorem Orderbook.matchStep_descend {ob ob1 : Orderbook} {t : Trade}
    (hs : ob.matchStep = .next t ob1) (s : Side) :
    ∀ x ∈ Ledger.orders (ob1.ledger s), ∃ y ∈ Ledger.orders (ob.ledger s), x.sameOrder y := by
  obtain ⟨o, X, h1, h2, _⟩ := Orderbook.matchStep_orders hs s
  intro x hx
  rw [h2] at hx
  rw [h1]
  rcases List.mem_append.1 hx with h | h
  · rw [OrderPointer.mem_afterFill h]
    exact ⟨o, List.mem_cons_self _ _, o.fill_sameOrder _⟩
  · exact ⟨x, List.mem_cons_of_mem _ h, x.sameOrder_refl⟩

/-- Every order left by a run of the loop is an order the run started with. -/
theorem Run.descend {ob ob1 : Orderbook} {ts : Trades} (hr : Run ob ts ob1) (s : Side) :
    ∀ x ∈ Ledger.orders (ob1.ledger s), ∃ y ∈ Ledger.orders (ob.ledger s), x.sameOrder y := by
  induction hr with
  | done ob _ => intro x hx; exact ⟨x, hx, x.sameOrder_refl⟩
  | next ob ob1 ob2 t ts hs _ ih =>
    intro x hx
    obtain ⟨y, hy, hxy⟩ := ih x hx
    obtain ⟨z, hz, hyz⟩ := Orderbook.matchStep_descend hs s y hy
    exact ⟨z, hz, OrderPointer.sameOrder_trans hxy hyz⟩

theorem Run.ids_subset {ob ob1 : Orderbook} {ts : Trades} (hr : Run ob ts ob1) (s : Side) :
    ∀ id ∈ Ledger.ids (ob1.ledger s), id ∈ Ledger.ids (ob.ledger s) := by
  intro id hid
  obtain ⟨x, hx, hxid⟩ := List.mem_map.1 hid
  obtain ⟨y, hy, hxy⟩ := hr.descend s x hx
  exact List.mem_map.2 ⟨y, hy, by rw [← hxid]; exact hxy.2.2.1.symm⟩

/-- The leg of every trade of a run carries the id of an order the run
started with on that side. -/
theorem Run.trade_ids {ob ob1 : Orderbook} {ts : Trades} (hr : Run ob ts ob1) (s : Side) :
    ∀ t ∈ ts, (t.leg s).orderId_ ∈ Ledger.ids (ob.ledger s) := by
  induction hr with
  | done ob _ => simp
  | next ob ob1 ob2 t ts hs hr1 ih =>
    intro t1 ht1
    rcases List.mem_cons.1 ht1 with h | h
    · subst h
      obtain ⟨o, X, h1, _, h3, _⟩ := Orderbook.matchStep_orders hs s
      simp [Ledger.ids, h1, h3]
    · have := ih t1 h
      obtain ⟨x, hx, hxid⟩ := List.mem_map.1 this
      obtain ⟨y, hy, hxy⟩ := Orderbook.matchStep_descend hs s x hx
      exact List.mem_map.2 ⟨y, hy, by rw [← hxid]; exact hxy.2.2.1.symm⟩

theorem Orderbook.matchStep_ids_nodup {ob ob1 : Orderbook} {t : Trade}
    (hs : ob.matchStep = .next t ob1) (s : Side) (h : (Ledger.ids (ob.ledger s)).Nodup) :
    (Ledger.ids (ob1.ledger s)).Nodup := by
  obtain ⟨o, X, h1, h2, _⟩ := Orderbook.matchStep_orders hs s
  simp only [Ledger.ids, h1, h2] at h ⊢
  simp only [OrderPointer.afterFill]
  split
  · simpa using (List.nodup_cons.1 h).2
  · simpa [OrderPointer.fill] using h

theorem tradedQuantity_cons_eq (s : Side) (t : Trade) (ts : Trades) :
    tradedQuantity s (t.leg s).orderId_ (t :: ts)
      = (t.leg s).quantity_ + tradedQuantity s (t.leg s).orderId_ ts := by
  simp [tradedQuantity]

theorem tradedQuantity_cons_ne (s : Side) (id : OrderId) (t : Trade) (ts : Trades)
    (h : (t.leg s).orderId_ ≠ id) :
    tradedQuantity s id (t :: ts) = tradedQuantity s id ts := by
  simp [tradedQuantity, h]

theorem tradedQuantity_absent (s : Side) (id : OrderId) (ts : Trades)
    (h : ∀ t ∈ ts, (t.leg s).orderId_ ≠ id) : tradedQuantity s id ts = 0 := by
  induction ts with
  | nil => simp [tradedQuantity]
  | cons t ts ih =>
    rw [tradedQuantity_cons_ne s id t ts (h t (List.mem_cons_self _ _))]
    exact ih fun t1 ht1 => h t1 (List.mem_cons_of_mem _ ht1)

/-! ### Priority along a run of the loop -/

theorem OrderPointer.afterFill_eq_nil_iff (o : OrderPointer) (q : Quantity) :
    o.afterFill q = [] ↔ wrapInt32 (o.obj.remainingQuantity_ - q) = 0 := by
  simp only [OrderPointer.afterFill, OrderPointer.fill, Order.isFilled,
    Order.GetRemainingQuantity, decide_eq_true_eq]
  split <;> simp_all

theorem OrderPointer.afterFill_cases (o : OrderPointer) (q : Quantity) :
    (o.afterFill q = [] ∧ wrapInt32 (o.obj.remainingQuantity_ - q) = 0) ∨
    (o.afterFill q = [o.fill q] ∧ wrapInt32 (o.obj.remainingQuantity_ - q) ≠ 0) := by
  by_cases h : wrapInt32 (o.obj.remainingQuantity_ - q) = 0
  · exact Or.inl ⟨(o.afterFill_eq_nil_iff q).2 h, h⟩
  · right
    refine ⟨?_, h⟩
    simp only [OrderPointer.afterFill, OrderPointer.fill, Order.isFilled,
      Order.GetRemainingQuantity, decide_eq_true_eq]
    rw [if_neg h]

/-- Priority on one side: when an order `y` that rests behind `x` takes part
in a trade of the run, the trades of `x` all come before those of `y`, one of
them exists before each trade of `y`, they fill `x` completely, and `x` is
gone from the ledger when the run ends. -/
theorem Run.priority {ob ob1 : Orderbook} {ts : Trades} (hr : Run ob ts ob1) (s : Side)
    (hn : (Ledger.ids (ob.ledger s)).Nodup) (x y : OrderPointer)
    (hxy : [x, y].Sublist (Ledger.orders (ob.ledger s)))
    (hy : ∃ t ∈ ts, (t.leg s).orderId_ = y.obj.orderId_) :
    (∀ (i j : Nat) (ti tj : Trade), ts[i]? = some ti → ts[j]? = some tj →
        (ti.leg s).orderId_ = x.obj.orderId_ → (tj.leg s).orderId_ = y.obj.orderId_ → i < j) ∧
    (∀ (j : Nat) (tj : Trade), ts[j]? = some tj → (tj.leg s).orderId_ = y.obj.orderId_ →
        ∃ (i : Nat) (ti : Trade), i < j ∧ ts[i]? = some ti ∧ (ti.leg s).orderId_ = x.obj.orderId_) ∧
    wrapInt32 (x.obj.remainingQuantity_ - tradedQuantity s x.obj.orderId_ ts) = 0 ∧
    x.obj.orderId_ ∉ Ledger.ids (ob1.ledger s) := by
  induction hr generalizing x with
  | done ob _ => obtain ⟨t, ht, _⟩ := hy; simp at ht
  | next ob ob1 ob2 t ts hs hr1 ih =>
    obtain ⟨o, X, h1, h2, h3, _⟩ := Orderbook.matchStep_orders hs s
    have hn1 := Orderbook.matchStep_ids_nodup hs s hn
    rw [h1] at hxy
    simp only [Ledger.ids, h1, List.map_cons, List.nodup_cons, List.mem_map, not_exists,
      not_and] at hn
    have hyt : ∀ z ∈ X, (t.leg s).orderId_ ≠ z.obj.orderId_ := by
      intro z hz hh
      exact hn.1 z hz (by rw [← hh, h3])
    cases hxy with
    | cons _ hsub =>
      have hxX : x ∈ X := hsub.subset (by simp)
      have hyX : y ∈ X := hsub.subset (by simp)
      have hy1 : ∃ t1 ∈ ts, (t1.leg s).orderId_ = y.obj.orderId_ := by
        obtain ⟨t1, ht1, hid⟩ := hy
        rcases List.mem_cons.1 ht1 with h | h
        · subst h; exact absurd hid (hyt y hyX)
        · exact ⟨t1, h, hid⟩
      have hsub1 : [x, y].Sublist (Ledger.orders (ob1.ledger s)) := by
        rw [h2]; exact hsub.trans (List.sublist_append_right _ _)
      obtain ⟨a1, a2, a3, a4⟩ := ih hn1 x hsub1 hy1
      refine ⟨?_, ?_, ?_, a4⟩
      · intro i j ti tj hi hj hxi hyj
        cases i with
        | zero =>
          simp only [List.getElem?_cons_zero, Option.some.injEq] at hi
          subst hi; exact absurd hxi (hyt x hxX)
        | succ i =>
          cases j with
          | zero =>
            simp only [List.getElem?_cons_zero, Option.some.injEq] at hj
            subst hj; exact absurd hyj (hyt y hyX)
          | succ j =>
            simp only [List.getElem?_cons_succ] at hi hj
            exact Nat.succ_lt_succ (a1 i j ti tj hi hj hxi hyj)
      · intro j tj hj hyj
        cases j with
        | zero =>
          simp only [List.getElem?_cons_zero, Option.some.injEq] at hj
          subst hj; exact absurd hyj (hyt y hyX)
        | succ j =>
          simp only [List.getElem?_cons_succ] at hj
          obtain ⟨i, ti, hij, hi, hxi⟩ := a2 j tj hj hyj
          exact ⟨i + 1, ti, Nat.succ_lt_succ hij, by simpa using hi, hxi⟩
      · rw [tradedQuantity_cons_ne s _ t ts (hyt x hxX)]; exact a3
    | cons₂ _ hsub =>
      have hyX : y ∈ X := hsub.subset (by simp)
      have hy1 : ∃ t1 ∈ ts, (t1.leg s).orderId_ = y.obj.orderId_ := by
        obtain ⟨t1, ht1, hid⟩ := hy
        rcases List.mem_cons.1 ht1 with h | h
        · subst h; exact absurd hid (hyt y hyX)
        · exact ⟨t1, h, hid⟩
      have hj0 : ∀ (j : Nat) (tj : Trade), (t :: ts)[j]? = some tj → (tj.leg s).orderId_ = y.obj.orderId_ →
          ∃ j1, j = j1 + 1 ∧ ts[j1]? = some tj := by
        intro j tj hj hyj
        cases j with
        | zero =>
          simp only [List.getElem?_cons_zero, Option.some.injEq] at hj
          subst hj; exact absurd hyj (hyt y hyX)
        | succ j => exact ⟨j, rfl, by simpa using hj⟩
      rcases x.afterFill_cases (t.leg s).quantity_ with ⟨hf, hw⟩ | ⟨hf, hw⟩
      · -- the front order is filled by this trade and leaves
        rw [hf, List.nil_append] at h2
        have hgone : x.obj.orderId_ ∉ Ledger.ids (ob1.ledger s) := by
          simp only [Ledger.ids, h2, List.mem_map, not_exists, not_and]
          intro z hz hh; exact hn.1 z hz hh
        have hnone : ∀ t1 ∈ ts, (t1.leg s).orderId_ ≠ x.obj.orderId_ := by
          intro t1 ht1 hh
          exact hgone (hh ▸ hr1.trade_ids s t1 ht1)
        refine ⟨?_, ?_, ?_, ?_⟩
        · intro i j ti tj hi hj hxi hyj
          obtain ⟨j1, hj1, _⟩ := hj0 j tj hj hyj
          cases i with
          | zero => omega
          | succ i =>
            simp only [List.getElem?_cons_succ] at hi
            exact absurd hxi (hnone ti (List.getElem?_mem hi))
        · intro j tj hj hyj
          obtain ⟨j1, hj1, _⟩ := hj0 j tj hj hyj
          exact ⟨0, t, by omega, by simp, h3⟩
        · rw [← h3, tradedQuantity_cons_eq, h3, tradedQuantity_absent s _ ts hnone]
          simpa using hw
        · intro hh; exact hgone (hr1.ids_subset s _ hh)
      · -- the front order stays in front with a smaller remaining quantity
        rw [hf] at h2
        have hsub1 : [x.fill (t.leg s).quantity_, y].Sublist (Ledger.orders (ob1.ledger s)) := by
          rw [h2]; exact List.Sublist.cons₂ _ hsub
        obtain ⟨a1, a2, a3, a4⟩ := ih hn1 (x.fill (t.leg s).quantity_) hsub1 hy1
        have hid : (x.fill (t.leg s).quantity_).obj.orderId_ = x.obj.orderId_ := rfl
        rw [hid] at a1 a2 a3 a4
        refine ⟨?_, ?_, ?_, a4⟩
        · intro i j ti tj hi hj hxi hyj
          obtain ⟨j1, hj1, hj2⟩ := hj0 j tj hj hyj
          cases i with
          | zero => omega
          | succ i =>
            simp only [List.getElem?_cons_succ] at hi
            have := a1 i j1 ti tj hi hj2 hxi hyj
            omega
        · intro j tj hj hyj
          obtain ⟨j1, hj1, _⟩ := hj0 j tj hj hyj
          exact ⟨0, t, by omega, by simp, h3⟩
        · rw [← h3, tradedQuantity_cons_eq, h3]
          have e : (x.fill (t.leg s).quantity_).obj.remainingQuantity_
              = wrapInt32 (x.obj.remainingQuantity_ - (t.leg s).quantity_) := rfl
          rw [e, wrapInt32_sub_wrap] at a3
          rw [← a3]; congr 1; ring

/-! ### Levels after a push, and ids that do not rest -/

theorem Ledger.at_push_back {before : Price → Price → Prop} {cmp : Price → Price → Bool}
    (hc : Comparator before cmp) {side : Side} {m : Ledger} (hm : Ledger.WF before side m)
    (k : Price) (o : OrderPointer) :
    Ledger.at (Ledger.push_back cmp m k o) k = some ((Ledger.at m k).getD [] ++ [o]) := by
  induction m with
  | nil => simp [Ledger.push_back, Ledger.at]
  | cons l r ih =>
    obtain ⟨p, f⟩ := l
    by_cases hp : p = k
    · simp [Ledger.push_back, Ledger.at, hp]
    · by_cases hb : cmp k p = true
      · have hbk : before k p := (hc.dec _ _).1 hb
        have hnone : Ledger.at r k = none := by
          rw [Ledger.at_none_iff_no_level]
          intro x hx hxk
          have := hc.trans _ _ _ hbk (hm.head_before x hx)
          rw [hxk] at this
          exact hc.irrefl _ this
        simp [Ledger.push_back, Ledger.at, hp, hb, hnone]
      · simp [Ledger.push_back, Ledger.at, hp, hb, ih hm.tail]

theorem Ledger.at_push_back_ne (cmp : Price → Price → Bool) (m : Ledger) (k k1 : Price)
    (o : OrderPointer) (h : k1 ≠ k) :
    Ledger.at (Ledger.push_back cmp m k o) k1 = Ledger.at m k1 := by
  induction m with
  | nil => simp [Ledger.push_back, Ledger.at, Ne.symm h]
  | cons l r ih =>
    obtain ⟨p, f⟩ := l
    by_cases hp : p = k
    · subst hp
      simp [Ledger.push_back, Ledger.at, Ne.symm h]
    · by_cases hb : cmp k p = true
      · simp [Ledger.push_back, Ledger.at, hp, hb, Ne.symm h]
      · by_cases hp1 : p = k1
        · subst hp1
          simp [Ledger.push_back, Ledger.at, hp, hb]
        · simp [Ledger.push_back, Ledger.at, hp, hb, hp1, ih]

theorem Orderbook.Consistent.at_none_of_not_mem {ob : Orderbook} (h : ob.Consistent)
    {id : OrderId} (hid : id ∉ ob.ids) : Index.at ob.orders_ id = none := by
  rw [Index.at_none_iff_not_key]
  intro hh
  obtain ⟨kv, h1, h2⟩ := List.mem_map.1 hh
  obtain ⟨h3, h4, _⟩ := h.index.sound kv h1
  exact hid (List.mem_map.2 ⟨_, h3, by rw [h4, h2]⟩)

theorem Orderbook.Consistent.mem_ids_of_at {ob : Orderbook} (h : ob.Consistent)
    {id : OrderId} {e : OrderEntry} (he : Index.at ob.orders_ id = some e) : id ∈ ob.ids := by
  obtain ⟨h3, h4, _⟩ := h.index.sound (id, e) (Index.mem_of_at_entry _ _ _ he)
  exact List.mem_map.2 ⟨_, h3, h4⟩

theorem Orderbook.ledger_enter_same (ob : Orderbook) (o : OrderPointer) :
    (ob.enter o).ledger o.obj.side_ =
      Ledger.push_back (match o.obj.side_ with
                        | Side.Buy => greaterPrice
                        | Side.Sell => lessPrice)
        (ob.ledger o.obj.side_) o.obj.price_ o := by
  cases hs : o.obj.side_ with
  | Buy => rw [Orderbook.enter_buy ob o hs]; rfl
  | Sell => rw [Orderbook.enter_sell ob o hs]; rfl

theorem Orderbook.ledger_enter_opposite (ob : Orderbook) (o : OrderPointer) :
    (ob.enter o).ledger o.obj.side_.opposite = ob.ledger o.obj.side_.opposite := by
  cases hs : o.obj.side_ with
  | Buy => rw [Orderbook.enter_buy ob o hs]; rfl
  | Sell => rw [Orderbook.enter_sell ob o hs]; rfl

/-- The order that `AddOrder` files is the last of the level of its price. -/
theorem Orderbook.Consistent.enter_tail {ob : Orderbook} (h : ob.Consistent)
    (o : OrderPointer) :
    Ledger.at ((ob.enter o).ledger o.obj.side_) o.obj.price_ =
      some ((Ledger.at (ob.ledger o.obj.side_) o.obj.price_).getD [] ++ [o]) := by
  rw [Orderbook.ledger_enter_same]
  cases hs : o.obj.side_ with
  | Buy => exact Ledger.at_push_back greater_comparator h.bids _ _
  | Sell => exact Ledger.at_push_back less_comparator h.asks _ _

/-! ### Priority for a call of AddOrder -/

theorem reachable_bookSell90 : Reachable bookSell90 :=
  Reachable.add Orderbook.empty bookSell90 0 OrderType.GoodTillCancel 1 Side.Sell 90 5
    Reachable.empty (by decide) (by decide) (by decide) (by decide) (by decide)

theorem reachable_bookBid100 : Reachable bookBid100 :=
  Reachable.add Orderbook.empty bookBid100 0 OrderType.GoodTillCancel 1 Side.Buy 100 10
    Reachable.empty (by decide) (by decide) (by decide) (by decide) (by decide)

theorem reachable_bookTwoBids : Reachable bookTwoBids :=
  Reachable.add bookBid100 bookTwoBids 1 OrderType.GoodTillCancel 2 Side.Buy 100 10
    reachable_bookBid100 (by decide) (by decide) (by decide) (by decide) (by decide)

theorem Ledger.level_sublist {m : Ledger} {l : Price × OrderPointers} (h : l ∈ m) :
    l.2.Sublist (Ledger.orders m) := by
  induction m with
  | nil => simp at h
  | cons x r ih =>
    obtain ⟨p, f⟩ := x
    rw [Ledger.orders_cons]
    rcases List.mem_cons.1 h with h1 | h1
    · subst h1; exact List.sublist_append_left _ _
    · exact (ih h1).trans (List.sublist_append_right _ _)

/-- An order of a level that the comparator puts first comes first among the
orders of the ledger. -/
theorem Ledger.WF.sublist_of_levels {before : Price → Price → Prop}
    {cmp : Price → Price → Bool} (hc : Comparator before cmp) {side : Side} {m : Ledger}
    (hm : Ledger.WF before side m) {la lb : Price × OrderPointers} (ha : la ∈ m) (hb : lb ∈ m)
    (hab : before la.1 lb.1) {x y : OrderPointer} (hx : x ∈ la.2) (hy : y ∈ lb.2) :
    [x, y].Sublist (Ledger.orders m) := by
  induction m with
  | nil => simp at ha
  | cons l r ih =>
    obtain ⟨p, f⟩ := l
    rw [Ledger.orders_cons]
    rcases List.mem_cons.1 ha with h1 | h1
    · rcases List.mem_cons.1 hb with h2 | h2
      · rw [h1, h2] at hab; exact absurd hab (hc.irrefl _)
      · subst h1
        have e1 : [x].Sublist f := List.singleton_sublist.2 hx
        have e2 : [y].Sublist (Ledger.orders r) :=
          List.singleton_sublist.2 (Ledger.mem_orders.2 ⟨lb, h2, hy⟩)
        exact List.Sublist.append e1 e2
    · rcases List.mem_cons.1 hb with h2 | h2
      · have := hm.head_before la h1
        rw [h2] at hab
        exact absurd (hc.trans _ _ _ hab this) (hc.irrefl _)
      · exact (ih hm.tail h1 h2).trans (List.sublist_append_right _ _)

theorem Orderbook.ids_eq (ob : Orderbook) :
    ob.ids = Ledger.ids (ob.ledger Side.Buy) ++ Ledger.ids (ob.ledger Side.Sell) := by
  simp [Orderbook.ids, Orderbook.allOrders, Ledger.ids, Orderbook.ledger]

theorem Orderbook.mem_ids_iff (ob : Orderbook) (id : OrderId) :
    id ∈ ob.ids ↔ ∃ s, id ∈ Ledger.ids (ob.ledger s) := by
  rw [Orderbook.ids_eq, List.mem_append]
  constructor
  · rintro (h | h)
    · exact ⟨_, h⟩
    · exact ⟨_, h⟩
  · rintro ⟨s, h⟩
    cases s
    · exact Or.inl h
    · exact Or.inr h

theorem Orderbook.Consistent.ids_nodup {ob : Orderbook} (h : ob.Consistent) (s : Side) :
    (Ledger.ids (ob.ledger s)).Nodup := by
  have := h.index.ids
  have e : ob.allOrders.map (fun o => o.obj.orderId_) = ob.ids := rfl
  rw [e, Orderbook.ids_eq] at this
  cases s
  · exact (List.nodup_append.1 this).1
  · exact (List.nodup_append.1 this).2.1

theorem Orderbook.Consistent.ids_disjoint {ob : Orderbook} (h : ob.Consistent) (s : Side)
    {id : OrderId} (hid : id ∈ Ledger.ids (ob.ledger s)) :
    id ∉ Ledger.ids (ob.ledger s.opposite) := by
  have := h.index.ids
  have e : ob.allOrders.map (fun o => o.obj.orderId_) = ob.ids := rfl
  rw [e, Orderbook.ids_eq] at this
  have hd := (List.nodup_append.1 this).2.2
  cases s
  · exact fun hh => hd hid hh
  · exact fun hh => hd hh hid

theorem Orderbook.enter_sublist (ob : Orderbook) (o : OrderPointer) (s : Side) :
    (Ledger.orders (ob.ledger s)).Sublist (Ledger.orders ((ob.enter o).ledger s)) := by
  cases hs : o.obj.side_ with
  | Buy =>
    rw [Orderbook.enter_buy ob o hs]
    cases s
    · exact Ledger.push_back_sublist _ _ _ _
    · exact List.Sublist.refl _
  | Sell =>
    rw [Orderbook.enter_sell ob o hs]
    cases s
    · exact List.Sublist.refl _
    · exact Ledger.push_back_sublist _ _ _ _

theorem Orderbook.ledger_orders_subset (ob : Orderbook) (s : Side) :
    ∀ x ∈ Ledger.orders (ob.ledger s), x ∈ ob.allOrders := by
  intro x hx
  cases s
  · exact List.mem_append_left _ hx
  · exact List.mem_append_right _ hx

/-- Priority for a call of `AddOrder` on a book between calls: when `y`, which
rests behind `x` on side `s` before the call, takes part in a returned trade,
the trades of `x` come before those of `y`, one exists before each trade of
`y`, they fill `x` completely, and `x` is gone from ledgers and index. -/
theorem Orderbook.WF.addOrder_priority {ob ob1 : Orderbook} (h : ob.WF) (o : OrderPointer)
    (ha : o.addr ∉ ob.addrs) (hi : o.obj.orderId_ ∉ ob.ids)
    (hq : isInt32 o.obj.remainingQuantity_) {ts : Trades}
    (hadd : ob.AddOrder o = .returns ts ob1) (s : Side) (x y : OrderPointer)
    (hxy : [x, y].Sublist (Ledger.orders (ob.ledger s)))
    (hy : ∃ t ∈ ts, (t.leg s).orderId_ = y.obj.orderId_) :
    (∀ (i j : Nat) (ti tj : Trade), ts[i]? = some ti → ts[j]? = some tj →
        (ti.leg s).orderId_ = x.obj.orderId_ → (tj.leg s).orderId_ = y.obj.orderId_ → i < j) ∧
    (∀ (j : Nat) (tj : Trade), ts[j]? = some tj → (tj.leg s).orderId_ = y.obj.orderId_ →
        ∃ (i : Nat) (ti : Trade), i < j ∧ ts[i]? = some ti ∧
          (ti.leg s).orderId_ = x.obj.orderId_) ∧
    wrapInt32 (x.obj.remainingQuantity_ - tradedQuantity s x.obj.orderId_ ts) = 0 ∧
    x.obj.orderId_ ∉ ob1.ids ∧ Index.at ob1.orders_ x.obj.orderId_ = none := by
  by_cases hent : o.obj.orderType_ = OrderType.GoodTillCancel ∨
      ob.canMatch o.obj.side_ o.obj.price_ = true
  · obtain ⟨ts1, ob2, ob3, hc, hrun, hsw, hadd1, hwf3, hc2, sb, sa⟩ :=
      h.addOrder_entered o ha hi hq hent
    rw [hadd1] at hadd
    injection hadd with e1 e2
    subst e1; subst e2
    have hxy1 := hxy.trans (Orderbook.enter_sublist ob o s)
    obtain ⟨a1, a2, a3, a4⟩ := hrun.priority s (hc.ids_nodup s) x y hxy1 hy
    have hxin : x.obj.orderId_ ∈ Ledger.ids ((ob.enter o).ledger s) :=
      List.mem_map.2 ⟨x, hxy1.subset (by simp), rfl⟩
    have a5 : x.obj.orderId_ ∉ Ledger.ids (ob2.ledger s.opposite) :=
      fun hh => hc.ids_disjoint s hxin (hrun.ids_subset _ _ hh)
    have a6 : x.obj.orderId_ ∉ ob2.ids := by
      rw [Orderbook.mem_ids_iff]
      rintro ⟨s1, hs1⟩
      cases s <;> cases s1 <;> first | exact a4 hs1 | exact a5 hs1
    have a7 : x.obj.orderId_ ∉ ob3.ids := by
      intro hh
      apply a6
      obtain ⟨z, hz, hzid⟩ := List.mem_map.1 hh
      refine List.mem_map.2 ⟨z, ?_, hzid⟩
      simp only [Orderbook.allOrders, List.mem_append] at hz ⊢
      rcases hz with hz | hz
      · exact Or.inl (sb.subset hz)
      · exact Or.inr (sa.subset hz)
    exact ⟨a1, a2, a3, a7, hwf3.consistent.at_none_of_not_mem a7⟩
  · have hrej : ob.AddOrder o = .returns [] ob := by
      apply Orderbook.AddOrder_rejected
      · cases ht : o.obj.orderType_ with
        | GoodTillCancel => exact absurd (Or.inl ht) hent
        | FillOrKill => rfl
      · cases hcm : ob.canMatch o.obj.side_ o.obj.price_ with
        | true => exact absurd (Or.inr hcm) hent
        | false => rfl
    rw [hrej] at hadd
    injection hadd with e1 _
    subst e1
    obtain ⟨t, ht, _⟩ := hy
    simp at ht

/-! ### Prices along a run of the loop -/

/-- The leg of every trade of a run carries the key of a level the run
started with on that side. -/
theorem Run.trade_prices {ob ob1 : Orderbook} {ts : Trades} (hr : Run ob ts ob1)
    (hc : ob.Consistent) (s : Side) :
    ∀ t ∈ ts, ∃ l ∈ ob.ledger s, l.1 = (t.leg s).price_ := by
  induction hr with
  | done ob _ => simp
  | next ob ob1 ob2 t ts hs hr1 ih =>
    obtain ⟨p, o, f, r, h1, h2, h3, h4, _⟩ := Orderbook.matchStep_side hs s
    intro t1 ht1
    rcases List.mem_cons.1 ht1 with h | h
    · subst h
      refine ⟨(p, o :: f), by rw [h1]; exact List.mem_cons_self _ _, ?_⟩
      have := (hc.ledger s).keyed (p, o :: f) (by rw [h1]; exact List.mem_cons_self _ _) o
        (List.mem_cons_self _ _)
      rw [h4]; exact this.1.symm
    · obtain ⟨l, hl, hl1⟩ := ih (hc.step hs) t1 h
      rw [h2] at hl
      obtain ⟨l0, hl0, hl2⟩ := Ledger.fillFront_levels_subset _ _ l hl
      exact ⟨l0, hl0, by rw [hl2, hl1]⟩

theorem Side.comparator (s : Side) :
    Comparator s.before (match s with
                         | Side.Buy => greaterPrice
                         | Side.Sell => lessPrice) := by
  cases s
  · exact greater_comparator
  · exact less_comparator

/-- Along a run, the leg prices of side `s` never move back in the order of
the ledger of that side. -/
theorem Run.leg_prices {ob ob1 : Orderbook} {ts : Trades} (hr : Run ob ts ob1)
    (hc : ob.Consistent) (s : Side) :
    ts.Pairwise (fun t1 t2 => ¬ s.before (t2.leg s).price_ (t1.leg s).price_) := by
  induction hr with
  | done ob _ => exact List.Pairwise.nil
  | next ob ob1 ob2 t ts hs hr1 ih =>
    refine List.pairwise_cons.2 ⟨?_, ih (hc.step hs)⟩
    obtain ⟨p, o, f, r, h1, h2, h3, h4, _⟩ := Orderbook.matchStep_side hs s
    have hw := hc.ledger s
    rw [h1] at hw
    have hkey : (t.leg s).price_ = p := by
      rw [h4]; exact (hw.keyed (p, o :: f) (List.mem_cons_self _ _) o (List.mem_cons_self _ _)).1
    intro t1 ht1
    obtain ⟨l, hl, hl1⟩ := hr1.trade_prices (hc.step hs) s t1 ht1
    rw [h2] at hl
    obtain ⟨l0, hl0, hl2⟩ := Ledger.fillFront_levels_subset _ _ l hl
    rw [h1] at hl0
    rw [hkey, ← hl1, ← hl2]
    rcases List.mem_cons.1 hl0 with h5 | h5
    · rw [h5]; exact s.comparator.irrefl _
    · intro hh
      exact s.comparator.irrefl _ (s.comparator.trans _ _ _ hh (hw.head_before l0 h5))

/-! ### A resting order that is filled in part -/

theorem Orderbook.sweep_of_allGTC (ob : Orderbook) (hb : ∀ l ∈ ob.bids_, l.2 ≠ [])
    (ha : ∀ l ∈ ob.asks_, l.2 ≠ []) (hg : ob.AllGTC) : ob.sweep = .returns () ob := by
  have h1 : ob.sweepFront ob.bids_ = .returns () ob := by
    rcases hbb : ob.bids_ with _ | ⟨⟨p, f⟩, r⟩
    · rfl
    rcases f with _ | ⟨x, t⟩
    · exact absurd rfl (hb (p, []) (by rw [hbb]; exact List.mem_cons_self _ _))
    · exact Orderbook.sweepFront_gtc ob p x t r
        (hg x (by simp [Orderbook.allOrders, hbb]))
  have h2 : ob.sweepFront ob.asks_ = .returns () ob := by
    rcases haa : ob.asks_ with _ | ⟨⟨p, f⟩, r⟩
    · rfl
    rcases f with _ | ⟨x, t⟩
    · exact absurd rfl (ha (p, []) (by rw [haa]; exact List.mem_cons_self _ _))
    · exact Orderbook.sweepFront_gtc ob p x t r
        (hg x (by simp [Orderbook.allOrders, haa]))
  simp [Orderbook.sweep, h1, Outcome.andThen, h2]

theorem Index.store_addr (idx : Index) (p : OrderPointer) :
    ∀ kv ∈ Index.store idx p, ∃ kv0 ∈ idx, kv.2.order_.addr = kv0.2.order_.addr := by
  intro kv hkv
  obtain ⟨kv0, h0, h1⟩ := (Index.mem_store idx p kv).1 hkv
  refine ⟨kv0, h0, ?_⟩
  rw [h1]
  simp only
  split
  · rename_i h; exact h.symm
  · rfl

theorem Orderbook.Consistent.entry_addr {ob : Orderbook} (h : ob.Consistent)
    {kv : OrderId × OrderEntry} (hkv : kv ∈ ob.orders_) : kv.2.order_.addr ∈ ob.addrs :=
  List.mem_map.2 ⟨_, (h.index.sound kv hkv).1, rfl⟩

/-- The index after a pass of the loop that fills the incoming order `o`
completely and the resting order `b` only in part. -/
theorem Orderbook.Consistent.index_after_hit {ob : Orderbook} (h : ob.Consistent)
    (o b : OrderPointer) (q : Quantity) (ha : o.addr ∉ ob.addrs)
    (hi : o.obj.orderId_ ∉ ob.ids) (hb : b ∈ ob.allOrders)
    (hbq : (b.fill q).obj.isFilled = false) (hoq : (o.fill q).obj.isFilled = true) :
    Index.fillOrder (Index.fillOrder
        (Index.insert ob.orders_ o.obj.orderId_ { order_ := o, location_ := o.addr }) b q) o q
      = Index.store ob.orders_ (b.fill q) ∧
    Index.fillOrder (Index.fillOrder
        (Index.insert ob.orders_ o.obj.orderId_ { order_ := o, location_ := o.addr }) o q) b q
      = Index.store ob.orders_ (b.fill q) := by
  have hnone := h.at_none_of_not_mem hi
  have hne : o.addr ≠ b.addr := by
    intro hh; exact ha (List.mem_map.2 ⟨b, hb, hh.symm⟩)
  have hfresh : ∀ kv ∈ Index.store ob.orders_ (b.fill q), kv.2.order_.addr ≠ (o.fill q).addr := by
    intro kv hkv hh
    obtain ⟨kv0, h0, h1⟩ := Index.store_addr _ _ kv hkv
    apply ha
    rw [show o.addr = (o.fill q).addr from rfl, ← hh, h1]
    exact h.entry_addr h0
  have hfresh0 : ∀ kv ∈ ob.orders_, kv.2.order_.addr ≠ (o.fill q).addr := by
    intro kv hkv hh
    apply ha
    rw [show o.addr = (o.fill q).addr from rfl, ← hh]
    exact h.entry_addr hkv
  have e1 : (b.fill q).addr = b.addr := rfl
  have e2 : (o.fill q).addr = o.addr := rfl
  constructor
  · simp only [Index.insert, hnone, Index.fillOrder, hbq, hoq, Index.store, if_true,
      Bool.false_eq_true, if_false, e1, e2, hne, Index.erase]
    exact Index.store_of_not_mem _ _ hfresh
  · simp only [Index.insert, hnone, Index.fillOrder, hbq, hoq, Index.store, if_true,
      Bool.false_eq_true, if_false, e1, e2, Index.erase]
    rw [Index.store_of_not_mem _ _ hfresh0]

theorem Orderbook.Consistent.done_of_uncrossed {ob : Orderbook} (h : ob.Consistent)
    (hu : ob.Uncrossed) : ob.matchStep = .done := by
  rcases Orderbook.matchStep_cases ob h.bids.nonempty h.asks.nonempty with hd | ⟨t, ob1, hs⟩
  · exact hd
  · obtain ⟨bp, ap, b, a, bt, at1, br, ar, hb, ha, hx, _⟩ := Orderbook.matchStep_next_inv hs
    have := hu (bp, b :: bt) (by rw [hb]; exact List.mem_cons_self _ _)
      (ap, a :: at1) (by rw [ha]; exact List.mem_cons_self _ _)
    exact absurd this hx

theorem OrderPointer.fill_part (b : OrderPointer) (q : Quantity)
    (hr : isInt32 b.obj.remainingQuantity_) (h0 : 0 < q) (h1 : q < b.obj.remainingQuantity_) :
    (b.fill q).obj.remainingQuantity_ = b.obj.remainingQuantity_ - q ∧
    (b.fill q).obj.isFilled = false := by
  have h0i : (0 : Int) < q := h0
  have h1i : (0 : Int) < b.obj.remainingQuantity_ - q := sub_pos.2 h1
  have e : wrapInt32 (b.obj.remainingQuantity_ - q) = b.obj.remainingQuantity_ - q := by
    apply wrapInt32_of_isInt32
    unfold isInt32 at hr ⊢
    omega
  refine ⟨e, ?_⟩
  have hne : (b.fill q).obj.remainingQuantity_ ≠ 0 := by
    rw [show (b.fill q).obj.remainingQuantity_
      = wrapInt32 (b.obj.remainingQuantity_ - q) from rfl, e]
    exact ne_of_gt h1i
  simpa [Order.isFilled, Order.GetRemainingQuantity] using hne

/-- A Good-Till-Cancel sell of less than the remaining quantity of the front
order `B` of the best bid level, at a price that level reaches. -/
theorem Orderbook.WF.addOrder_hit_bid {ob : Orderbook} (h : ob.WF) (o : OrderPointer)
    (ha : o.addr ∉ ob.addrs) (hi : o.obj.orderId_ ∉ ob.ids) (hs : o.obj.side_ = Side.Sell)
    (ht : o.obj.orderType_ = OrderType.GoodTillCancel) {bp : Price} {B : OrderPointer}
    {bt : OrderPointers} {br : Ledger} (hb : ob.bids_ = (bp, B :: bt) :: br)
    (hp : o.obj.price_ ≤ bp) (hq0 : 0 < o.obj.remainingQuantity_)
    (hq : o.obj.remainingQuantity_ < B.obj.remainingQuantity_) :
    ob.AddOrder o = .returns [tradeOf B o]
      { bids_ := (bp, B.fill o.obj.remainingQuantity_ :: bt) :: br, asks_ := ob.asks_,
        orders_ := Index.store ob.orders_ (B.fill o.obj.remainingQuantity_) } := by
  have hc := h.consistent
  have hBmem : B ∈ ob.allOrders := by simp [Orderbook.allOrders, hb]
  have hBr := hc.ranges B hBmem
  have hor : isInt32 o.obj.remainingQuantity_ := by
    have h0i : (0 : Int) < o.obj.remainingQuantity_ := hq0
    have h1i : (0 : Int) < B.obj.remainingQuantity_ - o.obj.remainingQuantity_ := sub_pos.2 hq
    unfold isInt32 at hBr ⊢; omega
  have hce := hc.enter o ha hi hor
  have hcan : ob.canMatch Side.Sell o.obj.price_ = true := by
    simp [Orderbook.canMatch, hb, hp]
  have hasks := Orderbook.enter_crossing_sell h.uncrossed o hs hcan
  have hent := Orderbook.enter_sell ob o hs
  have hbids : (ob.enter o).bids_ = (bp, B :: bt) :: br := by rw [hent]; exact hb
  have hidx : (ob.enter o).orders_ =
      Index.insert ob.orders_ o.obj.orderId_ { order_ := o, location_ := o.addr } := by
    rw [hent]
  have hmin : min B.obj.remainingQuantity_ o.obj.remainingQuantity_
      = o.obj.remainingQuantity_ := min_eq_right (le_of_lt hq)
  obtain ⟨_, hBf⟩ := B.fill_part _ hBr hq0 hq
  have hof := o.fill_self_filled
  have hstep := Orderbook.matchStep_cons (ob.enter o) bp o.obj.price_ B o bt [] br ob.asks_
    hbids hasks (not_lt.2 hp)
  rw [hmin, hbids, hasks, hidx,
    (hc.index_after_hit o B _ ha hi hBmem hBf hof).1] at hstep
  simp only [Ledger.fillFront, hBf, hof, Bool.false_eq_true, if_false, if_true,
    List.isEmpty_nil] at hstep
  have hc1 := hce.step hstep
  have hu1 : Orderbook.Uncrossed
      { bids_ := (bp, B.fill o.obj.remainingQuantity_ :: bt) :: br, asks_ := ob.asks_,
        orders_ := Index.store ob.orders_ (B.fill o.obj.remainingQuantity_) } := by
    intro b hb1 a ha1
    have : ∃ b0 ∈ ob.bids_, b0.1 = b.1 := by
      rcases List.mem_cons.1 hb1 with h1 | h1
      · exact ⟨(bp, B :: bt), by rw [hb]; exact List.mem_cons_self _ _, by rw [h1]⟩
      · exact ⟨b, by rw [hb]; exact List.mem_cons_of_mem _ h1, rfl⟩
    obtain ⟨b0, hb0, e⟩ := this
    rw [← e]; exact h.uncrossed b0 hb0 a ha1
  have hrun : Run (ob.enter o) [tradeOf B o] _ :=
    Run.next _ _ _ _ [] hstep (Run.done _ (hc1.done_of_uncrossed hu1))
  have hg1 : Orderbook.AllGTC
      { bids_ := (bp, B.fill o.obj.remainingQuantity_ :: bt) :: br, asks_ := ob.asks_,
        orders_ := Index.store ob.orders_ (B.fill o.obj.remainingQuantity_) } := by
    intro x hx
    simp only [Orderbook.allOrders, Ledger.orders_cons, List.cons_append, List.mem_cons,
      List.mem_append] at hx
    rcases hx with hx | hx | hx
    · rw [hx]; exact h.gtc B hBmem
    · exact h.gtc x (by simp only [Orderbook.allOrders, hb, Ledger.orders_cons,
        List.cons_append, List.mem_cons, List.mem_append]; tauto)
    · exact h.gtc x (by simp only [Orderbook.allOrders, List.mem_append]; tauto)
  rw [Orderbook.AddOrder_entered ob o (Or.inl ht),
    Orderbook.MatchOrders_of_run hce.bids.nonempty hce.asks.nonempty hrun,
    Orderbook.sweep_of_allGTC _ hc1.bids.nonempty hc1.asks.nonempty hg1]
  rfl

/-- A Good-Till-Cancel buy of less than the remaining quantity of the front
order `A` of the best ask level, at a price that reaches that level. -/
theorem Orderbook.WF.addOrder_hit_ask {ob : Orderbook} (h : ob.WF) (o : OrderPointer)
    (ha : o.addr ∉ ob.addrs) (hi : o.obj.orderId_ ∉ ob.ids) (hs : o.obj.side_ = Side.Buy)
    (ht : o.obj.orderType_ = OrderType.GoodTillCancel) {ap : Price} {A : OrderPointer}
    {at1 : OrderPointers} {ar : Ledger} (hb : ob.asks_ = (ap, A :: at1) :: ar)
    (hp : ap ≤ o.obj.price_) (hq0 : 0 < o.obj.remainingQuantity_)
    (hq : o.obj.remainingQuantity_ < A.obj.remainingQuantity_) :
    ob.AddOrder o = .returns [tradeOf o A]
      { bids_ := ob.bids_, asks_ := (ap, A.fill o.obj.remainingQuantity_ :: at1) :: ar,
        orders_ := Index.store ob.orders_ (A.fill o.obj.remainingQuantity_) } := by
  have hc := h.consistent
  have hBmem : A ∈ ob.allOrders := by simp [Orderbook.allOrders, hb]
  have hBr := hc.ranges A hBmem
  have hor : isInt32 o.obj.remainingQuantity_ := by
    have h0i : (0 : Int) < o.obj.remainingQuantity_ := hq0
    have h1i : (0 : Int) < A.obj.remainingQuantity_ - o.obj.remainingQuantity_ := sub_pos.2 hq
    unfold isInt32 at hBr ⊢; omega
  have hce := hc.enter o ha hi hor
  have hcan : ob.canMatch Side.Buy o.obj.price_ = true := by
    simp [Orderbook.canMatch, hb, hp]
  have hbids := Orderbook.enter_crossing_buy h.uncrossed o hs hcan
  have hent := Orderbook.enter_buy ob o hs
  have hasks : (ob.enter o).asks_ = (ap, A :: at1) :: ar := by rw [hent]; exact hb
  have hidx : (ob.enter o).orders_ =
      Index.insert ob.orders_ o.obj.orderId_ { order_ := o, location_ := o.addr } := by
    rw [hent]
  have hmin : min o.obj.remainingQuantity_ A.obj.remainingQuantity_
      = o.obj.remainingQuantity_ := min_eq_left (le_of_lt hq)
  obtain ⟨_, hBf⟩ := A.fill_part _ hBr hq0 hq
  have hof := o.fill_self_filled
  have hstep := Orderbook.matchStep_cons (ob.enter o) o.obj.price_ ap o A [] at1 ob.bids_ ar
    hbids hasks (not_lt.2 hp)
  rw [hmin, hbids, hasks, hidx,
    (hc.index_after_hit o A _ ha hi hBmem hBf hof).2] at hstep
  simp only [Ledger.fillFront, hBf, hof, Bool.false_eq_true, if_false, if_true,
    List.isEmpty_nil] at hstep
  have hc1 := hce.step hstep
  have hu1 : Orderbook.Uncrossed
      { bids_ := ob.bids_, asks_ := (ap, A.fill o.obj.remainingQuantity_ :: at1) :: ar,
        orders_ := Index.store ob.orders_ (A.fill o.obj.remainingQuantity_) } := by
    intro b hb1 a ha1
    have : ∃ a0 ∈ ob.asks_, a0.1 = a.1 := by
      rcases List.mem_cons.1 ha1 with h1 | h1
      · exact ⟨(ap, A :: at1), by rw [hb]; exact List.mem_cons_self _ _, by rw [h1]⟩
      · exact ⟨a, by rw [hb]; exact List.mem_cons_of_mem _ h1, rfl⟩
    obtain ⟨a0, ha0, e⟩ := this
    rw [← e]; exact h.uncrossed b hb1 a0 ha0
  have hrun : Run (ob.enter o) [tradeOf o A] _ :=
    Run.next _ _ _ _ [] hstep (Run.done _ (hc1.done_of_uncrossed hu1))
  have hg1 : Orderbook.AllGTC
      { bids_ := ob.bids_, asks_ := (ap, A.fill o.obj.remainingQuantity_ :: at1) :: ar,
        orders_ := Index.store ob.orders_ (A.fill o.obj.remainingQuantity_) } := by
    intro x hx
    simp only [Orderbook.allOrders, Ledger.orders_cons, List.cons_append, List.mem_cons,
      List.mem_append] at hx
    rcases hx with hx | hx | hx | hx
    · exact h.gtc x (by simp only [Orderbook.allOrders, List.mem_append]; tauto)
    · rw [hx]; exact h.gtc A hBmem
    · exact h.gtc x (by simp only [Orderbook.allOrders, hb, Ledger.orders_cons,
        List.cons_append, List.mem_cons, List.mem_append]; tauto)
    · exact h.gtc x (by simp only [Orderbook.allOrders, hb, Ledger.orders_cons,
        List.cons_append, List.mem_cons, List.mem_append]; tauto)
  rw [Orderbook.AddOrder_entered ob o (Or.inl ht),
    Orderbook.MatchOrders_of_run hce.bids.nonempty hce.asks.nonempty hrun,
    Orderbook.sweep_of_allGTC _ hc1.bids.nonempty hc1.asks.nonempty hg1]
  rfl

/-! ### An order that rests without a trade, and its cancellation -/

theorem Orderbook.enter_levels (ob : Orderbook) (o : OrderPointer) (s : Side) :
    ∀ l ∈ (ob.enter o).ledger s,
      (s = o.obj.side_ ∧ l.1 = o.obj.price_) ∨ ∃ l0 ∈ ob.ledger s, l0.1 = l.1 := by
  intro l hl
  cases hs : o.obj.side_ with
  | Buy =>
    rw [Orderbook.enter_buy ob o hs] at hl
    cases s
    · rcases Ledger.push_back_keys_subset _ _ _ _ l hl with h | h
      · exact Or.inl ⟨rfl, h⟩
      · exact Or.inr h
    · exact Or.inr ⟨l, hl, rfl⟩
  | Sell =>
    rw [Orderbook.enter_sell ob o hs] at hl
    cases s
    · exact Or.inr ⟨l, hl, rfl⟩
    · rcases Ledger.push_back_keys_subset _ _ _ _ l hl with h | h
      · exact Or.inl ⟨rfl, h⟩
      · exact Or.inr h

/-- The book stays uncrossed when an order is filed at a price that does not
reach the best level of the other side. -/
theorem Orderbook.WF.enter_uncrossed {ob : Orderbook} (h : ob.WF) (o : OrderPointer)
    (hnc : (o.obj.side_ = Side.Buy ∧
        (ob.asks_ = [] ∨ ∃ ap af ar, ob.asks_ = (ap, af) :: ar ∧ o.obj.price_ < ap)) ∨
      (o.obj.side_ = Side.Sell ∧
        (ob.bids_ = [] ∨ ∃ bp bf br, ob.bids_ = (bp, bf) :: br ∧ o.obj.price_ > bp))) :
    (ob.enter o).Uncrossed := by
  intro b hb a ha
  have hb1 := Orderbook.enter_levels ob o Side.Buy b hb
  have ha1 := Orderbook.enter_levels ob o Side.Sell a ha
  rcases hnc with ⟨hs, hn⟩ | ⟨hs, hn⟩
  · have ha2 : a ∈ ob.asks_ := by
      rw [Orderbook.enter_buy ob o hs] at ha; exact ha
    rcases hb1 with ⟨_, hb2⟩ | ⟨b0, hb0, hb2⟩
    · rcases hn with hn | ⟨ap, af, ar, hn, hp⟩
      · rw [hn] at ha2; simp at ha2
      · rw [hb2]
        have hw := h.consistent.asks
        rw [hn] at hw ha2
        rcases List.mem_cons.1 ha2 with h1 | h1
        · rw [h1]; exact hp
        · exact lt_trans hp (hw.head_before a h1)
    · rw [← hb2]; exact h.uncrossed b0 hb0 a ha2
  · have hb2 : b ∈ ob.bids_ := by
      rw [Orderbook.enter_sell ob o hs] at hb; exact hb
    rcases ha1 with ⟨_, ha2⟩ | ⟨a0, ha0, ha2⟩
    · rcases hn with hn | ⟨bp, bf, br, hn, hp⟩
      · rw [hn] at hb2; simp at hb2
      · rw [ha2]
        have hw := h.consistent.bids
        rw [hn] at hw hb2
        rcases List.mem_cons.1 hb2 with h1 | h1
        · rw [h1]; exact hp
        · exact lt_trans (hw.head_before b h1) hp
    · rw [← ha2]; exact h.uncrossed b hb2 a0 ha0

/-- A Good-Till-Cancel order that does not reach the other side rests: no
trade, and the book returned is the book with the order filed. -/
theorem Orderbook.WF.addOrder_rest {ob : Orderbook} (h : ob.WF) (o : OrderPointer)
    (ha : o.addr ∉ ob.addrs) (hi : o.obj.orderId_ ∉ ob.ids)
    (hq : isInt32 o.obj.remainingQuantity_)
    (ht : o.obj.orderType_ = OrderType.GoodTillCancel)
    (hnc : (o.obj.side_ = Side.Buy ∧
        (ob.asks_ = [] ∨ ∃ ap af ar, ob.asks_ = (ap, af) :: ar ∧ o.obj.price_ < ap)) ∨
      (o.obj.side_ = Side.Sell ∧
        (ob.bids_ = [] ∨ ∃ bp bf br, ob.bids_ = (bp, bf) :: br ∧ o.obj.price_ > bp))) :
    ob.AddOrder o = .returns [] (ob.enter o) := by
  have hce := h.consistent.enter o ha hi hq
  have hrun : Run (ob.enter o) [] (ob.enter o) :=
    Run.done _ (hce.done_of_uncrossed (h.enter_uncrossed o hnc))
  have hg : (ob.enter o).AllGTC := by
    intro x hx
    rcases List.mem_cons.1 ((Orderbook.enter_perm ob o).subset hx) with h1 | h1
    · rw [h1]; exact ht
    · exact h.gtc x h1
  rw [Orderbook.AddOrder_entered ob o (Or.inl ht),
    Orderbook.MatchOrders_of_run hce.bids.nonempty hce.asks.nonempty hrun,
    Orderbook.sweep_of_allGTC _ hce.bids.nonempty hce.asks.nonempty hg]
  rfl

theorem Orderbook.Consistent.enter_orders {ob : Orderbook} (h : ob.Consistent)
    (o : OrderPointer) (hi : o.obj.orderId_ ∉ ob.ids) :
    (ob.enter o).orders_ = (o.obj.orderId_, { order_ := o, location_ := o.addr }) :: ob.orders_ := by
  have hnone := h.at_none_of_not_mem hi
  cases hs : o.obj.side_ with
  | Buy => rw [Orderbook.enter_buy ob o hs]; simp [Index.insert, hnone]
  | Sell => rw [Orderbook.enter_sell ob o hs]; simp [Index.insert, hnone]

/-- Cancelling an order right after it was filed gives back the book. -/
theorem Orderbook.Consistent.cancel_entered {ob : Orderbook} (h : ob.Consistent)
    (o : OrderPointer) (ha : o.addr ∉ ob.addrs) (hi : o.obj.orderId_ ∉ ob.ids) :
    (ob.enter o).CancelOrder o.obj.orderId_ = .returns () ob := by
  have hidx := h.enter_orders o hi
  have he : Index.at (ob.enter o).orders_ o.obj.orderId_
      = some { order_ := o, location_ := o.addr } := by
    rw [hidx]; simp [Index.at]
  have hab : o.addr ∉ (Ledger.orders ob.bids_).map (fun x => x.addr) := by
    intro hh; apply ha
    simp only [Orderbook.addrs, Orderbook.allOrders, List.map_append, List.mem_append]
    exact Or.inl hh
  have haa : o.addr ∉ (Ledger.orders ob.asks_).map (fun x => x.addr) := by
    intro hh; apply ha
    simp only [Orderbook.addrs, Orderbook.allOrders, List.map_append, List.mem_append]
    exact Or.inr hh
  cases hs : o.obj.side_ with
  | Buy =>
    obtain ⟨f, h1, h2, h3⟩ := Ledger.unlink_push_back greaterPrice h.bids o.obj.price_ o hab
    have hent := Orderbook.enter_buy ob o hs
    rw [Orderbook.CancelOrder_bid (ob.enter o) _ _ f he hs (by rw [hent]; exact h1) h2]
    rw [hidx]
    simp only [hent, h3, Index.erase, if_true]
  | Sell =>
    obtain ⟨f, h1, h2, h3⟩ := Ledger.unlink_push_back lessPrice h.asks o.obj.price_ o haa
    have hent := Orderbook.enter_sell ob o hs
    rw [Orderbook.CancelOrder_ask (ob.enter o) _ _ f he hs (by rw [hent]; exact h1) h2]
    rw [hidx]
    simp only [hent, h3, Index.erase, if_true]

/-! ### Aggregate quantities -/

theorem CreateLevelInfos_append (p : Price) (f : OrderPointers) (o : OrderPointer) :
    (CreateLevelInfos p (f ++ [o])).quantity_
      = wrapInt32 ((CreateLevelInfos p f).quantity_ + o.obj.remainingQuantity_) := by
  simp [CreateLevelInfos, List.foldl_append, Order.GetRemainingQuantity]

theorem LevelInfos.quantityAt_map (m : Ledger) (k : Price) :
    LevelInfos.quantityAt (m.map (fun level => CreateLevelInfos level.1 level.2)) k
      = (CreateLevelInfos k ((Ledger.at m k).getD [])).quantity_ := by
  induction m with
  | nil => simp [LevelInfos.quantityAt, Ledger.at, CreateLevelInfos]
  | cons l r ih =>
    obtain ⟨p, f⟩ := l
    by_cases hp : p = k
    · simp [LevelInfos.quantityAt, Ledger.at, CreateLevelInfos, hp]
    · simp only [List.map_cons, LevelInfos.quantityAt, Ledger.at, hp, if_false]
      rw [show (CreateLevelInfos p f).price_ = p from rfl, if_neg hp, ih]

theorem Orderbook.quantityAt_eq (ob : Orderbook) (s : Side) (k : Price) :
    (ob.GetOrderInfos.ofSide s).quantityAt k
      = (CreateLevelInfos k ((Ledger.at (ob.ledger s) k).getD [])).quantity_ := by
  cases s
  · exact LevelInfos.quantityAt_map ob.bids_ k
  · exact LevelInfos.quantityAt_map ob.asks_ k

theorem Orderbook.Consistent.enter_quantityAt {ob : Orderbook} (h : ob.Consistent)
    (o : OrderPointer) :
    ((ob.enter o).GetOrderInfos.ofSide o.obj.side_).quantityAt o.obj.price_
      = wrapInt32 ((ob.GetOrderInfos.ofSide o.obj.side_).quantityAt o.obj.price_
          + o.obj.remainingQuantity_) := by
  rw [Orderbook.quantityAt_eq, Orderbook.quantityAt_eq, h.enter_tail o]
  simp only [Option.getD_some]
  exact CreateLevelInfos_append _ _ _

/-! ### The levels after an order has left -/

theorem Ledger.at_unlink {before : Price → Price → Prop} {cmp : Price → Price → Bool}
    (hc : Comparator before cmp) {side : Side} {m : Ledger} (hm : Ledger.WF before side m)
    {k0 : Price} {f : OrderPointers} (h : Ledger.at m k0 = some f) (loc : Nat) (k : Price) :
    Ledger.at (Ledger.unlink m k0 f loc) k =
      if k = k0 then
        (if (OrderPointers.eraseAt f loc).isEmpty then none
         else some (OrderPointers.eraseAt f loc))
      else Ledger.at m k := by
  induction m with
  | nil => simp [Ledger.at] at h
  | cons l r ih =>
    obtain ⟨p, g⟩ := l
    by_cases hp : p = k0
    · subst hp
      simp only [Ledger.at, if_true, Option.some.injEq] at h
      subst h
      have hnone : Ledger.at r p = none := by
        rw [Ledger.at_none_iff_no_level]
        intro x hx hxk
        have := hm.head_before x hx
        rw [hxk] at this
        exact hc.irrefl _ this
      rw [Ledger.unlink_cons_eq]
      by_cases hk : k = p
      · subst hk
        by_cases he : (OrderPointers.eraseAt g loc).isEmpty = true
        · simp [he, hnone]
        · simp [he, Ledger.at]
      · have hk1 : p ≠ k := fun hh => hk hh.symm
        by_cases he : (OrderPointers.eraseAt g loc).isEmpty = true
        · simp [he, hk, Ledger.at, hk1]
        · simp [he, hk, Ledger.at, hk1]
    · simp only [Ledger.at, hp, if_false] at h
      rw [Ledger.unlink_cons_ne _ _ _ _ _ _ hp]
      by_cases hk : p = k
      · subst hk
        simp [Ledger.at, hp]
      · simp only [Ledger.at, hk, if_false]
        exact ih hm.tail h

theorem OrderPointers.eraseAt_eq_filter_id (f : OrderPointers) (o : OrderPointer)
    (ha : ∀ x ∈ f, x.addr = o.addr → x = o)
    (hi : ∀ x ∈ f, x.obj.orderId_ = o.obj.orderId_ → x = o)
    (hn : (f.map (fun x => x.addr)).Nodup) :
    OrderPointers.eraseAt f o.addr
      = f.filter (fun x => decide (x.obj.orderId_ ≠ o.obj.orderId_)) := by
  rw [OrderPointers.eraseAt_eq_filter f o.addr hn]
  apply List.filter_congr
  intro x hx
  by_cases h1 : x.addr = o.addr
  · have := ha x hx h1
    subst this
    simp
  · have h2 : x.obj.orderId_ ≠ o.obj.orderId_ := by
      intro hh
      have := hi x hx hh
      subst this
      exact h1 rfl
    simp [h1, h2]

theorem Index.length_erase (m : Index) (id : OrderId) (e : OrderEntry)
    (h : Index.at m id = some e) : (Index.erase m id).length + 1 = m.length := by
  induction m with
  | nil => simp [Index.at] at h
  | cons x rest ih =>
    obtain ⟨k, e1⟩ := x
    by_cases hk : k = id
    · simp [Index.erase, hk]
    · simp only [Index.at, hk, if_false] at h
      simp [Index.erase, hk, ih h]

theorem Orderbook.Consistent.level_inj {ob : Orderbook} (h : ob.Consistent) (s : Side)
    {k : Price} {f : OrderPointers} (hf : Ledger.at (ob.ledger s) k = some f)
    {o : OrderPointer} (ho : o ∈ f) :
    (∀ x ∈ f, x.addr = o.addr → x = o) ∧
    (∀ x ∈ f, x.obj.orderId_ = o.obj.orderId_ → x = o) ∧
    (f.map (fun x => x.addr)).Nodup := by
  have hsub : f.Sublist (Ledger.orders (ob.ledger s)) :=
    Ledger.level_sublist (l := (k, f)) (Ledger.mem_of_at_level hf)
  have hmem : ∀ x ∈ f, x ∈ ob.allOrders :=
    fun x hx => Orderbook.ledger_orders_subset ob s x (hsub.subset hx)
  refine ⟨fun x hx hh => h.index.addr_inj (hmem x hx) (hmem o ho) hh,
    fun x hx hh => h.index.id_inj (hmem x hx) (hmem o ho) hh, ?_⟩
  have h1 : f.Sublist ob.allOrders := by
    cases s
    · exact hsub.trans (List.sublist_append_left _ _)
    · exact hsub.trans (List.sublist_append_right _ _)
  exact List.Nodup.sublist (h1.map _) h.index.addrs

/-- The effect of a cancel on the ledgers and the index of a book between
calls, for an id of the index. -/
theorem Orderbook.WF.cancel_effect {ob : Orderbook} (h : ob.WF) {id : OrderId} {e : OrderEntry}
    (he : Index.at ob.orders_ id = some e) :
    ∃ ob1 fifo, ob.CancelOrder id = .returns () ob1 ∧ e.order_.obj.orderId_ = id ∧
      Ledger.at (ob.ledger e.order_.obj.side_) e.order_.obj.price_ = some fifo ∧
      e.order_ ∈ fifo ∧
      (∀ k, Ledger.at (ob1.ledger e.order_.obj.side_) k =
        if k = e.order_.obj.price_ then
          (if (fifo.filter (fun x => decide (x.obj.orderId_ ≠ id))).isEmpty then none
           else some (fifo.filter (fun x => decide (x.obj.orderId_ ≠ id))))
        else Ledger.at (ob.ledger e.order_.obj.side_) k) ∧
      (fifo.filter (fun x => decide (x.obj.orderId_ ≠ id))).length + 1 = fifo.length ∧
      ob1.ledger e.order_.obj.side_.opposite = ob.ledger e.order_.obj.side_.opposite ∧
      ob1.orders_ = Index.erase ob.orders_ id := by
  have hc := h.consistent
  obtain ⟨f, ho, hcase⟩ := hc.cancel_cases he
  obtain ⟨hid, _, _⟩ := hc.locate he
  have key : ∀ s : Side, Ledger.at (ob.ledger s) e.order_.obj.price_ = some f →
      OrderPointers.eraseAt f e.order_.addr
        = f.filter (fun x => decide (x.obj.orderId_ ≠ id)) ∧
      (f.filter (fun x => decide (x.obj.orderId_ ≠ id))).length + 1 = f.length := by
    intro s hf
    obtain ⟨i1, i2, i3⟩ := hc.level_inj s hf ho
    have e1 := OrderPointers.eraseAt_eq_filter_id f e.order_ i1 i2 i3
    rw [hid] at e1
    refine ⟨e1, ?_⟩
    rw [← e1]
    have := (OrderPointers.eraseAt_perm f e.order_ i3 ho).length_eq
    simp only [List.length_cons] at this
    omega
  rcases hcase with ⟨hs, hf, hcan, _⟩ | ⟨hs, hf, hcan, _⟩
  · obtain ⟨k1, k2⟩ := key Side.Buy hf
    refine ⟨_, f, hcan, hid, by rw [hs]; exact hf, ho, ?_, k2, by rw [hs]; rfl, rfl⟩
    intro k
    rw [hs]
    have := Ledger.at_unlink greater_comparator hc.bids hf e.order_.addr k
    rw [k1] at this
    exact this
  · obtain ⟨k1, k2⟩ := key Side.Sell hf
    refine ⟨_, f, hcan, hid, by rw [hs]; exact hf, ho, ?_, k2, by rw [hs]; rfl, rfl⟩
    intro k
    rw [hs]
    have := Ledger.at_unlink less_comparator hc.asks hf e.order_.addr k
    rw [k1] at this
    exact this

/-! ### A Fill-Or-Kill order that is entered -/

theorem Run.nil_iff {ob ob1 : Orderbook} (hr : Run ob [] ob1) : ob.matchStep = .done := by
  cases hr with
  | done _ h => exact h

/-- While the incoming buy is alone in a new front bid level above an
uncrossed book, every trade of the run has it on the bid leg. -/
theorem Run.incoming_buy {ob ob1 : Orderbook} {ts : Trades} (hr : Run ob ts ob1)
    (hc : ob.Consistent) (p : Price) (o : OrderPointer) (rest : Ledger)
    (hb : ob.bids_ = (p, [o]) :: rest) (hu : ∀ b ∈ rest, ∀ a ∈ ob.asks_, b.1 < a.1) :
    ∀ t ∈ ts, t.bidTrade_.orderId_ = o.obj.orderId_ := by
  induction hr generalizing o with
  | done ob _ => simp
  | next ob ob1 ob2 t ts hs hr1 ih =>
    have hc1 := hc.step hs
    obtain ⟨bp, ap, b, a, bt, at1, br, ar, hb1, ha1, hx, ht, h1⟩ :=
      Orderbook.matchStep_next_inv hs
    rw [hb] at hb1
    injection hb1 with e1 e2
    injection e1 with e3 e4
    injection e4 with e5 e6
    subst e3; subst e5; subst e6; subst e2
    have hasks : ∀ l ∈ ob1.asks_, ∃ l0 ∈ ob.asks_, l0.1 = l.1 := by
      rw [h1]; exact Ledger.fillFront_levels_subset _ _
    have hu1 : ∀ b ∈ rest, ∀ a ∈ ob1.asks_, b.1 < a.1 := by
      intro b hb2 a1 ha2
      obtain ⟨l0, hl0, hl1⟩ := hasks a1 ha2
      rw [← hl1]; exact hu b hb2 l0 hl0
    intro t1 ht1
    rcases List.mem_cons.1 ht1 with h2 | h2
    · rw [h2, ht]; rfl
    · have hbids : ob1.bids_ = Ledger.fillFront ((p, [o]) :: rest)
          (min o.obj.remainingQuantity_ a.obj.remainingQuantity_) := by
        rw [h1, hb]
      by_cases hf : (o.fill (min o.obj.remainingQuantity_ a.obj.remainingQuantity_)).obj.isFilled
          = true
      · simp only [Ledger.fillFront, hf, if_true, List.isEmpty_nil] at hbids
        have hd : ob1.matchStep = .done := by
          apply hc1.done_of_uncrossed
          intro b hb2 a1 ha2
          rw [hbids] at hb2
          exact hu1 b hb2 a1 ha2
        obtain ⟨e7, _⟩ := Run.unique hr1 (Run.done ob1 hd)
        rw [e7] at h2
        simp at h2
      · simp only [Ledger.fillFront, hf, Bool.false_eq_true, if_false] at hbids
        exact ih hc1 _ hbids hu1 t1 h2

/-- While the incoming sell is alone in a new front ask level below an
uncrossed book, every trade of the run has it on the ask leg. -/
theorem Run.incoming_sell {ob ob1 : Orderbook} {ts : Trades} (hr : Run ob ts ob1)
    (hc : ob.Consistent) (p : Price) (o : OrderPointer) (rest : Ledger)
    (ha : ob.asks_ = (p, [o]) :: rest) (hu : ∀ b ∈ ob.bids_, ∀ a ∈ rest, b.1 < a.1) :
    ∀ t ∈ ts, t.askTrade_.orderId_ = o.obj.orderId_ := by
  induction hr generalizing o with
  | done ob _ => simp
  | next ob ob1 ob2 t ts hs hr1 ih =>
    have hc1 := hc.step hs
    obtain ⟨bp, ap, b, a, bt, at1, br, ar, hb1, ha1, hx, ht, h1⟩ :=
      Orderbook.matchStep_next_inv hs
    rw [ha] at ha1
    injection ha1 with e1 e2
    injection e1 with e3 e4
    injection e4 with e5 e6
    subst e3; subst e5; subst e6; subst e2
    have hbidsub : ∀ l ∈ ob1.bids_, ∃ l0 ∈ ob.bids_, l0.1 = l.1 := by
      rw [h1]; exact Ledger.fillFront_levels_subset _ _
    have hu1 : ∀ b ∈ ob1.bids_, ∀ a ∈ rest, b.1 < a.1 := by
      intro b1 hb2 a1 ha2
      obtain ⟨l0, hl0, hl1⟩ := hbidsub b1 hb2
      rw [← hl1]; exact hu l0 hl0 a1 ha2
    intro t1 ht1
    rcases List.mem_cons.1 ht1 with h2 | h2
    · rw [h2, ht]; rfl
    · have hasks : ob1.asks_ = Ledger.fillFront ((p, [o]) :: rest)
          (min b.obj.remainingQuantity_ o.obj.remainingQuantity_) := by
        rw [h1, ha]
      by_cases hf : (o.fill (min b.obj.remainingQuantity_ o.obj.remainingQuantity_)).obj.isFilled
          = true
      · simp only [Ledger.fillFront, hf, if_true, List.isEmpty_nil] at hasks
        have hd : ob1.matchStep = .done := by
          apply hc1.done_of_uncrossed
          intro b1 hb2 a1 ha2
          rw [hasks] at ha2
          exact hu1 b1 hb2 a1 ha2
        obtain ⟨e7, _⟩ := Run.unique hr1 (Run.done ob1 hd)
        rw [e7] at h2
        simp at h2
      · simp only [Ledger.fillFront, hf, Bool.false_eq_true, if_false] at hasks
        exact ih hc1 _ hasks hu1 t1 h2

/-- A Fill-Or-Kill order that passes the crossing check trades at least once,
is on its leg of every returned trade, and does not rest when `AddOrder`
returns. -/
theorem Orderbook.WF.addOrder_fok {ob : Orderbook} (h : ob.WF) (o : OrderPointer)
    (ha : o.addr ∉ ob.addrs) (hi : o.obj.orderId_ ∉ ob.ids)
    (hq : isInt32 o.obj.remainingQuantity_)
    (ht : o.obj.orderType_ = OrderType.FillOrKill)
    (hcm : ob.canMatch o.obj.side_ o.obj.price_ = true) :
    ∃ ts ob1, ob.AddOrder o = .returns ts ob1 ∧ ts ≠ [] ∧
      (∀ t ∈ ts, (t.leg o.obj.side_).orderId_ = o.obj.orderId_) ∧
      o.obj.orderId_ ∉ ob1.ids ∧ Index.at ob1.orders_ o.obj.orderId_ = none ∧ ob1.WF := by
  obtain ⟨ts, ob2, ob3, hc, hrun, hsw, hadd, hwf3, hc2, sb, sa⟩ :=
    h.addOrder_entered o ha hi hq (Or.inr hcm)
  have hgone : o.obj.orderId_ ∉ ob3.ids := by
    intro hh
    obtain ⟨x, hx, hxid⟩ := List.mem_map.1 hh
    have hxg := hwf3.gtc x hx
    have hx2 : ∃ s, x ∈ Ledger.orders (ob2.ledger s) := by
      simp only [Orderbook.allOrders, List.mem_append] at hx
      rcases hx with hx | hx
      · exact ⟨Side.Buy, sb.subset hx⟩
      · exact ⟨Side.Sell, sa.subset hx⟩
    obtain ⟨s, hxs⟩ := hx2
    obtain ⟨y, hy, hxy⟩ := hrun.descend s x hxs
    have hy1 := (Orderbook.enter_perm ob o).subset
      (Orderbook.ledger_orders_subset (ob.enter o) s y hy)
    rcases List.mem_cons.1 hy1 with h1 | h1
    · rw [hxy.2.1, h1, ht] at hxg
      cases hxg
    · apply hi
      exact List.mem_map.2 ⟨y, h1, by rw [← hxy.2.2.1, hxid]⟩
  refine ⟨ts, ob3, hadd, ?_, ?_, hgone, hwf3.consistent.at_none_of_not_mem hgone, hwf3⟩
  · intro hts
    subst hts
    have hd := hrun.nil_iff
    cases hs : o.obj.side_ with
    | Buy =>
      rw [hs] at hcm
      have hbids := Orderbook.enter_crossing_buy h.uncrossed o hs hcm
      rcases haa : ob.asks_ with _ | ⟨⟨ap, af⟩, ar⟩
      · simp [Orderbook.canMatch, haa] at hcm
      · simp only [Orderbook.canMatch, haa, decide_eq_true_eq] at hcm
        rcases af with _ | ⟨a, at1⟩
        · exact absurd rfl (h.consistent.asks.nonempty (ap, [])
            (by rw [haa]; exact List.mem_cons_self _ _))
        · have hasks : (ob.enter o).asks_ = (ap, a :: at1) :: ar := by
            rw [Orderbook.enter_buy ob o hs]; exact haa
          have := Orderbook.matchStep_cons (ob.enter o) _ _ _ _ _ _ _ _ hbids hasks
            (not_lt.2 hcm)
          rw [hd] at this
          cases this
    | Sell =>
      rw [hs] at hcm
      have hasks := Orderbook.enter_crossing_sell h.uncrossed o hs hcm
      rcases hbb : ob.bids_ with _ | ⟨⟨bp, bf⟩, br⟩
      · simp [Orderbook.canMatch, hbb] at hcm
      · simp only [Orderbook.canMatch, hbb, decide_eq_true_eq, ge_iff_le] at hcm
        rcases bf with _ | ⟨b, bt⟩
        · exact absurd rfl (h.consistent.bids.nonempty (bp, [])
            (by rw [hbb]; exact List.mem_cons_self _ _))
        · have hbids : (ob.enter o).bids_ = (bp, b :: bt) :: br := by
            rw [Orderbook.enter_sell ob o hs]; exact hbb
          have := Orderbook.matchStep_cons (ob.enter o) _ _ _ _ _ _ _ _ hbids hasks
            (not_lt.2 hcm)
          rw [hd] at this
          cases this
  · cases hs : o.obj.side_ with
    | Buy =>
      rw [hs] at hcm
      have hbids := Orderbook.enter_crossing_buy h.uncrossed o hs hcm
      have hasks : (ob.enter o).asks_ = ob.asks_ := by rw [Orderbook.enter_buy ob o hs]
      exact hrun.incoming_buy hc _ o _ hbids (by rw [hasks]; exact h.uncrossed)
    | Sell =>
      rw [hs] at hcm
      have hasks := Orderbook.enter_crossing_sell h.uncrossed o hs hcm
      have hbids : (ob.enter o).bids_ = ob.bids_ := by rw [Orderbook.enter_sell ob o hs]
      exact hrun.incoming_sell hc _ o _ hasks (by rw [hbids]; exact h.uncrossed)

/-! ### Helpers for the claims -/

theorem reachable_bookTwoLevels : Reachable bookTwoLevels :=
  Reachable.add bookBid100 bookTwoLevels 1 OrderType.GoodTillCancel 2 Side.Buy 101 10
    reachable_bookBid100 (by decide) (by decide) (by decide) (by decide) (by decide)

/-- The leg prices of the trades that `AddOrder` returns never move back in
the order of the ledger of their side. -/
theorem Orderbook.WF.addOrder_leg_prices {ob ob1 : Orderbook} (h : ob.WF) (o : OrderPointer)
    (ha : o.addr ∉ ob.addrs) (hi : o.obj.orderId_ ∉ ob.ids)
    (hq : isInt32 o.obj.remainingQuantity_) {ts : Trades}
    (hadd : ob.AddOrder o = .returns ts ob1) (s : Side) :
    ts.Pairwise (fun t1 t2 => ¬ s.before (t2.leg s).price_ (t1.leg s).price_) := by
  by_cases hent : o.obj.orderType_ = OrderType.GoodTillCancel ∨
      ob.canMatch o.obj.side_ o.obj.price_ = true
  · obtain ⟨ts1, ob2, ob3, hc, hrun, _, hadd1, _⟩ := h.addOrder_entered o ha hi hq hent
    rw [hadd1] at hadd
    injection hadd with e1 e2
    subst e1
    exact hrun.leg_prices hc s
  · have hrej : ob.AddOrder o = .returns [] ob := by
      apply Orderbook.AddOrder_rejected
      · cases ht : o.obj.orderType_ with
        | GoodTillCancel => exact absurd (Or.inl ht) hent
        | FillOrKill => rfl
      · cases hcm : ob.canMatch o.obj.side_ o.obj.price_ with
        | true => exact absurd (Or.inr hcm) hent
        | false => rfl
    rw [hrej] at hadd
    injection hadd with e1 _
    subst e1
    exact List.Pairwise.nil

/-! ### No exception from `Fill` -/

theorem Orderbook.matchStep_no_raise (ob : Orderbook) (e : Exception) (ob1 : Orderbook) :
    ob.matchStep ≠ .raise e ob1 := by
  intro h
  rcases hb : ob.bids_ with _ | ⟨⟨bp, bf⟩, br⟩
  · simp [Orderbook.matchStep, hb] at h
  · rcases ha : ob.asks_ with _ | ⟨⟨ap, af⟩, ar⟩
    · simp [Orderbook.matchStep, hb, ha] at h
    · by_cases hx : bp < ap
      · simp [Orderbook.matchStep, hb, ha, hx] at h
      · rcases bf with _ | ⟨b, bt⟩
        · simp [Orderbook.matchStep, hb, ha, hx] at h
        · rcases af with _ | ⟨a, at1⟩
          · simp [Orderbook.matchStep, hb, ha, hx] at h
          · rw [Orderbook.matchStep_cons ob bp ap b a bt at1 br ar hb ha hx] at h
            cases h

theorem Orderbook.matchLoop_no_throw (fuel : Nat) (ob : Orderbook) (tr : Trades)
    (e : Exception) (ob1 : Orderbook) : Orderbook.matchLoop fuel ob tr ≠ .throws e ob1 := by
  induction fuel generalizing ob tr with
  | zero => intro h; simp [Orderbook.matchLoop] at h
  | succ n ih =>
    intro h
    rw [Orderbook.matchLoop] at h
    cases hs : ob.matchStep with
    | done => rw [hs] at h; cases h
    | stuck => rw [hs] at h; cases h
    | next t ob2 => rw [hs] at h; exact ih ob2 _ h
    | raise e2 ob2 => exact Orderbook.matchStep_no_raise ob e2 ob2 hs

theorem Orderbook.CancelOrder_no_logic_error (ob : Orderbook) (id : OrderId) (ob1 : Orderbook) :
    ob.CancelOrder id ≠ .throws .logic_error ob1 := by
  intro h
  unfold Orderbook.CancelOrder at h
  split at h
  · cases h
  · simp only at h
    split at h
    · split at h
      · cases h
      · split at h <;> cases h
    · split at h
      · cases h
      · split at h <;> cases h

theorem Orderbook.sweepFront_no_logic_error (ob : Orderbook) (m : Ledger) (ob1 : Orderbook) :
    ob.sweepFront m ≠ .throws .logic_error ob1 := by
  intro h
  rcases m with _ | ⟨⟨p, f⟩, r⟩
  · cases h
  · rcases f with _ | ⟨o, t⟩
    · cases h
    · simp only [Orderbook.sweepFront] at h
      split at h
      · exact Orderbook.CancelOrder_no_logic_error _ _ _ h
      · cases h

theorem Orderbook.MatchOrders_no_logic_error (ob : Orderbook) (ob1 : Orderbook) :
    ob.MatchOrders ≠ .throws .logic_error ob1 := by
  intro h
  unfold Orderbook.MatchOrders at h
  cases hl : Orderbook.matchLoop (ob.resting + 1) ob [] with
  | returns ts ob2 =>
    rw [hl] at h
    simp only [Outcome.andThen] at h
    cases h1 : ob2.sweepFront ob2.bids_ with
    | returns u ob3 =>
      rw [h1] at h
      simp only at h
      cases h2 : ob3.sweepFront ob3.asks_ with
      | returns u ob4 => rw [h2] at h; cases h
      | throws e ob4 =>
        rw [h2] at h
        simp only at h
        cases e with
        | logic_error => exact Orderbook.sweepFront_no_logic_error _ _ _ h2
        | out_of_range => cases h
      | fails k => rw [h2] at h; cases h
    | throws e ob3 =>
      rw [h1] at h
      simp only at h
      cases e with
      | logic_error => exact Orderbook.sweepFront_no_logic_error _ _ _ h1
      | out_of_range => cases h
    | fails k => rw [h1] at h; cases h
  | throws e ob2 => exact Orderbook.matchLoop_no_throw _ _ _ _ _ hl
  | fails k => rw [hl] at h; cases h

theorem Orderbook.AddOrder_no_logic_error (ob : Orderbook) (o : OrderPointer) (ob1 : Orderbook) :
    ob.AddOrder o ≠ .throws .logic_error ob1 := by
  intro h
  unfold Orderbook.AddOrder at h
  split at h
  · cases h
  · exact Orderbook.MatchOrders_no_logic_error _ _ h

theorem Orderbook.MatchOrder_no_logic_error (ob : Orderbook) (m : OrderModify) (addr : Nat)
    (ob1 : Orderbook) : ob.MatchOrder m addr ≠ .throws .logic_error ob1 := by
  intro h
  unfold Orderbook.MatchOrder at h
  split at h
  · cases h
  · cases hc : ob.CancelOrder m.GetOrderId with
    | returns u ob2 =>
      rw [hc] at h
      exact Orderbook.AddOrder_no_logic_error _ _ _ h
    | throws e ob2 =>
      rw [hc] at h
      simp only [Outcome.andThen] at h
      cases e with
      | logic_error => exact Orderbook.CancelOrder_no_logic_error _ _ _ hc
      | out_of_range => cases h
    | fails k => rw [hc] at h; cases h

/-! ### The ledgers under any sequence of calls -/

theorem Orderbook.matchStep_fronts {ob ob1 : Orderbook} {t : Trade}
    (hs : ob.matchStep = .next t ob1) :
    ∃ b a Xb Xa, Ledger.orders ob.bids_ = b :: Xb ∧ Ledger.orders ob.asks_ = a :: Xa ∧
      t = tradeOf b a ∧
      Ledger.orders ob1.bids_ =
        b.afterFill (min b.obj.remainingQuantity_ a.obj.remainingQuantity_) ++ Xb ∧
      Ledger.orders ob1.asks_ =
        a.afterFill (min b.obj.remainingQuantity_ a.obj.remainingQuantity_) ++ Xa := by
  obtain ⟨bp, ap, b, a, bt, at1, br, ar, hb, ha, _, ht, h1⟩ := Orderbook.matchStep_next_inv hs
  refine ⟨b, a, bt ++ Ledger.orders br, at1 ++ Ledger.orders ar, ?_, ?_, ht, ?_, ?_⟩
  · rw [hb, Ledger.orders_cons]; rfl
  · rw [ha, Ledger.orders_cons]; rfl
  · rw [h1]
    show Ledger.orders (Ledger.fillFront ob.bids_ _) = _
    rw [hb, Ledger.fillFront_orders]
  · rw [h1]
    show Ledger.orders (Ledger.fillFront ob.asks_ _) = _
    rw [ha, Ledger.fillFront_orders]

theorem OrderPointer.afterFill_addrs (o : OrderPointer) (q : Quantity) :
    ((o.afterFill q).map (fun x => x.addr)).Sublist [o.addr] := by
  rcases o.afterFill_cases q with ⟨h, _⟩ | ⟨h, _⟩
  · rw [h]; exact List.nil_sublist _
  · rw [h]; exact List.Sublist.refl _

theorem Orderbook.matchStep_addrs {ob ob1 : Orderbook} {t : Trade}
    (hs : ob.matchStep = .next t ob1) : ob1.addrs.Sublist ob.addrs := by
  obtain ⟨b, a, Xb, Xa, hb, ha, _, hb1, ha1⟩ := Orderbook.matchStep_fronts hs
  simp only [Orderbook.addrs, Orderbook.allOrders, hb, ha, hb1, ha1, List.map_append,
    List.map_cons]
  exact List.Sublist.append
    (List.Sublist.append (b.afterFill_addrs _) (List.Sublist.refl _))
    (List.Sublist.append (a.afterFill_addrs _) (List.Sublist.refl _))

theorem Orderbook.Sound.after_step {ob ob1 : Orderbook} {t : Trade} (h : ob.Sound)
    (hs : ob.matchStep = .next t ob1) : ob1.Sound := by
  obtain ⟨bp, ap, b, a, bt, at1, br, ar, _, _, _, _, h1⟩ := Orderbook.matchStep_next_inv hs
  refine ⟨?_, ?_, h.addrs.sublist (Orderbook.matchStep_addrs hs)⟩
  · rw [h1]; exact h.bids.fillFront _
  · rw [h1]; exact h.asks.fillFront _

theorem Run.keeps_sound {ob ob1 : Orderbook} {ts : Trades} (hr : Run ob ts ob1) (h : ob.Sound) :
    ob1.Sound := by
  induction hr with
  | done ob _ => exact h
  | next ob ob1 ob2 t ts hs _ ih => exact ih (h.after_step hs)

theorem Orderbook.Sound.enter_sound {ob : Orderbook} (h : ob.Sound) (o : OrderPointer)
    (ha : o.addr ∉ ob.addrs) : (ob.enter o).Sound := by
  have haddr : (ob.enter o).addrs.Nodup := by
    have hp := (Orderbook.enter_perm ob o).map (fun x => x.addr)
    exact (hp.nodup_iff).2 (List.nodup_cons.2 ⟨ha, h.addrs⟩)
  cases hs : o.obj.side_ with
  | Buy =>
    refine ⟨?_, ?_, haddr⟩
    · rw [Orderbook.enter_buy ob o hs]
      exact h.bids.push_back greater_comparator o hs
    · rw [Orderbook.enter_buy ob o hs]; exact h.asks
  | Sell =>
    refine ⟨?_, ?_, haddr⟩
    · rw [Orderbook.enter_sell ob o hs]; exact h.bids
    · rw [Orderbook.enter_sell ob o hs]
      exact h.asks.push_back less_comparator o hs

theorem Orderbook.Sound.of_sublists {ob ob1 : Orderbook} (h : ob.Sound)
    (hb : Ledger.WF (fun a b => a > b) Side.Buy ob1.bids_)
    (ha : Ledger.WF (fun a b => a < b) Side.Sell ob1.asks_)
    (sb : (Ledger.orders ob1.bids_).Sublist (Ledger.orders ob.bids_))
    (sa : (Ledger.orders ob1.asks_).Sublist (Ledger.orders ob.asks_)) : ob1.Sound :=
  ⟨hb, ha, h.addrs.sublist ((List.Sublist.append sb sa).map _)⟩

/-- The book that `CancelOrder` leaves, whether it returns or throws. -/
theorem Orderbook.CancelOrder_book {ob ob1 : Orderbook} {id : OrderId}
    (h : (ob.CancelOrder id).book? = some ob1) :
    ob1 = ob ∨
    (∃ p f loc, Ledger.at ob.bids_ p = some f ∧
      ob1 = { ob with bids_ := Ledger.unlink ob.bids_ p f loc,
                      orders_ := Index.erase ob.orders_ id }) ∨
    (∃ p f loc, Ledger.at ob.asks_ p = some f ∧
      ob1 = { ob with asks_ := Ledger.unlink ob.asks_ p f loc,
                      orders_ := Index.erase ob.orders_ id }) := by
  unfold Orderbook.CancelOrder at h
  split at h
  · simp only [Outcome.book?, Option.some.injEq] at h
    exact Or.inl h.symm
  · rename_i e he
    simp only at h
    split at h
    · split at h
      · simp only [Outcome.book?, Option.some.injEq] at h
        exact Or.inl h.symm
      · rename_i f hf
        split at h
        · simp only [Outcome.book?, Option.some.injEq] at h
          exact Or.inr (Or.inr ⟨_, f, e.location_, hf, h.symm⟩)
        · cases h
    · split at h
      · simp only [Outcome.book?, Option.some.injEq] at h
        exact Or.inl h.symm
      · rename_i f hf
        split at h
        · simp only [Outcome.book?, Option.some.injEq] at h
          exact Or.inr (Or.inl ⟨_, f, e.location_, hf, h.symm⟩)
        · cases h

theorem Orderbook.Sound.cancel_sound {ob ob1 : Orderbook} {id : OrderId} (h : ob.Sound)
    (hb : (ob.CancelOrder id).book? = some ob1) :
    ob1.Sound ∧ (Ledger.orders ob1.bids_).Sublist (Ledger.orders ob.bids_) ∧
      (Ledger.orders ob1.asks_).Sublist (Ledger.orders ob.asks_) := by
  rcases Orderbook.CancelOrder_book hb with h1 | ⟨p, f, loc, hf, h1⟩ | ⟨p, f, loc, hf, h1⟩
  · subst h1; exact ⟨h, List.Sublist.refl _, List.Sublist.refl _⟩
  · subst h1
    have sb := Ledger.unlink_sublist loc hf
    exact ⟨h.of_sublists (h.bids.unlink loc hf) h.asks sb (List.Sublist.refl _), sb,
      List.Sublist.refl _⟩
  · subst h1
    have sa := Ledger.unlink_sublist loc hf
    exact ⟨h.of_sublists h.bids (h.asks.unlink loc hf) (List.Sublist.refl _) sa,
      List.Sublist.refl _, sa⟩

theorem Orderbook.sweepFront_book {ob ob1 : Orderbook} {m : Ledger}
    (h : (ob.sweepFront m).book? = some ob1) :
    ob1 = ob ∨ ∃ p o t r, m = (p, o :: t) :: r ∧
      o.obj.orderType_ = OrderType.FillOrKill ∧
      (ob.CancelOrder o.obj.orderId_).book? = some ob1 := by
  rcases m with _ | ⟨⟨p, f⟩, r⟩
  · simp only [Orderbook.sweepFront, Outcome.book?, Option.some.injEq] at h
    exact Or.inl h.symm
  · rcases f with _ | ⟨o, t⟩
    · cases h
    · simp only [Orderbook.sweepFront] at h
      split at h
      · rename_i hf
        exact Or.inr ⟨p, o, t, r, rfl, hf, h⟩
      · simp only [Outcome.book?, Option.some.injEq] at h
        exact Or.inl h.symm

theorem Outcome.book_andThen {α β : Type} (x : Outcome α) (f : α → Orderbook → Outcome β)
    {ob1 : Orderbook} (h : (x.andThen f).book? = some ob1) :
    (∃ e, x = .throws e ob1) ∨ ∃ a ob2, x = .returns a ob2 ∧ (f a ob2).book? = some ob1 := by
  cases x with
  | returns a ob2 => exact Or.inr ⟨a, ob2, rfl, h⟩
  | throws e ob2 =>
    simp only [Outcome.andThen, Outcome.book?, Option.some.injEq] at h
    subst h; exact Or.inl ⟨e, rfl⟩
  | fails k => cases h

theorem Orderbook.Sound.sweepFront_sound {ob ob1 : Orderbook} {m : Ledger} (h : ob.Sound)
    (hb : (ob.sweepFront m).book? = some ob1) :
    ob1.Sound ∧ (Ledger.orders ob1.bids_).Sublist (Ledger.orders ob.bids_) ∧
      (Ledger.orders ob1.asks_).Sublist (Ledger.orders ob.asks_) := by
  rcases Orderbook.sweepFront_book hb with h1 | ⟨_, o, _, _, _, _, h1⟩
  · subst h1; exact ⟨h, List.Sublist.refl _, List.Sublist.refl _⟩
  · exact h.cancel_sound h1

theorem Orderbook.Sound.sweep_sound {ob ob1 : Orderbook} (h : ob.Sound)
    (hb : ob.sweep.book? = some ob1) :
    ob1.Sound ∧ (Ledger.orders ob1.bids_).Sublist (Ledger.orders ob.bids_) ∧
      (Ledger.orders ob1.asks_).Sublist (Ledger.orders ob.asks_) := by
  unfold Orderbook.sweep at hb
  rcases Outcome.book_andThen _ _ hb with ⟨e, h1⟩ | ⟨u, ob2, h1, h2⟩
  · exact h.sweepFront_sound (by rw [h1]; rfl)
  · obtain ⟨s2, b2, a2⟩ := h.sweepFront_sound (show (ob.sweepFront ob.bids_).book? = some ob2 by
      rw [h1]; rfl)
    obtain ⟨s3, b3, a3⟩ := s2.sweepFront_sound h2
    exact ⟨s3, b3.trans b2, a3.trans a2⟩

/-- The book that `AddOrder` leaves, whether it returns or throws: the book
before the call when the order is rejected, and otherwise what the sweep leaves
of the book on which the crossing loop ends. -/
theorem Orderbook.Sound.addOrder_sound {ob ob1 : Orderbook} (h : ob.Sound) (o : OrderPointer)
    (ha : o.addr ∉ ob.addrs) (hb : (ob.AddOrder o).book? = some ob1) :
    ob1.Sound ∧
      (ob1 = ob ∨ ∃ ts obL, Run (ob.enter o) ts obL ∧ obL.sweep.book? = some ob1 ∧
        (Ledger.orders ob1.bids_).Sublist (Ledger.orders obL.bids_) ∧
        (Ledger.orders ob1.asks_).Sublist (Ledger.orders obL.asks_)) := by
  by_cases hent : o.obj.orderType_ = OrderType.GoodTillCancel ∨
      ob.canMatch o.obj.side_ o.obj.price_ = true
  · have he := h.enter_sound o ha
    obtain ⟨ts, obL, _, hrun⟩ := Orderbook.matchLoop_total (ob.enter o) he.bids.nonempty
      he.asks.nonempty ((ob.enter o).resting + 1) (Nat.lt_succ_self _) []
    rw [Orderbook.AddOrder_entered ob o hent,
      Orderbook.MatchOrders_of_run he.bids.nonempty he.asks.nonempty hrun] at hb
    have hsw : obL.sweep.book? = some ob1 := by
      cases hsweep : obL.sweep with
      | returns u ob3 => rw [hsweep] at hb; exact hb
      | throws e ob3 => rw [hsweep] at hb; exact hb
      | fails k => rw [hsweep] at hb; cases hb
    obtain ⟨s1, b1, a1⟩ := (hrun.keeps_sound he).sweep_sound hsw
    exact ⟨s1, Or.inr ⟨ts, obL, hrun, hsw, b1, a1⟩⟩
  · have h1 : o.obj.orderType_ = OrderType.FillOrKill := by
      cases ht : o.obj.orderType_ with
      | GoodTillCancel => exact absurd (Or.inl ht) hent
      | FillOrKill => rfl
    have h2 : ob.canMatch o.obj.side_ o.obj.price_ = false := by
      cases hc : ob.canMatch o.obj.side_ o.obj.price_ with
      | false => rfl
      | true => exact absurd (Or.inr hc) hent
    rw [Orderbook.AddOrder_rejected ob o h1 h2] at hb
    simp only [Outcome.book?, Option.some.injEq] at hb
    subst hb
    exact ⟨h, Or.inl rfl⟩

theorem Orderbook.Sound.of_empty : Orderbook.empty.Sound :=
  ⟨Ledger.WF.nil _ _, Ledger.WF.nil _ _, List.nodup_nil⟩

/-- The book that `MatchOrder` leaves, whether it returns or throws. -/
theorem Orderbook.MatchOrder_book {ob ob1 : Orderbook} {m : OrderModify} {addr : Nat}
    (hb : (ob.MatchOrder m addr).book? = some ob1) :
    ob1 = ob ∨ (∃ e, ob.CancelOrder m.GetOrderId = .throws e ob1) ∨
      ∃ e u ob2, Index.at ob.orders_ m.GetOrderId = some e ∧
        ob.CancelOrder m.GetOrderId = .returns u ob2 ∧
        (ob2.AddOrder (m.toOrderPointer e.order_.obj.GetOrderType addr)).book? = some ob1 := by
  unfold Orderbook.MatchOrder at hb
  split at hb
  · simp only [Outcome.book?, Option.some.injEq] at hb
    exact Or.inl hb.symm
  · rename_i e he
    rcases Outcome.book_andThen _ _ hb with ⟨e1, h1⟩ | ⟨u, ob2, h1, h2⟩
    · exact Or.inr (Or.inl ⟨e1, h1⟩)
    · exact Or.inr (Or.inr ⟨e, u, ob2, he, h1, h2⟩)

/-- Every book reached by the public operations, whatever the ids, keeps its
two ledgers as maps of non-empty levels holding distinct order objects. -/
theorem Reached.ledgers_sound {ok : Quantity → Prop} {ob : Orderbook} (h : Reached ok ob) :
    ob.Sound := by
  induction h with
  | empty => exact Orderbook.Sound.of_empty
  | add ob ob1 addr orderType orderId side price quantity _ ha _ _ _ hb ih =>
    exact (ih.addOrder_sound _ ha hb).1
  | cancel ob ob1 orderId _ hb ih => exact (ih.cancel_sound hb).1
  | modify ob ob1 order addr _ _ _ _ ha hb ih =>
    rcases Orderbook.MatchOrder_book hb with h1 | ⟨e, h1⟩ | ⟨e, u, ob2, _, h1, h2⟩
    · subst h1; exact ih
    · exact (ih.cancel_sound (show (ob.CancelOrder order.GetOrderId).book? = some ob1 by
        rw [h1]; rfl)).1
    · have s2 := (ih.cancel_sound (show (ob.CancelOrder order.GetOrderId).book? = some ob2 by
        rw [h1]; rfl)).1
      exact (s2.addOrder_sound _ (ha u ob2 h1) h2).1

/-! ### Remaining quantities when no negative quantity is admitted -/

theorem OrderPointer.fill_within (o : OrderPointer) (q : Quantity)
    (h1 : o.obj.remainingQuantity_ ≤ o.obj.initialQuantity_)
    (h2 : isInt32 o.obj.initialQuantity_) (hq0 : 0 ≤ q) (hq : q ≤ o.obj.remainingQuantity_) :
    0 ≤ (o.fill q).obj.remainingQuantity_ ∧
      (o.fill q).obj.remainingQuantity_ ≤ o.obj.remainingQuantity_ := by
  have hfit : isInt32 (o.obj.remainingQuantity_ - q) :=
    ⟨le_trans (by decide) (sub_nonneg.2 hq),
      lt_of_le_of_lt (le_trans (sub_le_self _ hq0) h1) h2.2⟩
  have hrem : (o.fill q).obj.remainingQuantity_ = o.obj.remainingQuantity_ - q := by
    show wrapInt32 _ = _
    exact wrapInt32_of_isInt32 hfit
  rw [hrem]
  exact ⟨sub_nonneg.2 hq, sub_le_self _ hq0⟩

theorem Orderbook.Bounded.step_bounded {ob ob1 : Orderbook} {t : Trade} (h : ob.Bounded)
    (hs : ob.matchStep = .next t ob1) :
    ob1.Bounded ∧ ∀ x ∈ ob1.allOrders, ∃ y ∈ ob.allOrders, x.sameOrder y ∧
      x.obj.remainingQuantity_ ≤ y.obj.remainingQuantity_ := by
  obtain ⟨b, a, Xb, Xa, hb, ha, _, hb1, ha1⟩ := Orderbook.matchStep_fronts hs
  have hbm : b ∈ ob.allOrders := by simp [Orderbook.allOrders, hb]
  have ham : a ∈ ob.allOrders := by simp [Orderbook.allOrders, ha]
  obtain ⟨b0, b1, b2⟩ := h b hbm
  obtain ⟨a0, a1, a2⟩ := h a ham
  have hq0 : 0 ≤ min b.obj.remainingQuantity_ a.obj.remainingQuantity_ := le_min b0 a0
  have key : ∀ x ∈ ob1.allOrders, 0 ≤ x.obj.remainingQuantity_ ∧
      ∃ y ∈ ob.allOrders, x.sameOrder y ∧
        x.obj.remainingQuantity_ ≤ y.obj.remainingQuantity_ := by
    intro x hx
    simp only [Orderbook.allOrders, hb1, ha1, List.mem_append] at hx
    rcases hx with (hx | hx) | (hx | hx)
    · have hxe := OrderPointer.mem_afterFill hx
      obtain ⟨w0, w1⟩ := b.fill_within _ b1 b2 hq0 (min_le_left _ _)
      subst hxe
      exact ⟨w0, b, hbm, b.fill_sameOrder _, w1⟩
    · have hxm : x ∈ ob.allOrders := by simp [Orderbook.allOrders, hb, hx]
      exact ⟨(h x hxm).1, x, hxm, x.sameOrder_refl, le_refl _⟩
    · have hxe := OrderPointer.mem_afterFill hx
      obtain ⟨w0, w1⟩ := a.fill_within _ a1 a2 hq0 (min_le_right _ _)
      subst hxe
      exact ⟨w0, a, ham, a.fill_sameOrder _, w1⟩
    · have hxm : x ∈ ob.allOrders := by simp [Orderbook.allOrders, ha, hx]
      exact ⟨(h x hxm).1, x, hxm, x.sameOrder_refl, le_refl _⟩
  refine ⟨?_, fun x hx => (key x hx).2⟩
  intro x hx
  obtain ⟨x0, y, hy, hxy, hle⟩ := key x hx
  obtain ⟨_, y1, y2⟩ := h y hy
  have hinit : x.obj.initialQuantity_ = y.obj.initialQuantity_ := hxy.2.2.2.2.2
  rw [hinit]
  exact ⟨x0, le_trans hle y1, y2⟩

theorem Run.bounded {ob ob1 : Orderbook} {ts : Trades} (hr : Run ob ts ob1) (h : ob.Bounded) :
    ob1.Bounded ∧ ∀ x ∈ ob1.allOrders, ∃ y ∈ ob.allOrders, x.sameOrder y ∧
      x.obj.remainingQuantity_ ≤ y.obj.remainingQuantity_ := by
  induction hr with
  | done ob _ => exact ⟨h, fun x hx => ⟨x, hx, x.sameOrder_refl, le_refl _⟩⟩
  | next ob ob1 ob2 t ts hs _ ih =>
    obtain ⟨h1, d1⟩ := h.step_bounded hs
    obtain ⟨h2, d2⟩ := ih h1
    refine ⟨h2, ?_⟩
    intro x hx
    obtain ⟨y, hy, hxy, hle⟩ := d2 x hx
    obtain ⟨z, hz, hyz, hle2⟩ := d1 y hy
    exact ⟨z, hz, OrderPointer.sameOrder_trans hxy hyz, le_trans hle hle2⟩

theorem Orderbook.Bounded.enter_bounded {ob : Orderbook} (h : ob.Bounded) (o : OrderPointer)
    (h0 : 0 ≤ o.obj.remainingQuantity_)
    (h1 : o.obj.remainingQuantity_ ≤ o.obj.initialQuantity_)
    (h2 : isInt32 o.obj.initialQuantity_) : (ob.enter o).Bounded := by
  intro x hx
  rcases List.mem_cons.1 ((Orderbook.enter_perm ob o).mem_iff.1 hx) with hx1 | hx1
  · subst hx1; exact ⟨h0, h1, h2⟩
  · exact h x hx1

/-- What `AddOrder` leaves of the orders when no quantity is negative: every
order of the book it leaves is the submitted order or an order that rested
before, with a remaining quantity that is not greater. -/
theorem Orderbook.Bounded.addOrder_bounded {ob ob1 : Orderbook} (h : ob.Bounded)
    (hs : ob.Sound) (o : OrderPointer) (ha : o.addr ∉ ob.addrs)
    (h0 : 0 ≤ o.obj.remainingQuantity_)
    (h1 : o.obj.remainingQuantity_ ≤ o.obj.initialQuantity_)
    (h2 : isInt32 o.obj.initialQuantity_)
    (hb : (ob.AddOrder o).book? = some ob1) :
    ob1.Bounded ∧ ∀ x ∈ ob1.allOrders, x.sameOrder o ∨
      ∃ y ∈ ob.allOrders, x.sameOrder y ∧
        x.obj.remainingQuantity_ ≤ y.obj.remainingQuantity_ := by
  rcases (hs.addOrder_sound o ha hb).2 with he | ⟨ts, obL, hrun, _, sb, sa⟩
  · subst he
    exact ⟨h, fun x hx => Or.inr ⟨x, hx, x.sameOrder_refl, le_refl _⟩⟩
  · obtain ⟨hL, dL⟩ := hrun.bounded (h.enter_bounded o h0 h1 h2)
    have hsub : ∀ x ∈ ob1.allOrders, x ∈ obL.allOrders :=
      fun x hx => (List.Sublist.append sb sa).subset hx
    refine ⟨fun x hx => hL x (hsub x hx), ?_⟩
    intro x hx
    obtain ⟨y, hy, hxy, hle⟩ := dL x (hsub x hx)
    rcases List.mem_cons.1 ((Orderbook.enter_perm ob o).mem_iff.1 hy) with hy1 | hy1
    · subst hy1; exact Or.inl hxy
    · exact Or.inr ⟨y, hy1, hxy, hle⟩

theorem Orderbook.Bounded.of_subset {ob ob1 : Orderbook} (h : ob.Bounded)
    (hsub : ∀ x ∈ ob1.allOrders, x ∈ ob.allOrders) : ob1.Bounded :=
  fun x hx => h x (hsub x hx)

theorem Orderbook.Sound.cancel_subset {ob ob1 : Orderbook} {id : OrderId} (h : ob.Sound)
    (hb : (ob.CancelOrder id).book? = some ob1) : ∀ x ∈ ob1.allOrders, x ∈ ob.allOrders := by
  obtain ⟨_, sb, sa⟩ := h.cancel_sound hb
  exact fun x hx => (List.Sublist.append sb sa).subset hx

theorem Orderbook.Sound.addr_unique {ob : Orderbook} (h : ob.Sound) {x y : OrderPointer}
    (hx : x ∈ ob.allOrders) (hy : y ∈ ob.allOrders) (hxy : x.addr = y.addr) : x = y :=
  List.inj_on_of_nodup_map h.addrs hx hy hxy

/-- Every book reached by the public operations without admitting a negative
quantity holds only orders whose remaining quantity lies between 0 and the
initial quantity. -/
theorem Reached.ledgers_bounded {ob : Orderbook} (h : Reached nonNegative ob) : ob.Bounded := by
  induction h with
  | empty => intro x hx; simp [Orderbook.allOrders, Orderbook.empty, Ledger.orders] at hx
  | add ob ob1 addr orderType orderId side price quantity hr ha _ hq hok hb ih =>
    exact (ih.addOrder_bounded hr.ledgers_sound
      (newOrder addr orderType orderId side price quantity) ha hok (le_refl _) hq hb).1
  | cancel ob ob1 orderId hr hb ih => exact ih.of_subset (hr.ledgers_sound.cancel_subset hb)
  | modify ob ob1 order addr hr _ hq hok ha hb ih =>
    rcases Orderbook.MatchOrder_book hb with h1 | ⟨e, h1⟩ | ⟨e, u, ob2, _, h1, h2⟩
    · subst h1; exact ih
    · exact ih.of_subset (hr.ledgers_sound.cancel_subset
        (show (ob.CancelOrder order.GetOrderId).book? = some ob1 by rw [h1]; rfl))
    · have hc : (ob.CancelOrder order.GetOrderId).book? = some ob2 := by rw [h1]; rfl
      have s2 := (hr.ledgers_sound.cancel_sound hc).1
      have b2 := ih.of_subset (hr.ledgers_sound.cancel_subset hc)
      exact (b2.addOrder_bounded s2 (order.toOrderPointer e.order_.obj.GetOrderType addr)
        (ha u ob2 h1) hok (le_refl _) hq h2).1

/-! ### Size of the index -/

theorem IndexOK.length_eq {nodes : OrderPointers} {idx : Index} (h : IndexOK nodes idx) :
    idx.length = nodes.length := by
  have hmem : ∀ k, k ∈ idx.map (fun kv => kv.1) ↔ k ∈ nodes.map (fun o => o.obj.orderId_) := by
    intro k
    constructor
    · intro hk
      obtain ⟨kv, hkv, rfl⟩ := List.mem_map.1 hk
      obtain ⟨h1, h2, _⟩ := h.sound kv hkv
      exact List.mem_map.2 ⟨_, h1, h2⟩
    · intro hk
      obtain ⟨o, ho, rfl⟩ := List.mem_map.1 hk
      exact List.mem_map.2 ⟨_, h.complete o ho, rfl⟩
  have hp := (List.perm_ext_iff_of_nodup h.keys h.ids).2 hmem
  simpa using hp.length_eq

/-! ### What `GetOrderInfos` reports -/

theorem wrapInt32_add_wrap (x y : Int) : wrapInt32 (wrapInt32 x + y) = wrapInt32 (x + y) := by
  unfold wrapInt32; omega

theorem OrderPointers.foldl_wrap (f : OrderPointers) (a : Int) :
    f.foldl (fun sum order => wrapInt32 (sum + order.obj.GetRemainingQuantity)) (wrapInt32 a)
      = wrapInt32 (a + OrderPointers.remaining f) := by
  induction f generalizing a with
  | nil => simp [OrderPointers.remaining]
  | cons x t ih =>
    simp only [List.foldl_cons, Order.GetRemainingQuantity]
    rw [wrapInt32_add_wrap]
    have := ih (a + x.obj.remainingQuantity_)
    simp only [Order.GetRemainingQuantity] at this
    rw [this]
    simp [OrderPointers.remaining, add_assoc]

/-- The quantity of a level entry is the sum of the remaining quantities of
the orders of the level, reduced to 32 bits. -/
theorem CreateLevelInfos_quantity (p : Price) (f : OrderPointers) :
    (CreateLevelInfos p f).quantity_ = wrapInt32 (OrderPointers.remaining f) := by
  have h := OrderPointers.foldl_wrap f 0
  have h0 : wrapInt32 0 = 0 := by decide
  rw [h0, zero_add] at h
  exact h

theorem Ledger.restingAt_cons (k : Price) (g : OrderPointers) (r : Ledger) (p : Price) :
    Ledger.restingAt ((k, g) :: r) p =
      g.filter (fun o => decide (o.obj.price_ = p)) ++ Ledger.restingAt r p := by
  simp [Ledger.restingAt, Ledger.orders_cons, List.filter_append]

/-- In a ledger as the map keeps it, the orders resting at a price are the
orders of the level of that price, and none when there is no such level. -/
theorem Ledger.WF.restingAt_eq {before : Price → Price → Prop} {side : Side} {m : Ledger}
    (h : Ledger.WF before side m) (hirr : ∀ a, ¬ before a a) (p : Price) :
    Ledger.restingAt m p = (Ledger.at m p).getD [] := by
  induction m with
  | nil => simp [Ledger.restingAt, Ledger.at, Ledger.orders]
  | cons l r ih =>
    obtain ⟨k, g⟩ := l
    rw [Ledger.restingAt_cons, ih h.tail]
    have hk : ∀ o ∈ g, o.obj.price_ = k :=
      fun o ho => (h.keyed (k, g) (List.mem_cons_self _ _) o ho).1
    by_cases hp : k = p
    · subst hp
      have h1 : g.filter (fun o => decide (o.obj.price_ = k)) = g :=
        List.filter_eq_self.2 (fun o ho => by simp [hk o ho])
      have h2 : Ledger.at r k = none :=
        (Ledger.at_none_iff_no_level r k).2 (fun l hl he => by
          have hb := h.head_before l hl
          rw [he] at hb
          exact hirr _ hb)
      simp [h1, h2, Ledger.at]
    · have h1 : g.filter (fun o => decide (o.obj.price_ = p)) = [] :=
        List.filter_eq_nil_iff.2 (fun o ho => by simp [hk o ho, hp])
      simp [h1, Ledger.at, hp]

theorem Orderbook.GetOrderInfos_ofSide (ob : Orderbook) (s : Side) :
    ob.GetOrderInfos.ofSide s =
      (ob.ledger s).map (fun level => CreateLevelInfos level.1 level.2) := by
  cases s <;> rfl

theorem Orderbook.GetOrderInfos_prices (ob : Orderbook) (s : Side) :
    (ob.GetOrderInfos.ofSide s).map (fun i => i.price_) = (ob.ledger s).map (fun l => l.1) := by
  rw [Orderbook.GetOrderInfos_ofSide, List.map_map]
  rfl

/-- What `GetOrderInfos` reports for a side of a consistent book. -/
theorem Orderbook.Consistent.levelInfos {ob : Orderbook} (h : ob.Consistent) (s : Side) :
    ((ob.GetOrderInfos.ofSide s).map (fun i => i.price_)).Pairwise s.before ∧
    (∀ p, p ∈ (ob.GetOrderInfos.ofSide s).map (fun i => i.price_) ↔
      Ledger.restingAt (ob.ledger s) p ≠ []) ∧
    (∀ i ∈ ob.GetOrderInfos.ofSide s,
      i.quantity_ = wrapInt32 (OrderPointers.remaining (Ledger.restingAt (ob.ledger s) i.price_))) ∧
    (∀ i rest, ob.GetOrderInfos.ofSide s = i :: rest →
      ∀ o ∈ Ledger.orders (ob.ledger s), o.obj.price_ = i.price_ ∨ s.before i.price_ o.obj.price_) := by
  have hw := h.ledger s
  have hc := s.comparator
  refine ⟨?_, ?_, ?_, ?_⟩
  · rw [Orderbook.GetOrderInfos_prices]
    exact List.pairwise_map.2 hw.sorted
  · intro p
    rw [Orderbook.GetOrderInfos_prices, hw.restingAt_eq hc.irrefl]
    constructor
    · intro hp
      obtain ⟨l, hl, rfl⟩ := List.mem_map.1 hp
      rw [Ledger.at_of_mem_level hc hw (show (l.1, l.2) ∈ ob.ledger s from hl)]
      exact hw.nonempty l hl
    · intro hp
      cases hat : Ledger.at (ob.ledger s) p with
      | none => rw [hat] at hp; exact absurd rfl hp
      | some f => exact List.mem_map.2 ⟨(p, f), Ledger.mem_of_at_level hat, rfl⟩
  · intro i hi
    rw [Orderbook.GetOrderInfos_ofSide] at hi
    obtain ⟨l, hl, rfl⟩ := List.mem_map.1 hi
    rw [CreateLevelInfos_quantity, hw.restingAt_eq hc.irrefl]
    show _ = wrapInt32 (OrderPointers.remaining ((Ledger.at (ob.ledger s) l.1).getD []))
    rw [Ledger.at_of_mem_level hc hw (show (l.1, l.2) ∈ ob.ledger s from hl)]
    rfl
  · intro i rest hi o ho
    rw [Orderbook.GetOrderInfos_ofSide] at hi
    obtain ⟨l, hl, hol⟩ := Ledger.mem_orders.1 ho
    have hprice := (hw.keyed l hl o hol).1
    rcases hm : ob.ledger s with _ | ⟨l0, r⟩
    · rw [hm] at hl; simp at hl
    · rw [hm] at hi hl
      simp only [List.map_cons, List.cons.injEq] at hi
      have hi0 : i.price_ = l0.1 := by rw [← hi.1]; rfl
      rcases List.mem_cons.1 hl with h1 | h1
      · left; rw [hprice, h1, hi0]
      · right
        rw [hm] at hw
        have := (List.pairwise_cons.1 hw.sorted).1 l h1
        rw [hprice, hi0]; exact this

/-! ### Conservation of quantity -/

theorem wrapInt32_diff (x : Int) : ∃ k : Int, x - wrapInt32 x = 4294967296 * k := by
  refine ⟨(x + 2147483648) / 4294967296, ?_⟩
  unfold wrapInt32; omega

theorem OrderPointers.remaining_cons (o : OrderPointer) (X : OrderPointers) :
    OrderPointers.remaining (o :: X) = o.obj.remainingQuantity_ + OrderPointers.remaining X := by
  simp [OrderPointers.remaining]

theorem OrderPointers.remaining_append (X Y : OrderPointers) :
    OrderPointers.remaining (X ++ Y) = OrderPointers.remaining X + OrderPointers.remaining Y := by
  simp [OrderPointers.remaining]

theorem OrderPointers.remaining_perm {X Y : OrderPointers} (h : X.Perm Y) :
    OrderPointers.remaining X = OrderPointers.remaining Y :=
  (h.map _).sum_eq

theorem OrderPointer.remaining_afterFill (o : OrderPointer) (q : Quantity) :
    OrderPointers.remaining (o.afterFill q) = wrapInt32 (o.obj.remainingQuantity_ - q) := by
  rcases o.afterFill_cases q with ⟨h, h0⟩ | ⟨h, _⟩
  · rw [h, h0]; rfl
  · rw [h]; simp [OrderPointers.remaining, OrderPointer.fill]

theorem legTotal_cons (s : Side) (t : Trade) (ts : Trades) :
    legTotal s (t :: ts) = (t.leg s).quantity_ + legTotal s ts := by
  simp [legTotal]

/-- One pass of the loop takes from a side what its leg of the trade records,
up to a multiple of 2^32. -/
theorem Orderbook.matchStep_conserves {ob ob1 : Orderbook} {t : Trade}
    (hs : ob.matchStep = .next t ob1) (s : Side) :
    ∃ k : Int, OrderPointers.remaining (Ledger.orders (ob.ledger s))
      - OrderPointers.remaining (Ledger.orders (ob1.ledger s)) - (t.leg s).quantity_
        = 4294967296 * k := by
  obtain ⟨o, X, h1, h2, _, _⟩ := Orderbook.matchStep_orders hs s
  obtain ⟨k, hk⟩ := wrapInt32_diff (o.obj.remainingQuantity_ - (t.leg s).quantity_)
  refine ⟨k, ?_⟩
  rw [h1, h2, OrderPointers.remaining_cons, OrderPointers.remaining_append,
    OrderPointer.remaining_afterFill, ← hk]
  ring

theorem Run.conserves {ob ob1 : Orderbook} {ts : Trades} (hr : Run ob ts ob1) (s : Side) :
    ∃ k : Int, OrderPointers.remaining (Ledger.orders (ob.ledger s))
      - OrderPointers.remaining (Ledger.orders (ob1.ledger s)) - legTotal s ts
        = 4294967296 * k := by
  induction hr with
  | done ob _ => exact ⟨0, by simp [legTotal]⟩
  | next ob ob1 ob2 t ts hs _ ih =>
    obtain ⟨k1, h1⟩ := Orderbook.matchStep_conserves hs s
    obtain ⟨k2, h2⟩ := ih
    refine ⟨k1 + k2, ?_⟩
    rw [legTotal_cons, mul_add, ← h1, ← h2]
    ring

theorem OrderPointer.fill_exact (o : OrderPointer) (q : Quantity)
    (h2 : isInt32 o.obj.remainingQuantity_) (hq0 : 0 ≤ q) (hq : q ≤ o.obj.remainingQuantity_) :
    wrapInt32 (o.obj.remainingQuantity_ - q) = o.obj.remainingQuantity_ - q ∧
      0 ≤ o.obj.remainingQuantity_ - q ∧ isInt32 (o.obj.remainingQuantity_ - q) := by
  have hfit : isInt32 (o.obj.remainingQuantity_ - q) :=
    ⟨le_trans (by decide) (sub_nonneg.2 hq), lt_of_le_of_lt (sub_le_self _ hq0) h2.2⟩
  exact ⟨wrapInt32_of_isInt32 hfit, sub_nonneg.2 hq, hfit⟩

/-- One pass of the loop on orders with non-negative remaining quantities
takes from each side exactly what the trade records, and leaves non-negative
remaining quantities. -/
theorem Orderbook.matchStep_exact {ob ob1 : Orderbook} {t : Trade}
    (hs : ob.matchStep = .next t ob1)
    (h : ∀ o ∈ ob.allOrders, 0 ≤ o.obj.remainingQuantity_ ∧ isInt32 o.obj.remainingQuantity_) :
    (∀ o ∈ ob1.allOrders, 0 ≤ o.obj.remainingQuantity_ ∧ isInt32 o.obj.remainingQuantity_) ∧
    ∀ s, OrderPointers.remaining (Ledger.orders (ob.ledger s))
      - OrderPointers.remaining (Ledger.orders (ob1.ledger s)) = (t.leg s).quantity_ := by
  obtain ⟨b, a, Xb, Xa, hb, ha, ht, hb1, ha1⟩ := Orderbook.matchStep_fronts hs
  have hbm : b ∈ ob.allOrders := by simp [Orderbook.allOrders, hb]
  have ham : a ∈ ob.allOrders := by simp [Orderbook.allOrders, ha]
  obtain ⟨b0, b2⟩ := h b hbm
  obtain ⟨a0, a2⟩ := h a ham
  have hq0 : 0 ≤ min b.obj.remainingQuantity_ a.obj.remainingQuantity_ := le_min b0 a0
  obtain ⟨eb, eb0, eb2⟩ := b.fill_exact _ b2 hq0 (min_le_left _ _)
  obtain ⟨ea, ea0, ea2⟩ := a.fill_exact _ a2 hq0 (min_le_right _ _)
  constructor
  · intro x hx
    simp only [Orderbook.allOrders, hb1, ha1, List.mem_append] at hx
    rcases hx with (hx | hx) | (hx | hx)
    · have hxe := OrderPointer.mem_afterFill hx
      subst hxe
      show 0 ≤ wrapInt32 _ ∧ isInt32 (wrapInt32 _)
      rw [eb]; exact ⟨eb0, eb2⟩
    · exact h x (by simp [Orderbook.allOrders, hb, hx])
    · have hxe := OrderPointer.mem_afterFill hx
      subst hxe
      show 0 ≤ wrapInt32 _ ∧ isInt32 (wrapInt32 _)
      rw [ea]; exact ⟨ea0, ea2⟩
    · exact h x (by simp [Orderbook.allOrders, ha, hx])
  · intro s
    cases s with
    | Buy =>
      show OrderPointers.remaining (Ledger.orders ob.bids_)
        - OrderPointers.remaining (Ledger.orders ob1.bids_) = _
      rw [hb, hb1, OrderPointers.remaining_cons, OrderPointers.remaining_append,
        OrderPointer.remaining_afterFill, eb, ht]
      simp only [Trade.leg, tradeOf]
      ring
    | Sell =>
      show OrderPointers.remaining (Ledger.orders ob.asks_)
        - OrderPointers.remaining (Ledger.orders ob1.asks_) = _
      rw [ha, ha1, OrderPointers.remaining_cons, OrderPointers.remaining_append,
        OrderPointer.remaining_afterFill, ea, ht]
      simp only [Trade.leg, tradeOf]
      ring

theorem Run.exact {ob ob1 : Orderbook} {ts : Trades} (hr : Run ob ts ob1)
    (h : ∀ o ∈ ob.allOrders, 0 ≤ o.obj.remainingQuantity_ ∧ isInt32 o.obj.remainingQuantity_)
    (s : Side) :
    OrderPointers.remaining (Ledger.orders (ob.ledger s))
      - OrderPointers.remaining (Ledger.orders (ob1.ledger s)) = legTotal s ts := by
  induction hr with
  | done ob _ => simp [legTotal]
  | next ob ob1 ob2 t ts hs _ ih =>
    obtain ⟨h1, e1⟩ := Orderbook.matchStep_exact hs h
    have e2 := ih h1
    rw [legTotal_cons, ← e1 s, ← e2]
    ring

theorem Run.legs_equal {ob ob1 : Orderbook} {ts : Trades} (hr : Run ob ts ob1) :
    ∀ t ∈ ts, t.bidTrade_.quantity_ = t.askTrade_.quantity_ := by
  induction hr with
  | done ob _ => intro t ht; cases ht
  | next ob ob1 ob2 t ts hs _ ih =>
    intro t1 ht1
    rcases List.mem_cons.1 ht1 with h1 | h1
    · subst h1
      obtain ⟨_, _, _, _, _, _, _, _, h5⟩ := Orderbook.matchStep_side hs Side.Buy
      exact h5
    · exact ih t1 h1

/-- The sum of the remaining quantities of a side once `AddOrder` has filed
the order. -/
theorem Orderbook.enter_remaining (ob : Orderbook) (o : OrderPointer) (s : Side) :
    OrderPointers.remaining (Ledger.orders ((ob.enter o).ledger s)) =
      OrderPointers.remaining (Ledger.orders (ob.ledger s))
        + (if o.obj.side_ = s then o.obj.remainingQuantity_ else 0) := by
  by_cases hs : o.obj.side_ = s
  · subst hs
    rw [Orderbook.ledger_enter_same, if_pos rfl,
      OrderPointers.remaining_perm (Ledger.push_back_perm _ _ _ _), OrderPointers.remaining_cons]
    ring
  · have : s = o.obj.side_.opposite := by
      cases s <;> cases hos : o.obj.side_ <;> simp_all [Side.opposite]
    rw [if_neg hs, this, Orderbook.ledger_enter_opposite]
    simp

/-- A Good-Till-Cancel order on a well-formed book: `AddOrder` returns the
trades of the run of the loop and the book on which the loop ends. -/
theorem Orderbook.WF.addOrder_gtc {ob : Orderbook} (h : ob.WF) (o : OrderPointer)
    (ha : o.addr ∉ ob.addrs) (hi : o.obj.orderId_ ∉ ob.ids)
    (hq : isInt32 o.obj.remainingQuantity_)
    (ht : o.obj.orderType_ = OrderType.GoodTillCancel) :
    ∃ ts ob1, Run (ob.enter o) ts ob1 ∧ ob.AddOrder o = .returns ts ob1 := by
  obtain ⟨ts, obL, ob2, _, hrun, hsw, hadd, _, hcL, _, _⟩ := h.addOrder_entered o ha hi hq (Or.inl ht)
  have hg : obL.AllGTC := by
    intro x hx
    have hside : ∃ s, x ∈ Ledger.orders (obL.ledger s) := by
      rcases List.mem_append.1 hx with h1 | h1
      · exact ⟨Side.Buy, h1⟩
      · exact ⟨Side.Sell, h1⟩
    obtain ⟨s, hxs⟩ := hside
    obtain ⟨y, hy, hxy⟩ := hrun.descend s x hxs
    have hy1 : y ∈ (ob.enter o).allOrders := by
      cases s
      · exact List.mem_append_left _ hy
      · exact List.mem_append_right _ hy
    rw [hxy.2.1]
    rcases List.mem_cons.1 ((Orderbook.enter_perm ob o).mem_iff.1 hy1) with h1 | h1
    · rw [h1]; exact ht
    · exact h.gtc y h1
  have := Orderbook.sweep_of_allGTC obL hcL.bids.nonempty hcL.asks.nonempty hg
  rw [this] at hsw
  injection hsw with _ h2
  subst h2
  exact ⟨ts, obL, hrun, hadd⟩

/-! ### What the sweep removes, and the length of the loop -/

/-- Along a run of the loop, an order of a side either still rests as it was
or appears on the leg of that side of one of the trades. -/
theorem Run.rests_or_trades {ob ob1 : Orderbook} {ts : Trades} (hr : Run ob ts ob1) (s : Side) :
    ∀ y ∈ Ledger.orders (ob.ledger s), y ∈ Ledger.orders (ob1.ledger s) ∨
      ∃ t ∈ ts, (t.leg s).orderId_ = y.obj.orderId_ := by
  induction hr with
  | done ob _ => exact fun y hy => Or.inl hy
  | next ob ob1 ob2 t ts hs _ ih =>
    intro y hy
    obtain ⟨o, X, h1, h2, h3, _⟩ := Orderbook.matchStep_orders hs s
    rw [h1] at hy
    rcases List.mem_cons.1 hy with hy1 | hy1
    · subst hy1
      exact Or.inr ⟨t, List.mem_cons_self _ _, h3⟩
    · rcases ih y (by rw [h2]; exact List.mem_append_right _ hy1) with h4 | ⟨t1, ht1, h4⟩
      · exact Or.inl h4
      · exact Or.inr ⟨t1, List.mem_cons_of_mem _ ht1, h4⟩

/-- The front inspection of the bid ledger keeps every Good-Till-Cancel order. -/
theorem Orderbook.Consistent.sweepFront_bids_keeps {ob ob1 : Orderbook} (h : ob.Consistent)
    (hs : ob.sweepFront ob.bids_ = .returns () ob1) :
    ob1.Consistent ∧ ∀ x ∈ ob.allOrders, x.obj.orderType_ = OrderType.GoodTillCancel →
      x ∈ ob1.allOrders := by
  rcases h.sweepFront_bids with ⟨h1, _⟩ | ⟨p, o, t, r, hb, hf, h1, hc⟩
  · rw [h1] at hs
    injection hs with _ h2
    subst h2
    exact ⟨h, fun x hx _ => hx⟩
  · rw [h1] at hs
    injection hs with _ h2
    subst h2
    refine ⟨hc, ?_⟩
    intro x hx hg
    simp only [Orderbook.allOrders, hb, Ledger.orders_cons, List.mem_append,
      List.mem_cons] at hx
    simp only [Orderbook.allOrders, Ledger.popped_orders, List.mem_append]
    rcases hx with ((hx | hx) | hx) | hx
    · subst hx; rw [hf] at hg; cases hg
    · exact Or.inl (Or.inl hx)
    · exact Or.inl (Or.inr hx)
    · exact Or.inr hx

/-- The front inspection of the ask ledger keeps every Good-Till-Cancel order. -/
theorem Orderbook.Consistent.sweepFront_asks_keeps {ob ob1 : Orderbook} (h : ob.Consistent)
    (hs : ob.sweepFront ob.asks_ = .returns () ob1) :
    ob1.Consistent ∧ ∀ x ∈ ob.allOrders, x.obj.orderType_ = OrderType.GoodTillCancel →
      x ∈ ob1.allOrders := by
  rcases h.sweepFront_asks with ⟨h1, _⟩ | ⟨p, o, t, r, hb, hf, h1, hc⟩
  · rw [h1] at hs
    injection hs with _ h2
    subst h2
    exact ⟨h, fun x hx _ => hx⟩
  · rw [h1] at hs
    injection hs with _ h2
    subst h2
    refine ⟨hc, ?_⟩
    intro x hx hg
    simp only [Orderbook.allOrders, hb, Ledger.orders_cons, List.mem_append,
      List.mem_cons] at hx
    simp only [Orderbook.allOrders, Ledger.popped_orders, List.mem_append]
    rcases hx with hx | ((hx | hx) | hx)
    · exact Or.inl hx
    · subst hx; rw [hf] at hg; cases hg
    · exact Or.inr (Or.inl hx)
    · exact Or.inr (Or.inr hx)

/-- The post-loop sweep keeps every Good-Till-Cancel order. -/
theorem Orderbook.Consistent.sweep_keeps {ob ob1 : Orderbook} (h : ob.Consistent)
    (hs : ob.sweep = .returns () ob1) :
    ∀ x ∈ ob.allOrders, x.obj.orderType_ = OrderType.GoodTillCancel → x ∈ ob1.allOrders := by
  unfold Orderbook.sweep at hs
  cases h1 : ob.sweepFront ob.bids_ with
  | returns u ob2 =>
    rw [h1] at hs
    obtain ⟨c2, k2⟩ := h.sweepFront_bids_keeps h1
    obtain ⟨_, k3⟩ := c2.sweepFront_asks_keeps hs
    exact fun x hx hg => k3 x (k2 x hx hg) hg
  | throws e ob2 => rw [h1] at hs; cases hs
  | fails k => rw [h1] at hs; cases hs

/-- A run of the loop produces at most as many trades as orders leave. -/
theorem Run.length_le {ob ob1 : Orderbook} {ts : Trades} (hr : Run ob ts ob1) :
    ts.length + ob1.resting ≤ ob.resting := by
  induction hr with
  | done ob _ => simp
  | next ob ob1 ob2 t ts hs _ ih =>
    have := Orderbook.resting_step hs
    simp only [List.length_cons]
    omega

theorem Orderbook.enter_resting (ob : Orderbook) (o : OrderPointer) :
    (ob.enter o).resting = ob.resting + 1 := by
  have h := (Orderbook.enter_perm ob o).length_eq
  simp only [Orderbook.allOrders, List.length_append, List.length_cons] at h
  simp only [Orderbook.resting]
  omega

/-- One pass of the loop sets the remaining quantity of the front bid or of
the front ask to 0 and takes that order out of its ledger. -/
theorem Orderbook.matchStep_removes {ob ob1 : Orderbook} {t : Trade}
    (hs : ob.matchStep = .next t ob1) :
    ∃ b a Xb Xa, Ledger.orders ob.bids_ = b :: Xb ∧ Ledger.orders ob.asks_ = a :: Xa ∧
      (((b.fill (min b.obj.remainingQuantity_ a.obj.remainingQuantity_)).obj.remainingQuantity_ = 0
          ∧ Ledger.orders ob1.bids_ = Xb) ∨
       ((a.fill (min b.obj.remainingQuantity_ a.obj.remainingQuantity_)).obj.remainingQuantity_ = 0
          ∧ Ledger.orders ob1.asks_ = Xa)) := by
  obtain ⟨b, a, Xb, Xa, hb, ha, _, hb1, ha1⟩ := Orderbook.matchStep_fronts hs
  refine ⟨b, a, Xb, Xa, hb, ha, ?_⟩
  have h0 : wrapInt32 0 = 0 := by decide
  rcases min_choice b.obj.remainingQuantity_ a.obj.remainingQuantity_ with hm | hm
  · left
    have hz : wrapInt32 (b.obj.remainingQuantity_
        - min b.obj.remainingQuantity_ a.obj.remainingQuantity_) = 0 := by
      rw [hm, sub_self]; exact h0
    refine ⟨hz, ?_⟩
    rw [hb1, (OrderPointer.afterFill_eq_nil_iff b _).2 hz]; rfl
  · right
    have hz : wrapInt32 (a.obj.remainingQuantity_
        - min b.obj.remainingQuantity_ a.obj.remainingQuantity_) = 0 := by
      rw [hm, sub_self]; exact h0
    refine ⟨hz, ?_⟩
    rw [ha1, (OrderPointer.afterFill_eq_nil_iff a _).2 hz]; rfl

/-! ### Reachability of the test books -/

theorem reachable_bookBidAsk : Reachable bookBidAsk :=
  Reachable.add bookBid100 bookBidAsk 1 OrderType.GoodTillCancel 2 Side.Sell 105 7
    reachable_bookBid100 (by decide) (by decide) (by decide) (by decide) (by decide)

theorem reachable_bookBidMax : Reachable bookBidMax :=
  Reachable.add Orderbook.empty bookBidMax 0 OrderType.GoodTillCancel 1 Side.Buy 100 2147483647
    Reachable.empty (by decide) (by decide) (by decide) (by decide) (by decide)

theorem reachable_bookTwoMax : Reachable bookTwoMax :=
  Reachable.add bookBidMax bookTwoMax 1 OrderType.GoodTillCancel 2 Side.Buy 100 2147483647
    reachable_bookBidMax (by decide) (by decide) (by decide) (by decide) (by decide)

theorem reached_bookBid100 (ok : Quantity → Prop) (h : ok 10) : Reached ok bookBid100 :=
  Reached.add Orderbook.empty bookBid100 0 OrderType.GoodTillCancel 1 Side.Buy 100 10
    Reached.empty (by decide) (by decide) (by decide) h (by decide)

theorem reached_bookMinusFive : Reached anyQuantity bookMinusFive :=
  Reached.add Orderbook.empty bookMinusFive 0 OrderType.GoodTillCancel 1 Side.Buy 100 (-5)
    Reached.empty (by decide) (by decide) (by decide) trivial (by decide)

theorem reached_bookSameId : Reached anyQuantity bookSameId :=
  Reached.add bookBid100 bookSameId 1 OrderType.GoodTillCancel 1 Side.Buy 100 10
    (reached_bookBid100 anyQuantity trivial) (by decide) (by decide) (by decide) trivial
    (by decide)

theorem reached_bookNoEntry : Reached anyQuantity bookNoEntry :=
  Reached.add bookSameId bookNoEntry 2 OrderType.GoodTillCancel 2 Side.Sell 100 10
    reached_bookSameId (by decide) (by decide) (by decide) trivial (by decide)

theorem reached_bookSell100 : Reached anyQuantity bookSell100 :=
  Reached.add Orderbook.empty bookSell100 0 OrderType.GoodTillCancel 1 Side.Sell 100 5
    Reached.empty (by decide) (by decide) (by decide) trivial (by decide)

/-! ## The claims -/


/-- C1, the code at the failing input: with a sell of 5 at 90 resting in a
reachable book, `AddOrder` of a buy of 5 at 100 returns one trade whose bid leg
carries the price 100 of the bid order and whose ask leg carries the price 90
of the ask order, so the two legs do not carry the same price. -/
theorem C1_legs_carry_their_own_order_price :
    Reachable bookSell90 ∧
    bookSell90.AddOrder buy100 =
      .returns [{ bidTrade_ := { orderId_ := 2, price_ := 100, quantity_ := 5 },
                  askTrade_ := { orderId_ := 1, price_ := 90, quantity_ := 5 } }]
        Orderbook.empty ∧
    (∀ ts ob1, bookSell90.AddOrder buy100 = .returns ts ob1 →
      ∃ t ∈ ts, t.GetBidTrade.price_ ≠ t.GetAskTrade.price_) := by
  refine ⟨reachable_bookSell90, by decide, ?_⟩
  intro ts ob1 h
  have h1 : bookSell90.AddOrder buy100 =
      .returns [{ bidTrade_ := { orderId_ := 2, price_ := 100, quantity_ := 5 },
                  askTrade_ := { orderId_ := 1, price_ := 90, quantity_ := 5 } }]
        Orderbook.empty := by decide
  rw [h1] at h
  injection h with h2 _
  subst h2
  exact ⟨_, List.mem_singleton_self _, by decide⟩

/-- C3: a Fill-Or-Kill order that fails the crossing check (a buy with no ask
level or with the best ask above its price, a sell with no bid level or with
the best bid below its price) makes `AddOrder` return, with no trade, a book
whose bid ledger, ask ledger and index are those before the call; `Size` is
unchanged and an id that was not indexed is still not indexed. -/
theorem C3_infeasible_fok_is_rejected (ob : Orderbook) (o : OrderPointer)
    (hfok : o.obj.GetOrderType = OrderType.FillOrKill)
    (hfail :
      (o.obj.GetSide = Side.Buy ∧
        (ob.asks_ = [] ∨ ∃ ap af ar, ob.asks_ = (ap, af) :: ar ∧ ap > o.obj.GetPrice)) ∨
      (o.obj.GetSide = Side.Sell ∧
        (ob.bids_ = [] ∨ ∃ bp bf br, ob.bids_ = (bp, bf) :: br ∧ bp < o.obj.GetPrice))) :
    ∃ ob1, ob.AddOrder o = .returns [] ob1 ∧
      ob1.bids_ = ob.bids_ ∧ ob1.asks_ = ob.asks_ ∧ ob1.orders_ = ob.orders_ ∧
      ob1.Size = ob.Size ∧
      (Index.at ob.orders_ o.obj.GetOrderId = none →
        Index.at ob1.orders_ o.obj.GetOrderId = none) := by
  refine ⟨ob, Orderbook.AddOrder_rejected ob o hfok ?_, rfl, rfl, rfl, rfl, fun h => h⟩
  simp only [Order.GetSide, Order.GetPrice] at hfail
  rcases hfail with ⟨hs, h | ⟨ap, af, ar, h, hp⟩⟩ | ⟨hs, h | ⟨bp, bf, br, h, hp⟩⟩
  · simp [Orderbook.canMatch, hs, h]
  · simp [Orderbook.canMatch, hs, h, not_le.2 hp]
  · simp [Orderbook.canMatch, hs, h]
  · simp [Orderbook.canMatch, hs, h, not_le.2 hp]

/-- C3 at scenario 4 of the specification: a Fill-Or-Kill buy of 5 at 50 on
the empty book. -/
theorem C3_infeasible_fok_is_rejected_witness :
    ∃ ob1, Orderbook.empty.AddOrder fokBuy50 = .returns [] ob1 ∧
      ob1.bids_ = Orderbook.empty.bids_ ∧ ob1.asks_ = Orderbook.empty.asks_ ∧
      ob1.orders_ = Orderbook.empty.orders_ ∧ ob1.Size = Orderbook.empty.Size ∧
      (Index.at Orderbook.empty.orders_ fokBuy50.obj.GetOrderId = none →
        Index.at ob1.orders_ fokBuy50.obj.GetOrderId = none) :=
  C3_infeasible_fok_is_rejected Orderbook.empty fokBuy50 (by decide)
    (Or.inl ⟨by decide, Or.inl (by decide)⟩)

/-- C4: on a reachable book, `CancelOrder` and `MatchOrder` (the modify
operation) throw `out_of_range` exactly for an id that is not in the index,
the throw leaves the book as it was and returns no trades, and for an id of
the index both calls return. -/
theorem C4_not_found_iff_not_indexed (ob : Orderbook) (hr : Reachable ob) (id : OrderId) :
    (Index.at ob.orders_ id = none → ob.CancelOrder id = .throws .out_of_range ob) ∧
    (Index.at ob.orders_ id ≠ none → ∃ ob1, ob.CancelOrder id = .returns () ob1) ∧
    (∀ side price quantity addr, Index.at ob.orders_ id = none →
      ob.MatchOrder { orderId_ := id, price_ := price, side_ := side, quantity_ := quantity }
        addr = .throws .out_of_range ob) ∧
    (∀ side price quantity addr, Index.at ob.orders_ id ≠ none → isInt32 quantity →
      (∀ u ob2, ob.CancelOrder id = .returns u ob2 → addr ∉ ob2.addrs) →
      ∃ ts ob1,
        ob.MatchOrder { orderId_ := id, price_ := price, side_ := side, quantity_ := quantity }
          addr = .returns ts ob1) := by
  have hw := hr.wf
  refine ⟨Orderbook.CancelOrder_absent ob id, ?_, ?_, ?_⟩
  · intro h
    obtain ⟨e, he⟩ := Option.ne_none_iff_exists'.1 h
    obtain ⟨ob1, h1, _⟩ := hw.cancel_returns he
    exact ⟨ob1, h1⟩
  · intro side price quantity addr h
    exact Orderbook.MatchOrder_absent ob _ addr h
  · intro side price quantity addr h hq ha
    obtain ⟨e, he⟩ := Option.ne_none_iff_exists'.1 h
    obtain ⟨ts, ob1, h1, _⟩ := hw.modify
      { orderId_ := id, price_ := price, side_ := side, quantity_ := quantity } addr he hq ha
    exact ⟨ts, ob1, h1⟩

/-- C4 on the book with two bids at 100, for the absent id 7. -/
theorem C4_not_found_iff_not_indexed_witness :
    (Index.at bookTwoBids.orders_ 7 = none →
      bookTwoBids.CancelOrder 7 = .throws .out_of_range bookTwoBids) ∧
    (Index.at bookTwoBids.orders_ 7 ≠ none → ∃ ob1, bookTwoBids.CancelOrder 7 = .returns () ob1) ∧
    (∀ side price quantity addr, Index.at bookTwoBids.orders_ 7 = none →
      bookTwoBids.MatchOrder
        { orderId_ := 7, price_ := price, side_ := side, quantity_ := quantity }
        addr = .throws .out_of_range bookTwoBids) ∧
    (∀ side price quantity addr, Index.at bookTwoBids.orders_ 7 ≠ none → isInt32 quantity →
      (∀ u ob2, bookTwoBids.CancelOrder 7 = .returns u ob2 → addr ∉ ob2.addrs) →
      ∃ ts ob1,
        bookTwoBids.MatchOrder
          { orderId_ := 7, price_ := price, side_ := side, quantity_ := quantity }
          addr = .returns ts ob1) :=
  C4_not_found_iff_not_indexed bookTwoBids reachable_bookTwoBids 7

/-- C6, time priority: on a reachable book, for a call of `AddOrder` with a
newly allocated order whose id does not rest, and two orders `A` and `B` of one
level of side `s` with `A` ahead of `B` in the level before the call: when `B`
is on its leg of a returned trade, every trade with `A` on that leg comes
earlier in the returned sequence than every trade with `B`, the quantities
traded by `A` bring its remaining quantity (32-bit, as `Fill` computes it) to
0, and after the call `A` is in neither ledger and not in the index. -/
theorem C6_time_priority (ob : Orderbook) (hr : Reachable ob) (o : OrderPointer)
    (ha : o.addr ∉ ob.addrs) (hi : o.obj.orderId_ ∉ ob.ids)
    (hq : isInt32 o.obj.remainingQuantity_) (ts : Trades) (ob1 : Orderbook)
    (hadd : ob.AddOrder o = .returns ts ob1) (s : Side) (p : Price) (fifo : OrderPointers)
    (hl : (p, fifo) ∈ ob.ledger s) (A B : OrderPointer) (hAB : [A, B].Sublist fifo)
    (hB : ∃ t ∈ ts, (t.leg s).orderId_ = B.obj.orderId_) :
    (∀ (i j : Nat) (ti tj : Trade), ts[i]? = some ti → ts[j]? = some tj →
        (ti.leg s).orderId_ = A.obj.orderId_ → (tj.leg s).orderId_ = B.obj.orderId_ → i < j) ∧
    wrapInt32 (A.obj.remainingQuantity_ - tradedQuantity s A.obj.orderId_ ts) = 0 ∧
    A.obj.orderId_ ∉ ob1.ids ∧ Index.at ob1.orders_ A.obj.orderId_ = none := by
  obtain ⟨a1, _, a3, a4, a5⟩ := hr.wf.addOrder_priority o ha hi hq hadd s A B
    (hAB.trans (Ledger.level_sublist hl)) hB
  exact ⟨a1, a3, a4, a5⟩

/-- C6 on the book with two bids of 10 at 100, hit by a sell of 15 at 100:
order 1 trades 10 first and leaves, then order 2 trades 5. -/
theorem C6_time_priority_witness :
    (∀ (i j : Nat) (ti tj : Trade),
        [({ bidTrade_ := { orderId_ := 1, price_ := 100, quantity_ := 10 },
            askTrade_ := { orderId_ := 3, price_ := 100, quantity_ := 10 } } : Trade),
         { bidTrade_ := { orderId_ := 2, price_ := 100, quantity_ := 5 },
           askTrade_ := { orderId_ := 3, price_ := 100, quantity_ := 5 } }][i]? = some ti →
        [({ bidTrade_ := { orderId_ := 1, price_ := 100, quantity_ := 10 },
            askTrade_ := { orderId_ := 3, price_ := 100, quantity_ := 10 } } : Trade),
         { bidTrade_ := { orderId_ := 2, price_ := 100, quantity_ := 5 },
           askTrade_ := { orderId_ := 3, price_ := 100, quantity_ := 5 } }][j]? = some tj →
        (ti.leg Side.Buy).orderId_ = bid100.obj.orderId_ →
        (tj.leg Side.Buy).orderId_ = bid100b.obj.orderId_ → i < j) ∧
    wrapInt32 (bid100.obj.remainingQuantity_ - tradedQuantity Side.Buy bid100.obj.orderId_
        [{ bidTrade_ := { orderId_ := 1, price_ := 100, quantity_ := 10 },
           askTrade_ := { orderId_ := 3, price_ := 100, quantity_ := 10 } },
         { bidTrade_ := { orderId_ := 2, price_ := 100, quantity_ := 5 },
           askTrade_ := { orderId_ := 3, price_ := 100, quantity_ := 5 } }]) = 0 ∧
    bid100.obj.orderId_ ∉
      (Orderbook.mk [(100, [bid100b.fill 5])] []
        [(2, { order_ := bid100b.fill 5, location_ := 1 })]).ids ∧
    Index.at (Orderbook.mk [(100, [bid100b.fill 5])] []
        [(2, { order_ := bid100b.fill 5, location_ := 1 })]).orders_ bid100.obj.orderId_
      = none :=
  C6_time_priority bookTwoBids reachable_bookTwoBids sell100x15 (by decide) (by decide)
    (by decide) _ _ (by decide) Side.Buy 100 [bid100, bid100b] (by decide) bid100 bid100b
    (List.Sublist.refl _) ⟨_, List.mem_cons_of_mem _ (List.mem_singleton_self _), by decide⟩

/-- C7, price priority: on a reachable book, for a call of `AddOrder` with a
newly allocated order whose id does not rest: when an ask `B` that rested at
price `pb` is on the ask leg of a returned trade, every ask `A` that rested at
a price `pa < pb` has a trade before each trade of `B`, all its trades come
before those of `B`, they bring its remaining quantity to 0, and `A` is gone
from ledgers and index; the same holds for bids with `pa > pb`.  The ask-leg
prices of the returned trades are non-decreasing and the bid-leg prices are
non-increasing along the returned sequence. -/
theorem C7_price_priority (ob : Orderbook) (hr : Reachable ob) (o : OrderPointer)
    (ha : o.addr ∉ ob.addrs) (hi : o.obj.orderId_ ∉ ob.ids)
    (hq : isInt32 o.obj.remainingQuantity_) (ts : Trades) (ob1 : Orderbook)
    (hadd : ob.AddOrder o = .returns ts ob1) :
    (∀ (pa pb : Price) (fa fb : OrderPointers) (A B : OrderPointer),
      (pa, fa) ∈ ob.asks_ → (pb, fb) ∈ ob.asks_ → pa < pb → A ∈ fa → B ∈ fb →
      (∃ t ∈ ts, t.askTrade_.orderId_ = B.obj.orderId_) →
      (∀ (i j : Nat) (ti tj : Trade), ts[i]? = some ti → ts[j]? = some tj →
        ti.askTrade_.orderId_ = A.obj.orderId_ → tj.askTrade_.orderId_ = B.obj.orderId_ →
        i < j) ∧
      (∀ (j : Nat) (tj : Trade), ts[j]? = some tj → tj.askTrade_.orderId_ = B.obj.orderId_ →
        ∃ (i : Nat) (ti : Trade), i < j ∧ ts[i]? = some ti ∧
          ti.askTrade_.orderId_ = A.obj.orderId_) ∧
      wrapInt32 (A.obj.remainingQuantity_ - tradedQuantity Side.Sell A.obj.orderId_ ts) = 0 ∧
      A.obj.orderId_ ∉ ob1.ids ∧ Index.at ob1.orders_ A.obj.orderId_ = none) ∧
    (∀ (pa pb : Price) (fa fb : OrderPointers) (A B : OrderPointer),
      (pa, fa) ∈ ob.bids_ → (pb, fb) ∈ ob.bids_ → pa > pb → A ∈ fa → B ∈ fb →
      (∃ t ∈ ts, t.bidTrade_.orderId_ = B.obj.orderId_) →
      (∀ (i j : Nat) (ti tj : Trade), ts[i]? = some ti → ts[j]? = some tj →
        ti.bidTrade_.orderId_ = A.obj.orderId_ → tj.bidTrade_.orderId_ = B.obj.orderId_ →
        i < j) ∧
      (∀ (j : Nat) (tj : Trade), ts[j]? = some tj → tj.bidTrade_.orderId_ = B.obj.orderId_ →
        ∃ (i : Nat) (ti : Trade), i < j ∧ ts[i]? = some ti ∧
          ti.bidTrade_.orderId_ = A.obj.orderId_) ∧
      wrapInt32 (A.obj.remainingQuantity_ - tradedQuantity Side.Buy A.obj.orderId_ ts) = 0 ∧
      A.obj.orderId_ ∉ ob1.ids ∧ Index.at ob1.orders_ A.obj.orderId_ = none) ∧
    ts.Pairwise (fun t1 t2 => t1.askTrade_.price_ ≤ t2.askTrade_.price_) ∧
    ts.Pairwise (fun t1 t2 => t1.bidTrade_.price_ ≥ t2.bidTrade_.price_) := by
  have hw := hr.wf
  refine ⟨?_, ?_, ?_, ?_⟩
  · intro pa pb fa fb A B h1 h2 h3 h4 h5 h6
    exact hw.addOrder_priority o ha hi hq hadd Side.Sell A B
      (hw.consistent.asks.sublist_of_levels less_comparator h1 h2 h3 h4 h5) h6
  · intro pa pb fa fb A B h1 h2 h3 h4 h5 h6
    exact hw.addOrder_priority o ha hi hq hadd Side.Buy A B
      (hw.consistent.bids.sublist_of_levels greater_comparator h1 h2 h3 h4 h5) h6
  · refine (hw.addOrder_leg_prices o ha hi hq hadd Side.Sell).imp ?_
    intro t1 t2 h
    exact not_lt.1 h
  · refine (hw.addOrder_leg_prices o ha hi hq hadd Side.Buy).imp ?_
    intro t1 t2 h
    exact not_lt.1 h

/-- C7 on the book with a bid of 10 at 101 above a bid of 10 at 100, hit by a
sell of 15 at 100: the bid at 101 trades 10 first, then the bid at 100 trades
5, and the bid-leg prices 101, 100 do not increase. -/
theorem C7_price_priority_witness :
    bookTwoLevels.AddOrder sell100x15 =
      .returns
        [{ bidTrade_ := { orderId_ := 2, price_ := 101, quantity_ := 10 },
           askTrade_ := { orderId_ := 3, price_ := 100, quantity_ := 10 } },
         { bidTrade_ := { orderId_ := 1, price_ := 100, quantity_ := 5 },
           askTrade_ := { orderId_ := 3, price_ := 100, quantity_ := 5 } }]
        (Orderbook.mk [(100, [bid100.fill 5])] []
          [(1, { order_ := bid100.fill 5, location_ := 0 })]) ∧
    wrapInt32 (bid101.obj.remainingQuantity_ - tradedQuantity Side.Buy bid101.obj.orderId_
        [{ bidTrade_ := { orderId_ := 2, price_ := 101, quantity_ := 10 },
           askTrade_ := { orderId_ := 3, price_ := 100, quantity_ := 10 } },
         { bidTrade_ := { orderId_ := 1, price_ := 100, quantity_ := 5 },
           askTrade_ := { orderId_ := 3, price_ := 100, quantity_ := 5 } }]) = 0 ∧
    bid101.obj.orderId_ ∉
      (Orderbook.mk [(100, [bid100.fill 5])] []
        [(1, { order_ := bid100.fill 5, location_ := 0 })]).ids ∧
    [({ bidTrade_ := { orderId_ := 2, price_ := 101, quantity_ := 10 },
        askTrade_ := { orderId_ := 3, price_ := 100, quantity_ := 10 } } : Trade),
      { bidTrade_ := { orderId_ := 1, price_ := 100, quantity_ := 5 },
        askTrade_ := { orderId_ := 3, price_ := 100, quantity_ := 5 } }].Pairwise
      (fun t1 t2 => t1.bidTrade_.price_ ≥ t2.bidTrade_.price_) := by
  have hadd : bookTwoLevels.AddOrder sell100x15 =
      .returns
        [{ bidTrade_ := { orderId_ := 2, price_ := 101, quantity_ := 10 },
           askTrade_ := { orderId_ := 3, price_ := 100, quantity_ := 10 } },
         { bidTrade_ := { orderId_ := 1, price_ := 100, quantity_ := 5 },
           askTrade_ := { orderId_ := 3, price_ := 100, quantity_ := 5 } }]
        (Orderbook.mk [(100, [bid100.fill 5])] []
          [(1, { order_ := bid100.fill 5, location_ := 0 })]) := by decide
  have h := C7_price_priority bookTwoLevels reachable_bookTwoLevels sell100x15 (by decide)
    (by decide) (by decide) _ _ hadd
  obtain ⟨_, h2, _, h4⟩ := h
  obtain ⟨_, _, b3, b4, _⟩ := h2 101 100 [bid101] [bid100] bid101 bid100 (by decide) (by decide)
    (by decide) (by decide) (by decide)
    ⟨_, List.mem_cons_of_mem _ (List.mem_singleton_self _), by decide⟩
  exact ⟨hadd, b3, b4, h4⟩

/-- C8, a resting order filled in part: on a reachable book whose best bid
level has front order `B`, `AddOrder` of a newly allocated Good-Till-Cancel
sell with an id that does not rest, a price at or below the best bid price and
a quantity `q` with `0 < q < B.remaining` returns exactly one trade; its bid
leg carries the id and price of `B`, both legs carry `q = min (B.remaining, q)`;
`B` stays in front of the best bid level with remaining `B.remaining - q`, every
other level and order is as before, the index differs only in that the entry
of `B` sees the new remaining quantity, `Size` is unchanged and the incoming
order is in neither ledger nor the index.  The same holds for a buy against
the front order `A` of the best ask level. -/
theorem C8_partial_fill_of_resting_order (ob : Orderbook) (hr : Reachable ob) (addr : Nat)
    (id : OrderId) (p : Price) (q : Quantity) (ha : addr ∉ ob.addrs) (hi : id ∉ ob.ids)
    (hq0 : 0 < q) :
    (∀ (bp : Price) (B : OrderPointer) (bt : OrderPointers) (br : Ledger),
      ob.bids_ = (bp, B :: bt) :: br → p ≤ bp → q < B.obj.GetRemainingQuantity →
      ∃ ob1, ob.AddOrder (newOrder addr OrderType.GoodTillCancel id Side.Sell p q) =
          .returns [{ bidTrade_ := { orderId_ := B.obj.GetOrderId, price_ := B.obj.GetPrice,
                                     quantity_ := q },
                      askTrade_ := { orderId_ := id, price_ := p, quantity_ := q } }] ob1 ∧
        min B.obj.GetRemainingQuantity q = q ∧ B.obj.GetPrice = bp ∧
        ob1.bids_ = (bp, { addr := B.addr, obj := { B.obj with
            remainingQuantity_ := B.obj.GetRemainingQuantity - q } } :: bt) :: br ∧
        ob1.asks_ = ob.asks_ ∧
        ob1.orders_ = Index.store ob.orders_ { addr := B.addr, obj := { B.obj with
            remainingQuantity_ := B.obj.GetRemainingQuantity - q } } ∧
        ob1.Size = ob.Size ∧ id ∉ ob1.ids ∧ Index.at ob1.orders_ id = none) ∧
    (∀ (ap : Price) (A : OrderPointer) (at1 : OrderPointers) (ar : Ledger),
      ob.asks_ = (ap, A :: at1) :: ar → ap ≤ p → q < A.obj.GetRemainingQuantity →
      ∃ ob1, ob.AddOrder (newOrder addr OrderType.GoodTillCancel id Side.Buy p q) =
          .returns [{ bidTrade_ := { orderId_ := id, price_ := p, quantity_ := q },
                      askTrade_ := { orderId_ := A.obj.GetOrderId, price_ := A.obj.GetPrice,
                                     quantity_ := q } }] ob1 ∧
        min q A.obj.GetRemainingQuantity = q ∧ A.obj.GetPrice = ap ∧
        ob1.asks_ = (ap, { addr := A.addr, obj := { A.obj with
            remainingQuantity_ := A.obj.GetRemainingQuantity - q } } :: at1) :: ar ∧
        ob1.bids_ = ob.bids_ ∧
        ob1.orders_ = Index.store ob.orders_ { addr := A.addr, obj := { A.obj with
            remainingQuantity_ := A.obj.GetRemainingQuantity - q } } ∧
        ob1.Size = ob.Size ∧ id ∉ ob1.ids ∧ Index.at ob1.orders_ id = none) := by
  have hw := hr.wf
  have hnone := hw.consistent.at_none_of_not_mem hi
  constructor
  · intro bp B bt br hb hp hq
    have hBmem : B ∈ ob.allOrders := by simp [Orderbook.allOrders, hb]
    obtain ⟨hrem, _⟩ := B.fill_part q (hw.consistent.ranges B hBmem) hq0 hq
    have hfill : B.fill q = { addr := B.addr, obj := { B.obj with
        remainingQuantity_ := B.obj.GetRemainingQuantity - q } } := by
      have : (B.fill q).obj.remainingQuantity_ = wrapInt32 (B.obj.remainingQuantity_ - q) := rfl
      rw [this] at hrem
      simp only [OrderPointer.fill, hrem, Order.GetRemainingQuantity]
    have hadd := hw.addOrder_hit_bid (newOrder addr OrderType.GoodTillCancel id Side.Sell p q)
      ha hi rfl rfl hb hp hq0 hq
    have hmin : min B.obj.GetRemainingQuantity q = q := min_eq_right (le_of_lt hq)
    have hkey := (hw.consistent.bids.keyed (bp, B :: bt)
      (by rw [hb]; exact List.mem_cons_self _ _) B (List.mem_cons_self _ _)).1
    refine ⟨{ bids_ := (bp, B.fill q :: bt) :: br, asks_ := ob.asks_,
              orders_ := Index.store ob.orders_ (B.fill q) },
      ?_, hmin, hkey, ?_, rfl, ?_, ?_, ?_, ?_⟩
    · rw [hadd]
      simp only [tradeOf, newOrder, Order.new, Order.GetOrderId, Order.GetPrice]
      rw [show min B.obj.remainingQuantity_ q = q from hmin]
    · show (bp, B.fill q :: bt) :: br = _
      rw [hfill]
    · show Index.store ob.orders_ (B.fill q) = _
      rw [hfill]
    · exact Index.length_store _ _
    · simpa [Orderbook.ids, Orderbook.allOrders, hb, OrderPointer.fill] using hi
    · show Index.at (Index.store ob.orders_ _) id = none
      rw [Index.at_store, hnone]; rfl
  · intro ap A at1 ar hb hp hq
    have hBmem : A ∈ ob.allOrders := by simp [Orderbook.allOrders, hb]
    obtain ⟨hrem, _⟩ := A.fill_part q (hw.consistent.ranges A hBmem) hq0 hq
    have hfill : A.fill q = { addr := A.addr, obj := { A.obj with
        remainingQuantity_ := A.obj.GetRemainingQuantity - q } } := by
      have : (A.fill q).obj.remainingQuantity_ = wrapInt32 (A.obj.remainingQuantity_ - q) := rfl
      rw [this] at hrem
      simp only [OrderPointer.fill, hrem, Order.GetRemainingQuantity]
    have hadd := hw.addOrder_hit_ask (newOrder addr OrderType.GoodTillCancel id Side.Buy p q)
      ha hi rfl rfl hb hp hq0 hq
    have hmin : min q A.obj.GetRemainingQuantity = q := min_eq_left (le_of_lt hq)
    have hkey := (hw.consistent.asks.keyed (ap, A :: at1)
      (by rw [hb]; exact List.mem_cons_self _ _) A (List.mem_cons_self _ _)).1
    refine ⟨{ bids_ := ob.bids_, asks_ := (ap, A.fill q :: at1) :: ar,
              orders_ := Index.store ob.orders_ (A.fill q) },
      ?_, hmin, hkey, ?_, rfl, ?_, ?_, ?_, ?_⟩
    · rw [hadd]
      simp only [tradeOf, newOrder, Order.new, Order.GetOrderId, Order.GetPrice]
      rw [show min q A.obj.remainingQuantity_ = q from hmin]
    · show (ap, A.fill q :: at1) :: ar = _
      rw [hfill]
    · show Index.store ob.orders_ (A.fill q) = _
      rw [hfill]
    · exact Index.length_store _ _
    · simpa [Orderbook.ids, Orderbook.allOrders, hb, OrderPointer.fill] using hi
    · show Index.at (Index.store ob.orders_ _) id = none
      rw [Index.at_store, hnone]; rfl

/-- C8 at scenario 3 of the specification: a sell of 4 at 100 against the bid
of 10 at 100 gives one trade of 4 at 100 and leaves the bid with 6. -/
theorem C8_partial_fill_of_resting_order_witness :
    ∃ ob1, bookBid100.AddOrder (newOrder 2 OrderType.GoodTillCancel 3 Side.Sell 100 4) =
        .returns [{ bidTrade_ := { orderId_ := bid100.obj.GetOrderId,
                                   price_ := bid100.obj.GetPrice, quantity_ := 4 },
                    askTrade_ := { orderId_ := 3, price_ := 100, quantity_ := 4 } }] ob1 ∧
      min bid100.obj.GetRemainingQuantity 4 = 4 ∧ bid100.obj.GetPrice = 100 ∧
      ob1.bids_ = (100, { addr := bid100.addr, obj := { bid100.obj with
          remainingQuantity_ := bid100.obj.GetRemainingQuantity - 4 } } :: []) :: [] ∧
      ob1.asks_ = bookBid100.asks_ ∧
      ob1.orders_ = Index.store bookBid100.orders_ { addr := bid100.addr, obj := { bid100.obj with
          remainingQuantity_ := bid100.obj.GetRemainingQuantity - 4 } } ∧
      ob1.Size = bookBid100.Size ∧ 3 ∉ ob1.ids ∧ Index.at ob1.orders_ 3 = none :=
  (C8_partial_fill_of_resting_order bookBid100 reachable_bookBid100 2 3 100 4 (by decide)
    (by decide) (by decide)).1 100 bid100 [] [] rfl (by decide) (by decide)

/-- C9, add then cancel: on a reachable book, `AddOrder` of a newly allocated
Good-Till-Cancel order whose id does not rest and whose price does not reach
the best level of the other side returns no trade and a book with `Size` one
greater, in which the order is the last of the level of its price and the
aggregate quantity that `GetOrderInfos` reports at that price is the former one
plus the quantity of the order (a 32-bit sum, the exact sum when that fits);
`CancelOrder` of the id on that book returns the book before the `AddOrder`. -/
theorem C9_add_then_cancel_is_identity (ob : Orderbook) (hr : Reachable ob) (addr : Nat)
    (id : OrderId) (side : Side) (p : Price) (q : Quantity) (ha : addr ∉ ob.addrs)
    (hi : id ∉ ob.ids) (hq : isInt32 q)
    (hnc : (side = Side.Buy ∧
        (ob.asks_ = [] ∨ ∃ ap af ar, ob.asks_ = (ap, af) :: ar ∧ p < ap)) ∨
      (side = Side.Sell ∧
        (ob.bids_ = [] ∨ ∃ bp bf br, ob.bids_ = (bp, bf) :: br ∧ p > bp))) :
    ∃ ob1, ob.AddOrder (newOrder addr OrderType.GoodTillCancel id side p q) = .returns [] ob1 ∧
      ob1.Size = ob.Size + 1 ∧
      Ledger.at (ob1.ledger side) p =
        some ((Ledger.at (ob.ledger side) p).getD [] ++
          [newOrder addr OrderType.GoodTillCancel id side p q]) ∧
      (ob1.GetOrderInfos.ofSide side).quantityAt p =
        wrapInt32 ((ob.GetOrderInfos.ofSide side).quantityAt p + q) ∧
      (isInt32 ((ob.GetOrderInfos.ofSide side).quantityAt p + q) →
        (ob1.GetOrderInfos.ofSide side).quantityAt p =
          (ob.GetOrderInfos.ofSide side).quantityAt p + q) ∧
      ob1.CancelOrder id = .returns () ob := by
  have hw := hr.wf
  have hadd := hw.addOrder_rest (newOrder addr OrderType.GoodTillCancel id side p q) ha hi hq
    rfl hnc
  have hqa := hw.consistent.enter_quantityAt (newOrder addr OrderType.GoodTillCancel id side p q)
  refine ⟨_, hadd, ?_, hw.consistent.enter_tail _, hqa, ?_,
    hw.consistent.cancel_entered _ ha hi⟩
  · rw [Orderbook.Size, hw.consistent.enter_orders _ hi]
    rfl
  · intro hfit
    exact hqa.trans (wrapInt32_of_isInt32 hfit)

/-- C9 at scenarios 1 and 2 of the specification: a second buy of 10 at 100
goes behind the first, the level reports 20, and its cancel gives back the
book with the first buy only. -/
theorem C9_add_then_cancel_is_identity_witness :
    ∃ ob1, bookBid100.AddOrder (newOrder 1 OrderType.GoodTillCancel 2 Side.Buy 100 10)
        = .returns [] ob1 ∧
      ob1.Size = bookBid100.Size + 1 ∧
      Ledger.at (ob1.ledger Side.Buy) 100 =
        some ((Ledger.at (bookBid100.ledger Side.Buy) 100).getD [] ++
          [newOrder 1 OrderType.GoodTillCancel 2 Side.Buy 100 10]) ∧
      (ob1.GetOrderInfos.ofSide Side.Buy).quantityAt 100 =
        wrapInt32 ((bookBid100.GetOrderInfos.ofSide Side.Buy).quantityAt 100 + 10) ∧
      (isInt32 ((bookBid100.GetOrderInfos.ofSide Side.Buy).quantityAt 100 + 10) →
        (ob1.GetOrderInfos.ofSide Side.Buy).quantityAt 100 =
          (bookBid100.GetOrderInfos.ofSide Side.Buy).quantityAt 100 + 10) ∧
      ob1.CancelOrder 2 = .returns () bookBid100 :=
  C9_add_then_cancel_is_identity bookBid100 reachable_bookBid100 1 2 Side.Buy 100 10
    (by decide) (by decide) (by decide) (Or.inl ⟨rfl, Or.inl rfl⟩)

/-- C9 fails where the aggregate leaves the 32-bit range: on the reachable
book with a buy of 2147483647 at 100, a Good-Till-Cancel buy of 1 at 100 with a
fresh id does not cross and is filed behind it, and the quantity that
`GetOrderInfos` reports at 100 goes from 2147483647 to -2147483648. -/
theorem C9_level_quantity_beyond_32_bits :
    Reachable bookBidMax ∧ bidOne.addr ∉ bookBidMax.addrs ∧
    bidOne.obj.GetOrderId ∉ bookBidMax.ids ∧ bookBidMax.asks_ = [] ∧
    bookBidMax.AddOrder bidOne = .returns [] bookMaxOne ∧
    (bookBidMax.GetOrderInfos.ofSide Side.Buy).quantityAt 100 = 2147483647 ∧
    (bookMaxOne.GetOrderInfos.ofSide Side.Buy).quantityAt 100 = -2147483648 :=
  ⟨reachable_bookBidMax, by decide, by decide, rfl, by decide, by decide, by decide⟩

/-- C10, effect of a cancel: on a reachable book and for an id of the index,
`CancelOrder` returns a book in which the level of the price of the order, on
its side, is the former level without the order of that id, the other orders
in their former relative order, and is absent exactly when the order was the
only one of its level; exactly one order has left that level; every other
level of that side and the whole ledger of the other side are as before; the
index has lost the entry of the id and no other, so `Size` is one less. -/
theorem C10_effect_of_cancel (ob : Orderbook) (hr : Reachable ob) (id : OrderId)
    (e : OrderEntry) (he : Index.at ob.orders_ id = some e) :
    ∃ ob1 fifo, ob.CancelOrder id = .returns () ob1 ∧ e.order_.obj.GetOrderId = id ∧
      Ledger.at (ob.ledger e.order_.obj.GetSide) e.order_.obj.GetPrice = some fifo ∧
      e.order_ ∈ fifo ∧
      Ledger.at (ob1.ledger e.order_.obj.GetSide) e.order_.obj.GetPrice =
        (if (fifo.filter (fun x => decide (x.obj.GetOrderId ≠ id))).isEmpty then none
         else some (fifo.filter (fun x => decide (x.obj.GetOrderId ≠ id)))) ∧
      (fifo.filter (fun x => decide (x.obj.GetOrderId ≠ id))).length + 1 = fifo.length ∧
      (Ledger.at (ob1.ledger e.order_.obj.GetSide) e.order_.obj.GetPrice = none ↔
        fifo = [e.order_]) ∧
      (∀ k, k ≠ e.order_.obj.GetPrice →
        Ledger.at (ob1.ledger e.order_.obj.GetSide) k =
          Ledger.at (ob.ledger e.order_.obj.GetSide) k) ∧
      ob1.ledger e.order_.obj.GetSide.opposite = ob.ledger e.order_.obj.GetSide.opposite ∧
      Index.at ob1.orders_ id = none ∧
      (∀ k, k ≠ id → Index.at ob1.orders_ k = Index.at ob.orders_ k) ∧
      ob1.Size + 1 = ob.Size := by
  have hw := hr.wf
  obtain ⟨ob1, fifo, h1, h2, h3, h4, h5, h6, h7, h8⟩ := hw.cancel_effect he
  simp only [Order.GetOrderId, Order.GetSide, Order.GetPrice]
  have hlev := h5 e.order_.obj.price_
  rw [if_pos rfl] at hlev
  refine ⟨ob1, fifo, h1, h2, h3, h4, hlev, h6, ?_, ?_, h7, ?_, ?_, ?_⟩
  · rw [hlev]
    constructor
    · intro hn
      have hemp : (fifo.filter (fun x => decide (x.obj.orderId_ ≠ id))).length = 0 := by
        by_cases hc : (fifo.filter (fun x => decide (x.obj.orderId_ ≠ id))).isEmpty = true
        · simpa using hc
        · rw [if_neg hc] at hn; cases hn
      have hlen : fifo.length = 1 := by omega
      rcases fifo with _ | ⟨x, _ | ⟨y, t⟩⟩
      · simp at hlen
      · rw [List.mem_singleton.1 h4]
      · simp at hlen
    · intro hf
      rw [hf, ← h2]
      simp
  · intro k hk
    rw [h5 k, if_neg hk]
  · rw [h8]; exact Index.at_erase_self _ _ hw.consistent.index.keys
  · intro k hk
    rw [h8]; exact Index.at_erase_ne _ _ _ hk
  · rw [Orderbook.Size, Orderbook.Size, h8]
    exact Index.length_erase _ _ _ he

/-- C10 at scenario 2 of the specification: cancelling order 2 in the book
with two bids at 100. -/
theorem C10_effect_of_cancel_witness :
    ∃ ob1 fifo, bookTwoBids.CancelOrder 2 = .returns () ob1 ∧ bid100b.obj.GetOrderId = 2 ∧
      Ledger.at (bookTwoBids.ledger bid100b.obj.GetSide) bid100b.obj.GetPrice = some fifo ∧
      bid100b ∈ fifo ∧
      Ledger.at (ob1.ledger bid100b.obj.GetSide) bid100b.obj.GetPrice =
        (if (fifo.filter (fun x => decide (x.obj.GetOrderId ≠ 2))).isEmpty then none
         else some (fifo.filter (fun x => decide (x.obj.GetOrderId ≠ 2)))) ∧
      (fifo.filter (fun x => decide (x.obj.GetOrderId ≠ 2))).length + 1 = fifo.length ∧
      (Ledger.at (ob1.ledger bid100b.obj.GetSide) bid100b.obj.GetPrice = none ↔
        fifo = [bid100b]) ∧
      (∀ k, k ≠ bid100b.obj.GetPrice →
        Ledger.at (ob1.ledger bid100b.obj.GetSide) k =
          Ledger.at (bookTwoBids.ledger bid100b.obj.GetSide) k) ∧
      ob1.ledger bid100b.obj.GetSide.opposite
        = bookTwoBids.ledger bid100b.obj.GetSide.opposite ∧
      Index.at ob1.orders_ 2 = none ∧
      (∀ k, k ≠ 2 → Index.at ob1.orders_ k = Index.at bookTwoBids.orders_ k) ∧
      ob1.Size + 1 = bookTwoBids.Size :=
  C10_effect_of_cancel bookTwoBids reachable_bookTwoBids 2
    { order_ := bid100b, location_ := 1 } (by decide)

/-- C11 fails where the sum leaves the 32-bit range: two buys of 2147483647
at 100 rest in a reachable book, the sum of their remaining quantities is
4294967294, and `GetOrderInfos` reports the quantity -2 at 100. -/
theorem C11_level_quantity_beyond_32_bits :
    Reachable bookTwoMax ∧
    Ledger.restingAt bookTwoMax.bids_ 100 = [bidMax, bidMaxB] ∧
    OrderPointers.remaining (Ledger.restingAt bookTwoMax.bids_ 100) = 4294967294 ∧
    bookTwoMax.GetOrderInfos.GetBids = [{ price_ := 100, quantity_ := -2 }] :=
  ⟨reachable_bookTwoMax, by decide, by decide, by decide⟩

/-- C11 with the sum as `GetOrderInfos` computes it: on a reachable book the
bid entries come in strictly decreasing price and the ask entries in strictly
increasing price; a price has an entry on a side exactly when an order rests
at that price on that side, and no price has two entries; the quantity of an
entry is the sum of the remaining quantities of the orders resting at its
price on its side, reduced to 32 bits, and is that sum itself when the sum is
a 32-bit value; no resting bid is priced above the first bid entry and no
resting ask below the first ask entry. `GetOrderInfos` is a function of the
book and returns the entries only, so the book is as before. -/
theorem C11_levels_in_price_order_with_32_bit_sums (ob : Orderbook) (hr : Reachable ob) :
    (ob.GetOrderInfos.GetBids.map (fun i => i.price_)).Pairwise (fun a b => a > b) ∧
    (ob.GetOrderInfos.GetAsks.map (fun i => i.price_)).Pairwise (fun a b => a < b) ∧
    (∀ s p, p ∈ (ob.GetOrderInfos.ofSide s).map (fun i => i.price_) ↔
      Ledger.restingAt (ob.ledger s) p ≠ []) ∧
    (∀ s, ((ob.GetOrderInfos.ofSide s).map (fun i => i.price_)).Nodup) ∧
    (∀ s, ∀ i ∈ ob.GetOrderInfos.ofSide s,
      i.quantity_ =
        wrapInt32 (OrderPointers.remaining (Ledger.restingAt (ob.ledger s) i.price_)) ∧
      (isInt32 (OrderPointers.remaining (Ledger.restingAt (ob.ledger s) i.price_)) →
        i.quantity_ = OrderPointers.remaining (Ledger.restingAt (ob.ledger s) i.price_))) ∧
    (∀ i rest, ob.GetOrderInfos.GetBids = i :: rest →
      ∀ o ∈ Ledger.orders ob.bids_, o.obj.GetPrice ≤ i.price_) ∧
    (∀ i rest, ob.GetOrderInfos.GetAsks = i :: rest →
      ∀ o ∈ Ledger.orders ob.asks_, i.price_ ≤ o.obj.GetPrice) := by
  have hc := hr.wf.consistent
  obtain ⟨b1, b2, b3, b4⟩ := hc.levelInfos Side.Buy
  obtain ⟨a1, a2, a3, a4⟩ := hc.levelInfos Side.Sell
  refine ⟨b1, a1, ?_, ?_, ?_, ?_, ?_⟩
  · intro s p
    cases s
    · exact b2 p
    · exact a2 p
  · intro s
    cases s
    · exact (b1.imp (fun h => ne_of_gt h))
    · exact (a1.imp (fun h => ne_of_lt h))
  · intro s i hi
    have hq : i.quantity_ =
        wrapInt32 (OrderPointers.remaining (Ledger.restingAt (ob.ledger s) i.price_)) := by
      cases s
      · exact b3 i hi
      · exact a3 i hi
    exact ⟨hq, fun hfit => hq.trans (wrapInt32_of_isInt32 hfit)⟩
  · intro i rest hi o ho
    rcases b4 i rest hi o ho with h1 | h1
    · exact le_of_eq h1
    · exact le_of_lt h1
  · intro i rest hi o ho
    rcases a4 i rest hi o ho with h1 | h1
    · exact le_of_eq h1.symm
    · exact le_of_lt h1

/-- C11 on the book with a bid of 10 at 101 above a bid of 10 at 100. -/
theorem C11_levels_in_price_order_with_32_bit_sums_witness :
    (bookTwoLevels.GetOrderInfos.GetBids.map (fun i => i.price_)).Pairwise (fun a b => a > b) ∧
    (bookTwoLevels.GetOrderInfos.GetAsks.map (fun i => i.price_)).Pairwise (fun a b => a < b) ∧
    (∀ s p, p ∈ (bookTwoLevels.GetOrderInfos.ofSide s).map (fun i => i.price_) ↔
      Ledger.restingAt (bookTwoLevels.ledger s) p ≠ []) ∧
    (∀ s, ((bookTwoLevels.GetOrderInfos.ofSide s).map (fun i => i.price_)).Nodup) ∧
    (∀ s, ∀ i ∈ bookTwoLevels.GetOrderInfos.ofSide s,
      i.quantity_ =
        wrapInt32 (OrderPointers.remaining
          (Ledger.restingAt (bookTwoLevels.ledger s) i.price_)) ∧
      (isInt32 (OrderPointers.remaining (Ledger.restingAt (bookTwoLevels.ledger s) i.price_)) →
        i.quantity_ =
          OrderPointers.remaining (Ledger.restingAt (bookTwoLevels.ledger s) i.price_))) ∧
    (∀ i rest, bookTwoLevels.GetOrderInfos.GetBids = i :: rest →
      ∀ o ∈ Ledger.orders bookTwoLevels.bids_, o.obj.GetPrice ≤ i.price_) ∧
    (∀ i rest, bookTwoLevels.GetOrderInfos.GetAsks = i :: rest →
      ∀ o ∈ Ledger.orders bookTwoLevels.asks_, i.price_ ≤ o.obj.GetPrice) :=
  C11_levels_in_price_order_with_32_bit_sums bookTwoLevels reachable_bookTwoLevels

/-- C12 fails where a fill leaves the 32-bit range: on the reachable book with
a buy of 2147483647 at 100, a Good-Till-Cancel sell of -1 at 100 trades -1 and
leaves the buy with -2147483648, so the bid side has lost 4294967295 while the
bid legs record -1. -/
theorem C12_fill_beyond_32_bits :
    Reachable bookBidMax ∧
    bookBidMax.AddOrder sellMinusOne =
      .returns [{ bidTrade_ := { orderId_ := 1, price_ := 100, quantity_ := -1 },
                  askTrade_ := { orderId_ := 2, price_ := 100, quantity_ := -1 } }]
        bookBidMaxWrapped ∧
    OrderPointers.remaining (Ledger.orders bookBidMax.bids_)
      - OrderPointers.remaining (Ledger.orders bookBidMaxWrapped.bids_) = 4294967295 ∧
    legTotal Side.Buy [{ bidTrade_ := { orderId_ := 1, price_ := 100, quantity_ := -1 },
                         askTrade_ := { orderId_ := 2, price_ := 100, quantity_ := -1 } }]
      = -1 :=
  ⟨reachable_bookBidMax, by decide, by decide, by decide⟩

/-- C12 within 32 bits: on a reachable book, `AddOrder` of a newly allocated
Good-Till-Cancel order of quantity `q` with a fresh id returns trades whose two
legs carry the same quantity; on each side, the sum of the remaining
quantities before the call, plus `q` on the side of the order, minus the sum
after the call, differs from the sum of the quantities on the legs of that
side by a multiple of 2^32, and equals it when `q` and the remaining quantities
of the resting orders are not negative. -/
theorem C12_quantity_conservation (ob : Orderbook) (hr : Reachable ob) (addr : Nat)
    (id : OrderId) (side : Side) (p : Price) (q : Quantity) (ha : addr ∉ ob.addrs)
    (hi : id ∉ ob.ids) (hq : isInt32 q) :
    ∃ ts ob1, ob.AddOrder (newOrder addr OrderType.GoodTillCancel id side p q)
        = .returns ts ob1 ∧
      (∀ t ∈ ts, t.GetBidTrade.quantity_ = t.GetAskTrade.quantity_) ∧
      (∀ s, ∃ k : Int,
        OrderPointers.remaining (Ledger.orders (ob.ledger s)) + (if side = s then q else 0)
          - OrderPointers.remaining (Ledger.orders (ob1.ledger s)) - legTotal s ts
            = 4294967296 * k) ∧
      (0 ≤ q → (∀ o ∈ ob.allOrders, 0 ≤ o.obj.GetRemainingQuantity) →
        ∀ s, OrderPointers.remaining (Ledger.orders (ob.ledger s))
          + (if side = s then q else 0)
          - OrderPointers.remaining (Ledger.orders (ob1.ledger s)) = legTotal s ts) := by
  have hw := hr.wf
  obtain ⟨ts, ob1, hrun, hadd⟩ :=
    hw.addOrder_gtc (newOrder addr OrderType.GoodTillCancel id side p q) ha hi hq rfl
  have hent := fun s => Orderbook.enter_remaining ob
    (newOrder addr OrderType.GoodTillCancel id side p q) s
  refine ⟨ts, ob1, hadd, hrun.legs_equal, ?_, ?_⟩
  · intro s
    obtain ⟨k, hk⟩ := hrun.conserves s
    refine ⟨k, ?_⟩
    rw [hent s] at hk
    exact hk
  · intro hq0 hpos s
    have hall : ∀ o ∈ (ob.enter (newOrder addr OrderType.GoodTillCancel id side p q)).allOrders,
        0 ≤ o.obj.remainingQuantity_ ∧ isInt32 o.obj.remainingQuantity_ := by
      intro o ho
      rcases List.mem_cons.1 ((Orderbook.enter_perm ob _).mem_iff.1 ho) with h1 | h1
      · subst h1; exact ⟨hq0, hq⟩
      · exact ⟨hpos o h1, hw.consistent.ranges o h1⟩
    have := hrun.exact hall s
    rw [hent s] at this
    exact this

/-- C12 at scenario 3 of the specification: a sell of 4 at 100 against the
book with the bid of 10 at 100. -/
theorem C12_quantity_conservation_witness :
    ∃ ts ob1, bookBid100.AddOrder (newOrder 2 OrderType.GoodTillCancel 3 Side.Sell 100 4)
        = .returns ts ob1 ∧
      (∀ t ∈ ts, t.GetBidTrade.quantity_ = t.GetAskTrade.quantity_) ∧
      (∀ s, ∃ k : Int,
        OrderPointers.remaining (Ledger.orders (bookBid100.ledger s))
          + (if Side.Sell = s then 4 else 0)
          - OrderPointers.remaining (Ledger.orders (ob1.ledger s)) - legTotal s ts
            = 4294967296 * k) ∧
      (0 ≤ (4 : Quantity) → (∀ o ∈ bookBid100.allOrders, 0 ≤ o.obj.GetRemainingQuantity) →
        ∀ s, OrderPointers.remaining (Ledger.orders (bookBid100.ledger s))
          + (if Side.Sell = s then 4 else 0)
          - OrderPointers.remaining (Ledger.orders (ob1.ledger s)) = legTotal s ts) :=
  C12_quantity_conservation bookBid100 reachable_bookBid100 2 3 Side.Sell 100 4 (by decide)
    (by decide) (by decide)

/-- C13 fails: no book reached from the empty book by the public operations
admitting fresh ids holds a resting Fill-Or-Kill order, so there is none for a
later `AddOrder` to sweep. -/
theorem C13_no_resting_fill_or_kill_order :
    ¬ ∃ (ob : Orderbook) (F : OrderPointer), Reachable ob ∧ F ∈ ob.allOrders ∧
      F.obj.GetOrderType = OrderType.FillOrKill := by
  rintro ⟨ob, F, hr, hF, ht⟩
  have := hr.wf.gtc F hF
  rw [Order.GetOrderType, this] at ht
  cases ht

/-- C13 as the code has it: on a reachable book every resting order is
Good-Till-Cancel, and `AddOrder` of a newly allocated order with a fresh id
returns; every order that rested before the call still rests unchanged after
it or is on the leg of its side of one of the returned trades; when the order
is filed, the only order that the post-loop sweep takes out of the book on
which the loop ended is the submitted order, and it is Fill-Or-Kill; when it is
rejected there is no trade and the book is as before. -/
theorem C13_sweep_removes_only_the_submitted_order (ob : Orderbook) (hr : Reachable ob)
    (addr : Nat) (orderType : OrderType) (id : OrderId) (side : Side) (p : Price)
    (q : Quantity) (ha : addr ∉ ob.addrs) (hi : id ∉ ob.ids) (hq : isInt32 q) :
    (∀ F ∈ ob.allOrders, F.obj.GetOrderType = OrderType.GoodTillCancel) ∧
    ∃ ts ob1, ob.AddOrder (newOrder addr orderType id side p q) = .returns ts ob1 ∧
      (∀ y ∈ ob.allOrders, y ∈ ob1.allOrders ∨
        ∃ t ∈ ts, (t.leg y.obj.GetSide).orderId_ = y.obj.GetOrderId) ∧
      (orderType = OrderType.GoodTillCancel ∨ ob.canMatch side p = true →
        ∃ obL, Run (ob.enter (newOrder addr orderType id side p q)) ts obL ∧
          obL.sweep = .returns () ob1 ∧
          ∀ x ∈ obL.allOrders, x ∉ ob1.allOrders →
            x.obj.GetOrderType = OrderType.FillOrKill ∧ x.addr = addr ∧
              x.obj.GetOrderId = id) ∧
      (orderType = OrderType.FillOrKill ∧ ob.canMatch side p = false →
        ts = [] ∧ ob1 = ob) := by
  have hw := hr.wf
  refine ⟨hw.gtc, ?_⟩
  by_cases hent : orderType = OrderType.GoodTillCancel ∨ ob.canMatch side p = true
  · obtain ⟨ts, obL, ob2, _, hrun, hsw, hadd, _, hcL, _, _⟩ :=
      hw.addOrder_entered (newOrder addr orderType id side p q) ha hi hq hent
    refine ⟨ts, ob2, hadd, ?_, ?_, ?_⟩
    · intro y hy
      have hys : y ∈ Ledger.orders (ob.ledger y.obj.side_) := by
        rcases List.mem_append.1 hy with h1 | h1
        · obtain ⟨l, hl, hyl⟩ := Ledger.mem_orders.1 h1
          rw [(hw.consistent.bids.keyed l hl y hyl).2]; exact h1
        · obtain ⟨l, hl, hyl⟩ := Ledger.mem_orders.1 h1
          rw [(hw.consistent.asks.keyed l hl y hyl).2]; exact h1
      have hye := (Orderbook.enter_sublist ob (newOrder addr orderType id side p q)
        y.obj.side_).subset hys
      rcases hrun.rests_or_trades y.obj.side_ y hye with h1 | h1
      · left
        refine hcL.sweep_keeps hsw y ?_ (hw.gtc y hy)
        cases hs : y.obj.side_ with
        | Buy => rw [hs] at h1; exact List.mem_append_left _ h1
        | Sell => rw [hs] at h1; exact List.mem_append_right _ h1
      · exact Or.inr h1
    · intro _
      refine ⟨obL, hrun, hsw, ?_⟩
      intro x hx hnx
      have hfok : x.obj.orderType_ = OrderType.FillOrKill := by
        cases hxt : x.obj.orderType_ with
        | GoodTillCancel => exact absurd (hcL.sweep_keeps hsw x hx hxt) hnx
        | FillOrKill => rfl
      have hside : ∃ s, x ∈ Ledger.orders (obL.ledger s) := by
        rcases List.mem_append.1 hx with h1 | h1
        · exact ⟨Side.Buy, h1⟩
        · exact ⟨Side.Sell, h1⟩
      obtain ⟨s, hxs⟩ := hside
      obtain ⟨y, hy, hxy⟩ := hrun.descend s x hxs
      have hy1 : y ∈ (ob.enter (newOrder addr orderType id side p q)).allOrders := by
        cases s
        · exact List.mem_append_left _ hy
        · exact List.mem_append_right _ hy
      rcases List.mem_cons.1 ((Orderbook.enter_perm ob _).mem_iff.1 hy1) with h1 | h1
      · subst h1
        exact ⟨hfok, hxy.1, hxy.2.2.1⟩
      · have := hw.gtc y h1
        rw [← hxy.2.1, hfok] at this
        cases this
    · rintro ⟨h1, h2⟩
      rcases hent with h3 | h3
      · rw [h1] at h3; cases h3
      · rw [h2] at h3; cases h3
  · have h1 : orderType = OrderType.FillOrKill := by
      cases orderType with
      | GoodTillCancel => exact absurd (Or.inl rfl) hent
      | FillOrKill => rfl
    have h2 : ob.canMatch side p = false := by
      cases hc : ob.canMatch side p with
      | false => rfl
      | true => exact absurd (Or.inr hc) hent
    refine ⟨[], ob, ?_, fun y hy => Or.inl hy, fun h => absurd h hent, fun _ => ⟨rfl, rfl⟩⟩
    exact Orderbook.AddOrder_rejected ob (newOrder addr orderType id side p q) h1 h2

/-- C13 on the book with the bid of 10 at 100 and a Fill-Or-Kill sell of 14
at 90: the bid trades, and the sweep removes the rest of the sell. -/
theorem C13_sweep_removes_only_the_submitted_order_witness :
    (∀ F ∈ bookBid100.allOrders, F.obj.GetOrderType = OrderType.GoodTillCancel) ∧
    ∃ ts ob1, bookBid100.AddOrder (newOrder 2 OrderType.FillOrKill 3 Side.Sell 90 14)
        = .returns ts ob1 ∧
      (∀ y ∈ bookBid100.allOrders, y ∈ ob1.allOrders ∨
        ∃ t ∈ ts, (t.leg y.obj.GetSide).orderId_ = y.obj.GetOrderId) ∧
      (OrderType.FillOrKill = OrderType.GoodTillCancel ∨
          bookBid100.canMatch Side.Sell 90 = true →
        ∃ obL, Run (bookBid100.enter (newOrder 2 OrderType.FillOrKill 3 Side.Sell 90 14))
            ts obL ∧
          obL.sweep = .returns () ob1 ∧
          ∀ x ∈ obL.allOrders, x ∉ ob1.allOrders →
            x.obj.GetOrderType = OrderType.FillOrKill ∧ x.addr = 2 ∧
              x.obj.GetOrderId = 3) ∧
      (OrderType.FillOrKill = OrderType.FillOrKill ∧
          bookBid100.canMatch Side.Sell 90 = false →
        ts = [] ∧ ob1 = bookBid100) :=
  C13_sweep_removes_only_the_submitted_order bookBid100 reachable_bookBid100 2
    OrderType.FillOrKill 3 Side.Sell 90 14 (by decide) (by decide) (by decide)

/-- C14 fails for negative quantities, which `AddOrder` admits: a buy of -5
rests with the remaining quantity -5; and a sell of -3 against the resting buy
of 10 at 100 trades -3 and leaves that buy with 13, more than before the call
and more than its initial quantity. -/
theorem C14_negative_quantity_rests_and_raises :
    Reached anyQuantity bookMinusFive ∧ bidMinusFive ∈ bookMinusFive.allOrders ∧
    bidMinusFive.obj.GetRemainingQuantity < 0 ∧
    Reached anyQuantity bookBid100 ∧
    bookBid100.AddOrder sellMinusThree =
      .returns [{ bidTrade_ := { orderId_ := 1, price_ := 100, quantity_ := -3 },
                  askTrade_ := { orderId_ := 2, price_ := 100, quantity_ := -3 } }]
        bookBid13 ∧
    bid100 ∈ bookBid100.allOrders ∧ bid100at13 ∈ bookBid13.allOrders ∧
    bid100at13.sameOrder bid100 ∧
    bid100.obj.GetRemainingQuantity < bid100at13.obj.GetRemainingQuantity ∧
    bid100at13.obj.GetInitialQuantity < bid100at13.obj.GetRemainingQuantity :=
  ⟨reached_bookMinusFive, by decide, by decide, reached_bookBid100 anyQuantity trivial,
    by decide, by decide, by decide, ⟨rfl, rfl, rfl, rfl, rfl, rfl⟩, by decide, by decide⟩

/-- C14 for quantities that are not negative: in every book reached from the
empty book by the public operations, whatever the ids, when every admitted
quantity is at least 0, every resting order has a remaining quantity between 0
and its initial quantity; and in the book that an `AddOrder`, a `CancelOrder`
or a `MatchOrder` of such a quantity leaves, every order that rested before the
call (the same object) is the same order with a remaining quantity that is not
greater; a `CancelOrder` leaves the orders it keeps as they were. -/
theorem C14_remaining_between_zero_and_initial (ob : Orderbook)
    (hr : Reached nonNegative ob) :
    (∀ o ∈ ob.allOrders, 0 ≤ o.obj.GetRemainingQuantity ∧
      o.obj.GetRemainingQuantity ≤ o.obj.GetInitialQuantity) ∧
    (∀ (addr : Nat) (orderType : OrderType) (id : OrderId) (side : Side) (p : Price)
      (q : Quantity) (ob1 : Orderbook), addr ∉ ob.addrs → isInt32 q → 0 ≤ q →
      (ob.AddOrder (newOrder addr orderType id side p q)).book? = some ob1 →
      ∀ x ∈ ob1.allOrders, ∀ y ∈ ob.allOrders, x.addr = y.addr →
        x.sameOrder y ∧ x.obj.GetRemainingQuantity ≤ y.obj.GetRemainingQuantity) ∧
    (∀ (id : OrderId) (ob1 : Orderbook), (ob.CancelOrder id).book? = some ob1 →
      ∀ x ∈ ob1.allOrders, x ∈ ob.allOrders) ∧
    (∀ (m : OrderModify) (addr : Nat) (ob1 : Orderbook), addr ∉ ob.addrs →
      isInt32 m.GetQuantity → 0 ≤ m.GetQuantity →
      (ob.MatchOrder m addr).book? = some ob1 →
      ∀ x ∈ ob1.allOrders, ∀ y ∈ ob.allOrders, x.addr = y.addr →
        x.sameOrder y ∧ x.obj.GetRemainingQuantity ≤ y.obj.GetRemainingQuantity) := by
  have hs := hr.ledgers_sound
  have hb := hr.ledgers_bounded
  have hsame : ∀ x ∈ ob.allOrders, ∀ y ∈ ob.allOrders, x.addr = y.addr →
      x.sameOrder y ∧ x.obj.GetRemainingQuantity ≤ y.obj.GetRemainingQuantity := by
    intro x hx y hy hxy
    rw [hs.addr_unique hx hy hxy]
    exact ⟨y.sameOrder_refl, le_refl _⟩
  refine ⟨fun o ho => ⟨(hb o ho).1, (hb o ho).2.1⟩, ?_, fun id ob1 h => hs.cancel_subset h, ?_⟩
  · intro addr orderType id side p q ob1 ha hq hq0 hadd x hx y hy hxy
    rcases (hb.addOrder_bounded hs (newOrder addr orderType id side p q) ha hq0 (le_refl _) hq
      hadd).2 x hx with h1 | ⟨z, hz, hxz, hle⟩
    · exfalso
      apply ha
      have : y.addr = addr := hxy.symm.trans h1.1
      rw [← this]
      exact List.mem_map.2 ⟨y, hy, rfl⟩
    · have : z = y := hs.addr_unique hz hy (hxz.1.symm.trans hxy)
      subst this
      exact ⟨hxz, hle⟩
  · intro m addr ob1 ha hq hq0 hmod x hx y hy hxy
    rcases Orderbook.MatchOrder_book hmod with h1 | ⟨e, h1⟩ | ⟨e, u, ob2, _, h1, h2⟩
    · subst h1; exact hsame x hx y hy hxy
    · have hc : (ob.CancelOrder m.GetOrderId).book? = some ob1 := by rw [h1]; rfl
      exact hsame x (hs.cancel_subset hc x hx) y hy hxy
    · have hc : (ob.CancelOrder m.GetOrderId).book? = some ob2 := by rw [h1]; rfl
      have hsub := hs.cancel_subset hc
      have s2 := (hs.cancel_sound hc).1
      have b2 := hb.of_subset hsub
      have ha2 : addr ∉ ob2.addrs := by
        intro hmem
        obtain ⟨z, hz, hza⟩ := List.mem_map.1 hmem
        exact ha (List.mem_map.2 ⟨z, hsub z hz, hza⟩)
      rcases (b2.addOrder_bounded s2 (m.toOrderPointer e.order_.obj.GetOrderType addr) ha2 hq0
        (le_refl _) hq h2).2 x hx with h3 | ⟨z, hz, hxz, hle⟩
      · exfalso
        apply ha
        have : y.addr = addr := hxy.symm.trans h3.1
        rw [← this]
        exact List.mem_map.2 ⟨y, hy, rfl⟩
      · have : z = y := hs.addr_unique (hsub z hz) hy (hxz.1.symm.trans hxy)
        subst this
        exact ⟨hxz, hle⟩

/-- C14 on the book with the bid of 10 at 100. -/
theorem C14_remaining_between_zero_and_initial_witness :
    (∀ o ∈ bookBid100.allOrders, 0 ≤ o.obj.GetRemainingQuantity ∧
      o.obj.GetRemainingQuantity ≤ o.obj.GetInitialQuantity) ∧
    (∀ (addr : Nat) (orderType : OrderType) (id : OrderId) (side : Side) (p : Price)
      (q : Quantity) (ob1 : Orderbook), addr ∉ bookBid100.addrs → isInt32 q → 0 ≤ q →
      (bookBid100.AddOrder (newOrder addr orderType id side p q)).book? = some ob1 →
      ∀ x ∈ ob1.allOrders, ∀ y ∈ bookBid100.allOrders, x.addr = y.addr →
        x.sameOrder y ∧ x.obj.GetRemainingQuantity ≤ y.obj.GetRemainingQuantity) ∧
    (∀ (id : OrderId) (ob1 : Orderbook), (bookBid100.CancelOrder id).book? = some ob1 →
      ∀ x ∈ ob1.allOrders, x ∈ bookBid100.allOrders) ∧
    (∀ (m : OrderModify) (addr : Nat) (ob1 : Orderbook), addr ∉ bookBid100.addrs →
      isInt32 m.GetQuantity → 0 ≤ m.GetQuantity →
      (bookBid100.MatchOrder m addr).book? = some ob1 →
      ∀ x ∈ ob1.allOrders, ∀ y ∈ bookBid100.allOrders, x.addr = y.addr →
        x.sameOrder y ∧ x.obj.GetRemainingQuantity ≤ y.obj.GetRemainingQuantity) :=
  C14_remaining_between_zero_and_initial bookBid100
    (reached_bookBid100 nonNegative (by unfold nonNegative; decide))

/-- C15, no crossing remains: in every book reached from the empty book by
the public operations admitting fresh ids, the bid ledger is empty, or the ask
ledger is empty, or the best bid price is below the best ask price; every
resting bid is priced below every resting ask, and a pass of the crossing loop
breaks at once. -/
theorem C15_no_crossing_remains (ob : Orderbook) (hr : Reachable ob) :
    (ob.bids_ = [] ∨ ob.asks_ = [] ∨
      ∃ bp bf br ap af ar, ob.bids_ = (bp, bf) :: br ∧ ob.asks_ = (ap, af) :: ar ∧ bp < ap) ∧
    (∀ b ∈ Ledger.orders ob.bids_, ∀ a ∈ Ledger.orders ob.asks_,
      b.obj.GetPrice < a.obj.GetPrice) ∧
    ob.matchStep = .done := by
  have hw := hr.wf
  have hd := hw.consistent.done_of_uncrossed hw.uncrossed
  refine ⟨(Orderbook.matchStep_done_iff ob).1 hd, ?_, hd⟩
  intro b hb a ha
  obtain ⟨lb, hlb, hbl⟩ := Ledger.mem_orders.1 hb
  obtain ⟨la, hla, hal⟩ := Ledger.mem_orders.1 ha
  have h1 := (hw.consistent.bids.keyed lb hlb b hbl).1
  have h2 := (hw.consistent.asks.keyed la hla a hal).1
  have h3 := hw.uncrossed lb hlb la hla
  simp only [Order.GetPrice]
  rw [h1, h2]; exact h3

/-- C15 on the book with a bid at 100 and an ask at 105. -/
theorem C15_no_crossing_remains_witness :
    (bookBidAsk.bids_ = [] ∨ bookBidAsk.asks_ = [] ∨
      ∃ bp bf br ap af ar, bookBidAsk.bids_ = (bp, bf) :: br ∧
        bookBidAsk.asks_ = (ap, af) :: ar ∧ bp < ap) ∧
    (∀ b ∈ Ledger.orders bookBidAsk.bids_, ∀ a ∈ Ledger.orders bookBidAsk.asks_,
      b.obj.GetPrice < a.obj.GetPrice) ∧
    bookBidAsk.matchStep = .done :=
  C15_no_crossing_remains bookBidAsk reachable_bookBidAsk

/-- C16 fails when an id is admitted while it rests: after two buys with id 1
the index has one entry and the bid ledger two orders; a sell that fills the
first buy then erases the entry of id 1, and the second buy rests with id 1
while the index has no key 1. -/
theorem C16_same_id_admitted_twice :
    Reached anyQuantity bookSameId ∧ bookSameId.Size = 1 ∧
    bookSameId.allOrders.length = 2 ∧
    bookSameId.AddOrder sell100x10 =
      .returns [{ bidTrade_ := { orderId_ := 1, price_ := 100, quantity_ := 10 },
                  askTrade_ := { orderId_ := 2, price_ := 100, quantity_ := 10 } }]
        bookNoEntry ∧
    Reached anyQuantity bookNoEntry ∧
    bid100same ∈ bookNoEntry.allOrders ∧ bid100same.obj.GetOrderId = 1 ∧
    Index.at bookNoEntry.orders_ 1 = none ∧ bookNoEntry.Size = 0 :=
  ⟨reached_bookSameId, by decide, by decide, by decide, reached_bookNoEntry, by decide,
    by decide, by decide, by decide⟩

/-- C16 for fresh ids: in every book reached from the empty book by the
public operations, each admitting an id that does not rest at the time, an id
is a key of the index exactly when an order with that id is in a level of the
bid or ask ledger, the entry of an id holds the resting order of that id, and
`Size` is the number of orders in the levels of the two ledgers. -/
theorem C16_index_and_ledgers_agree (ob : Orderbook) (hr : Reachable ob) :
    (∀ id, (∃ e, Index.at ob.orders_ id = some e) ↔
      ∃ o ∈ ob.allOrders, o.obj.GetOrderId = id) ∧
    (∀ id e, Index.at ob.orders_ id = some e →
      e.order_ ∈ ob.allOrders ∧ e.order_.obj.GetOrderId = id) ∧
    ob.Size = ob.allOrders.length ∧
    ob.Size = (Ledger.orders ob.bids_).length + (Ledger.orders ob.asks_).length := by
  have hc := hr.wf.consistent
  have hlen : ob.Size = ob.allOrders.length := hc.index.length_eq
  refine ⟨?_, ?_, hlen, ?_⟩
  · intro id
    constructor
    · rintro ⟨e, he⟩
      obtain ⟨h1, h2, _⟩ := hc.index.sound _ (Index.mem_of_at_entry _ _ _ he)
      exact ⟨e.order_, h1, h2⟩
    · rintro ⟨o, ho, hid⟩
      refine ⟨{ order_ := o, location_ := o.addr }, ?_⟩
      rw [← hid]
      exact hc.entry_of_mem ho
  · intro id e he
    obtain ⟨h1, h2, _⟩ := hc.index.sound _ (Index.mem_of_at_entry _ _ _ he)
    exact ⟨h1, h2⟩
  · rw [hlen, Orderbook.allOrders, List.length_append]

/-- C16 on the book with two bids at 100 of scenario 1 of the specification. -/
theorem C16_index_and_ledgers_agree_witness :
    (∀ id, (∃ e, Index.at bookTwoBids.orders_ id = some e) ↔
      ∃ o ∈ bookTwoBids.allOrders, o.obj.GetOrderId = id) ∧
    (∀ id e, Index.at bookTwoBids.orders_ id = some e →
      e.order_ ∈ bookTwoBids.allOrders ∧ e.order_.obj.GetOrderId = id) ∧
    bookTwoBids.Size = bookTwoBids.allOrders.length ∧
    bookTwoBids.Size =
      (Ledger.orders bookTwoBids.bids_).length + (Ledger.orders bookTwoBids.asks_).length :=
  C16_index_and_ledgers_agree bookTwoBids reachable_bookTwoBids

/-- C17, no empty level persists: in every book reached from the empty book
by the public operations admitting fresh ids, every level of the bid ledger
and every level of the ask ledger holds at least one order. -/
theorem C17_no_empty_level_persists (ob : Orderbook) (hr : Reachable ob) :
    (∀ l ∈ ob.bids_, l.2 ≠ []) ∧ (∀ l ∈ ob.asks_, l.2 ≠ []) :=
  ⟨hr.wf.consistent.bids.nonempty, hr.wf.consistent.asks.nonempty⟩

/-- C17 on the book with a bid at 101 above a bid at 100. -/
theorem C17_no_empty_level_persists_witness :
    (∀ l ∈ bookTwoLevels.bids_, l.2 ≠ []) ∧ (∀ l ∈ bookTwoLevels.asks_, l.2 ≠ []) :=
  C17_no_empty_level_persists bookTwoLevels reachable_bookTwoLevels

/-- C18, no invalid fill: the quantity that the crossing loop passes to `Fill`
is the minimum of the remaining quantities of the two front orders, for which
`Fill` succeeds on both; on every book no pass of the loop and no run of it
ends in an exception, and neither `AddOrder` nor `MatchOrder` throws the
`logic_error` of `Fill`. -/
theorem C18_invalid_fill_unreachable (ob : Orderbook) :
    (∀ b a : Order,
      min b.GetRemainingQuantity a.GetRemainingQuantity ≤ b.GetRemainingQuantity ∧
      min b.GetRemainingQuantity a.GetRemainingQuantity ≤ a.GetRemainingQuantity ∧
      (∃ b1, b.Fill (min b.GetRemainingQuantity a.GetRemainingQuantity) = .ok b1) ∧
      (∃ a1, a.Fill (min b.GetRemainingQuantity a.GetRemainingQuantity) = .ok a1)) ∧
    (∀ e ob1, ob.matchStep ≠ .raise e ob1) ∧
    (∀ fuel tr e ob1, Orderbook.matchLoop fuel ob tr ≠ .throws e ob1) ∧
    (∀ o ob1, ob.AddOrder o ≠ .throws .logic_error ob1) ∧
    (∀ m addr ob1, ob.MatchOrder m addr ≠ .throws .logic_error ob1) := by
  refine ⟨?_, Orderbook.matchStep_no_raise ob, fun fuel tr e ob1 =>
    Orderbook.matchLoop_no_throw fuel ob tr e ob1, Orderbook.AddOrder_no_logic_error ob,
    Orderbook.MatchOrder_no_logic_error ob⟩
  intro b a
  simp only [Order.GetRemainingQuantity]
  exact ⟨min_le_left _ _, min_le_right _ _, ⟨_, Order.Fill_ok b _ (min_le_left _ _)⟩,
    ⟨_, Order.Fill_ok a _ (min_le_right _ _)⟩⟩

/-- C19, a Fill-Or-Kill order never rests: on a book reached from the empty
book by the public operations admitting fresh ids, `AddOrder` of a newly
allocated Fill-Or-Kill order whose id is not in the index returns, and in the
book it leaves no resting order has that id and the index has no entry for it
(with no trade and the same book when the feasibility check fails); every
resting order and every order held by the index is Good-Till-Cancel, so the
order that `MatchOrder` admits again is Good-Till-Cancel. -/
theorem C19_fok_never_rests (ob : Orderbook) (hr : Reachable ob) :
    (∀ (addr : Nat) (id : OrderId) (side : Side) (p : Price) (q : Quantity),
      addr ∉ ob.addrs → Index.at ob.orders_ id = none → isInt32 q →
      ∃ ts ob1, ob.AddOrder (newOrder addr OrderType.FillOrKill id side p q) = .returns ts ob1 ∧
        (∀ o ∈ ob1.allOrders, o.obj.GetOrderId ≠ id) ∧ Index.at ob1.orders_ id = none ∧
        (ob.canMatch side p = false → ts = [] ∧ ob1 = ob)) ∧
    (∀ o ∈ ob.allOrders, o.obj.GetOrderType = OrderType.GoodTillCancel) ∧
    (∀ id e, Index.at ob.orders_ id = some e →
      e.order_.obj.GetOrderType = OrderType.GoodTillCancel) ∧
    (∀ (m : OrderModify) (addr : Nat) (e : OrderEntry),
      Index.at ob.orders_ m.GetOrderId = some e →
      m.toOrderPointer e.order_.obj.GetOrderType addr =
        newOrder addr OrderType.GoodTillCancel m.GetOrderId m.GetSide m.GetPrice
          m.GetQuantity) := by
  have hw := hr.wf
  have hidx : ∀ id e, Index.at ob.orders_ id = some e →
      e.order_.obj.orderType_ = OrderType.GoodTillCancel := by
    intro id e he
    exact hw.gtc _ (hw.consistent.index.sound _ (Index.mem_of_at_entry _ _ _ he)).1
  refine ⟨?_, hw.gtc, hidx, ?_⟩
  · intro addr id side p q ha hn hq
    have hi : id ∉ ob.ids := by
      intro hmem
      obtain ⟨o, ho, hoid⟩ := List.mem_map.1 hmem
      have := hw.consistent.entry_of_mem ho
      rw [hoid, hn] at this
      cases this
    cases hcm : ob.canMatch side p with
    | false =>
      refine ⟨[], ob, Orderbook.AddOrder_rejected ob _ rfl hcm, ?_, hn, fun _ => ⟨rfl, rfl⟩⟩
      intro o ho hoid
      exact hi (List.mem_map.2 ⟨o, ho, hoid⟩)
    | true =>
      obtain ⟨ts, ob1, h1, _, _, h4, h5, _⟩ :=
        hw.addOrder_fok (newOrder addr OrderType.FillOrKill id side p q) ha hi hq rfl hcm
      refine ⟨ts, ob1, h1, ?_, h5, fun hc => by cases hc⟩
      intro o ho hoid
      exact h4 (List.mem_map.2 ⟨o, ho, hoid⟩)
  · intro m addr e he
    have := hidx _ e he
    simp only [Order.GetOrderType, this]
    rfl

/-- C19 on the book with the bid of 10 at 100: Fill-Or-Kill orders for it. -/
theorem C19_fok_never_rests_witness :
    (∀ (addr : Nat) (id : OrderId) (side : Side) (p : Price) (q : Quantity),
      addr ∉ bookBid100.addrs → Index.at bookBid100.orders_ id = none → isInt32 q →
      ∃ ts ob1, bookBid100.AddOrder (newOrder addr OrderType.FillOrKill id side p q)
          = .returns ts ob1 ∧
        (∀ o ∈ ob1.allOrders, o.obj.GetOrderId ≠ id) ∧ Index.at ob1.orders_ id = none ∧
        (bookBid100.canMatch side p = false → ts = [] ∧ ob1 = bookBid100)) ∧
    (∀ o ∈ bookBid100.allOrders, o.obj.GetOrderType = OrderType.GoodTillCancel) ∧
    (∀ id e, Index.at bookBid100.orders_ id = some e →
      e.order_.obj.GetOrderType = OrderType.GoodTillCancel) ∧
    (∀ (m : OrderModify) (addr : Nat) (e : OrderEntry),
      Index.at bookBid100.orders_ m.GetOrderId = some e →
      m.toOrderPointer e.order_.obj.GetOrderType addr =
        newOrder addr OrderType.GoodTillCancel m.GetOrderId m.GetSide m.GetPrice
          m.GetQuantity) :=
  C19_fok_never_rests bookBid100 reachable_bookBid100

/-- C20 fails when the id of the order is the id of a resting order: after a
sell of 5 at 100 with id 1, `AddOrder` of a Fill-Or-Kill buy of 8 at 100 with
the same id 1 runs the crossing loop, which ends after one trade and erases
key 1 from the index; the post-loop sweep then calls `CancelOrder(1)` for the
unfilled buy, `orders_.at` throws `std::out_of_range`, and `AddOrder` does not
return. -/
theorem C20_add_order_throws_on_erased_id :
    Reached anyQuantity bookSell100 ∧
    Orderbook.matchLoop ((bookSell100.enter fokBuySameId).resting + 1)
        (bookSell100.enter fokBuySameId) [] =
      .returns [{ bidTrade_ := { orderId_ := 1, price_ := 100, quantity_ := 5 },
                  askTrade_ := { orderId_ := 1, price_ := 100, quantity_ := 5 } }]
        bookFokLeft ∧
    bookFokLeft.sweep = .throws .out_of_range bookFokLeft ∧
    bookSell100.AddOrder fokBuySameId = .throws .out_of_range bookFokLeft :=
  ⟨reached_bookSell100, by decide, by decide, by decide⟩

/-- C20 for fresh ids: on every book reached from the empty book by the public
operations admitting fresh ids, `AddOrder` of a newly allocated order with a
fresh id, of any side, type, price and 32-bit quantity, returns, with at most
one trade more than orders rested before the call. When the order is filed,
the crossing loop ends on a book after finitely many passes, with at most as
many trades as orders rest when it starts (one more than before the call) and
as the index has keys when it starts (the capacity that `trades.reserve`
sets), and the sweep returns; when the order is rejected there is no trade and
the book is as before. Every pass of the loop on a book that satisfies the
invariant of a call sets the remaining quantity of the front bid or of the
front ask to 0, takes that order out and leaves fewer resting orders. -/
theorem C20_crossing_loop_ends (ob : Orderbook) (hr : Reachable ob) (addr : Nat)
    (orderType : OrderType) (id : OrderId) (side : Side) (p : Price) (q : Quantity)
    (ha : addr ∉ ob.addrs) (hi : id ∉ ob.ids) (hq : isInt32 q) :
    (∃ ts ob1, ob.AddOrder (newOrder addr orderType id side p q) = .returns ts ob1 ∧
      ts.length ≤ ob.resting + 1 ∧
      (orderType = OrderType.GoodTillCancel ∨ ob.canMatch side p = true →
        ∃ obL, Run (ob.enter (newOrder addr orderType id side p q)) ts obL ∧
          Orderbook.matchLoop ((ob.enter (newOrder addr orderType id side p q)).resting + 1)
            (ob.enter (newOrder addr orderType id side p q)) [] = .returns ts obL ∧
          obL.sweep = .returns () ob1 ∧
          ts.length + obL.resting ≤ (ob.enter (newOrder addr orderType id side p q)).resting ∧
          (ob.enter (newOrder addr orderType id side p q)).resting = ob.resting + 1 ∧
          ts.length ≤ (ob.enter (newOrder addr orderType id side p q)).Size) ∧
      (orderType = OrderType.FillOrKill ∧ ob.canMatch side p = false →
        ts = [] ∧ ob1 = ob)) ∧
    (∀ (book book1 : Orderbook) (t : Trade), book.Consistent → book.matchStep = .next t book1 →
      book1.resting < book.resting ∧
      ∃ b a Xb Xa, Ledger.orders book.bids_ = b :: Xb ∧ Ledger.orders book.asks_ = a :: Xa ∧
        (((b.fill (min b.obj.GetRemainingQuantity a.obj.GetRemainingQuantity)).obj.GetRemainingQuantity
            = 0 ∧ Ledger.orders book1.bids_ = Xb) ∨
         ((a.fill (min b.obj.GetRemainingQuantity a.obj.GetRemainingQuantity)).obj.GetRemainingQuantity
            = 0 ∧ Ledger.orders book1.asks_ = Xa))) := by
  have hw := hr.wf
  refine ⟨?_, fun book book1 t _ hs =>
    ⟨Orderbook.resting_step hs, Orderbook.matchStep_removes hs⟩⟩
  by_cases hent : orderType = OrderType.GoodTillCancel ∨ ob.canMatch side p = true
  · obtain ⟨ts, obL, ob2, hce, hrun, hsw, hadd, _, _, _, _⟩ :=
      hw.addOrder_entered (newOrder addr orderType id side p q) ha hi hq hent
    obtain ⟨ts1, obL1, hloop, hrun1⟩ := Orderbook.matchLoop_total
      (ob.enter (newOrder addr orderType id side p q)) hce.bids.nonempty hce.asks.nonempty
      ((ob.enter (newOrder addr orderType id side p q)).resting + 1) (Nat.lt_succ_self _) []
    rw [List.nil_append] at hloop
    obtain ⟨e1, e2⟩ := Run.unique hrun1 hrun
    subst e1; subst e2
    have hlen := hrun.length_le
    have hrest := Orderbook.enter_resting ob (newOrder addr orderType id side p q)
    have hsize : (ob.enter (newOrder addr orderType id side p q)).Size =
        (ob.enter (newOrder addr orderType id side p q)).resting := by
      rw [Orderbook.Size, hce.index.length_eq, Orderbook.allOrders, List.length_append]
      rfl
    refine ⟨ts1, ob2, hadd, by omega, fun _ => ⟨obL1, hrun, hloop, hsw, hlen, hrest, by omega⟩,
      ?_⟩
    rintro ⟨h1, h2⟩
    rcases hent with h3 | h3
    · rw [h1] at h3; cases h3
    · rw [h2] at h3; cases h3
  · have h1 : orderType = OrderType.FillOrKill := by
      cases orderType with
      | GoodTillCancel => exact absurd (Or.inl rfl) hent
      | FillOrKill => rfl
    have h2 : ob.canMatch side p = false := by
      cases hc : ob.canMatch side p with
      | false => rfl
      | true => exact absurd (Or.inr hc) hent
    exact ⟨[], ob, Orderbook.AddOrder_rejected ob (newOrder addr orderType id side p q) h1 h2,
      Nat.zero_le _, fun h => absurd h hent, fun _ => ⟨rfl, rfl⟩⟩

/-- C20 on the book with the sell of 5 at 90 and a buy of 5 at 100. -/
theorem C20_crossing_loop_ends_witness :
    (∃ ts ob1, bookSell90.AddOrder (newOrder 1 OrderType.GoodTillCancel 2 Side.Buy 100 5)
        = .returns ts ob1 ∧
      ts.length ≤ bookSell90.resting + 1 ∧
      (OrderType.GoodTillCancel = OrderType.GoodTillCancel ∨
          bookSell90.canMatch Side.Buy 100 = true →
        ∃ obL, Run (bookSell90.enter (newOrder 1 OrderType.GoodTillCancel 2 Side.Buy 100 5))
            ts obL ∧
          Orderbook.matchLoop
            ((bookSell90.enter (newOrder 1 OrderType.GoodTillCancel 2 Side.Buy 100 5)).resting
              + 1)
            (bookSell90.enter (newOrder 1 OrderType.GoodTillCancel 2 Side.Buy 100 5)) []
              = .returns ts obL ∧
          obL.sweep = .returns () ob1 ∧
          ts.length + obL.resting ≤
            (bookSell90.enter (newOrder 1 OrderType.GoodTillCancel 2 Side.Buy 100 5)).resting ∧
          (bookSell90.enter (newOrder 1 OrderType.GoodTillCancel 2 Side.Buy 100 5)).resting
            = bookSell90.resting + 1 ∧
          ts.length ≤
            (bookSell90.enter (newOrder 1 OrderType.GoodTillCancel 2 Side.Buy 100 5)).Size) ∧
      (OrderType.GoodTillCancel = OrderType.FillOrKill ∧
          bookSell90.canMatch Side.Buy 100 = false →
        ts = [] ∧ ob1 = bookSell90)) ∧
    (∀ (book book1 : Orderbook) (t : Trade), book.Consistent → book.matchStep = .next t book1 →
      book1.resting < book.resting ∧
      ∃ b a Xb Xa, Ledger.orders book.bids_ = b :: Xb ∧ Ledger.orders book.asks_ = a :: Xa ∧
        (((b.fill (min b.obj.GetRemainingQuantity a.obj.GetRemainingQuantity)).obj.GetRemainingQuantity
            = 0 ∧ Ledger.orders book1.bids_ = Xb) ∨
         ((a.fill (min b.obj.GetRemainingQuantity a.obj.GetRemainingQuantity)).obj.GetRemainingQuantity
            = 0 ∧ Ledger.orders book1.asks_ = Xa))) :=
  C20_crossing_loop_ends bookSell90 reachable_bookSell90 1 OrderType.GoodTillCancel 2 Side.Buy
    100 5 (by decide) (by decide) (by decide)

end OrderBook
